import Mathlib

/-!
HungarianEigen: a shallow embedding of `src/hungarian_eigen.cpp`

The solver `HungarianEigen::solve` (Munkres method on an `Eigen::MatrixXd`) and the
converter `HungarianEigen::asVectorPairs` are translated loop by loop.

Conventions of the embedding

* The solver is translated twice, with the same control flow and two readings of
  `double`.  In the main model the entries are exact numbers, here integers (`Int`):
  sums, differences and comparisons are exact, and there is no infinite entry and no
  `NaN`.  This is the reading "entries taken as exact numbers, exact arithmetic" of the
  specification, and the general theorems are about it.  In the namespace `Ieee` the
  entries are the `double` values that are integers, `+inf`, `-inf` or `NaN`, every sum
  and difference is rounded to 53 significant bits, and a comparison with `NaN` is
  false.  It is evaluated where the two readings differ: at entries of magnitude `2^53`
  and more, and at infinite entries.
* The near-zero test `x < std::numeric_limits<double>::epsilon()` (epsilon is `2^-52`)
  is, on integers, the test `x < 1`; this is how `isZero` is written.
* `Eigen::Index` values are natural numbers; an index that the source initialises to
  `-1` and tests against `-1` is an `Option`.
* `Eigen::MatrixXi` marks (`star`, `prime`) and cover vectors only ever hold `0` or `1`
  and are Boolean valued functions of the indices; a matrix carries its dimensions
  separately and is only read inside them.
* `while (true)` loops are recursions on a fuel argument which counts loop iterations;
  running out of fuel is the result `none`.  `solve` supplies the fuel, and the theorems
  show that it is never exhausted.
* `Eigen::VectorXi` is a `List Int`; `static_cast<int>` of a column index is the
  inclusion of `Nat` in `Int` (matrices whose dimensions do not fit an `int` are outside
  the model).
* Statements about the states that occur during a run ("whenever the loop condition is
  evaluated", "whenever the adjustment step runs") are made about the points of `Reach`,
  the transition relation that follows the control flow of the functions of the model;
  `mainLoop_reach`, `search_reach`, `scanRows_reach` and `growPath_reach` show that the
  functions run through these points.
-/

namespace HungarianEigen

/-! ## Data model -/

/-- The caller's cost matrix, an `Eigen::MatrixXd` with `rows()`, `cols()` and
coefficient access, its entries read as exact integers.  A matrix with an entry `+inf`,
`-inf` or `NaN` is not of this type: it is an `Ieee.CostMatrix`. -/
structure CostMatrix where
  nRows : Nat
  nCols : Nat
  coeff : Nat → Nat → Int

/-- The two `throw std::invalid_argument(...)` statements of `solve`. -/
inductive SolveError where
  | emptyMatrix
  | negativeCosts
  deriving DecidableEq, Repr

/-- Working state of `solve`: `dist`, `star`, `prime`, `coverRow`, `coverCol`. -/
structure Work where
  dist : Nat → Nat → Int
  star : Nat → Nat → Bool
  prime : Nat → Nat → Bool
  coverRow : Nat → Bool
  coverCol : Nat → Bool

/-- The test `x < POS_EPS` on integer valued entries. -/
def isZero (x : Int) : Bool := decide (x < 1)

/-- Write `v` at index `i` of a vector. -/
def setVec {α : Type} (f : Nat → α) (i : Nat) (v : α) : Nat → α :=
  fun k => if k = i then v else f k

/-- Write `v` at cell `(r, c)` of a matrix. -/
def setMat {α : Type} (f : Nat → Nat → α) (r c : Nat) (v : α) : Nat → Nat → α :=
  fun i j => if i = r ∧ j = c then v else f i j

/-! ## Loop combinators -/

/-- The loop `for (i = 0; i < n; ++i) s = body(i, s);`. -/
def forRange {σ : Type} (body : Nat → σ → σ) (init : σ) : Nat → σ
  | 0 => init
  | n + 1 => body n (forRange body init n)

/-- Search of `for (i = lo; i < lo + k; ++i) if (p(i)) { found = i; break; }`. -/
def firstFrom (p : Nat → Bool) : Nat → Nat → Option Nat
  | _, 0 => none
  | lo, k + 1 => if p lo then some lo else firstFrom p (lo + 1) k

/-- The loop `for (i = 0; i < n; ++i) if (p(i)) { found = i; break; }`, with `found`
initially `-1` (here `none`). -/
def firstIdx (n : Nat) (p : Nat → Bool) : Option Nat := firstFrom p 0 n

/-- Eigen's `minCoeff()` of the vector `f 0, ..., f (n - 1)` (`n ≥ 1`). -/
def minCoeff (f : Nat → Int) (n : Nat) : Int :=
  forRange (fun i m => if f i < m then f i else m) (f 0) n

/-! ## Reduction (lines 41-53) -/

/-- Body of the row reduction loop: `dist.row(r).array() -= dist.row(r).minCoeff()`, in
exact arithmetic.  The subtraction of `double`, which rounds, is `Ieee.reduceRow`. -/
def reduceRow (nCols : Nat) (r : Nat) (dist : Nat → Nat → Int) : Nat → Nat → Int :=
  fun i j => if i = r then dist i j - minCoeff (fun c => dist r c) nCols else dist i j

/-- Body of the column reduction loop: `dist.col(c).array() -= dist.col(c).minCoeff()`,
in exact arithmetic.  The subtraction of `double` is `Ieee.reduceCol`. -/
def reduceCol (nRows : Nat) (c : Nat) (dist : Nat → Nat → Int) : Nat → Nat → Int :=
  fun i j => if j = c then dist i j - minCoeff (fun r => dist r c) nRows else dist i j

/-- Row reduction followed by column reduction. -/
def reduce (nRows nCols : Nat) (dist : Nat → Nat → Int) : Nat → Nat → Int :=
  forRange (reduceCol nRows) (forRange (reduceRow nCols) dist nRows) nCols

/-! ## Initial greedy starring (lines 60-79) -/

/-- One iteration of the outer loop of the initial assignment. -/
def greedyRow (nCols : Nat) (r : Nat) (w : Work) : Work :=
  if w.coverRow r then w
  else
    match firstIdx nCols
        (fun c => isZero (w.dist r c) && !w.coverRow r && !w.coverCol c) with
    | none => w
    | some c =>
      { w with star := setMat w.star r c true
               coverRow := setVec w.coverRow r true
               coverCol := setVec w.coverCol c true }

/-- The initial assignment loop over all rows. -/
def greedyStars (nRows nCols : Nat) (w : Work) : Work :=
  forRange (greedyRow nCols) w nRows

/-! ## Helper lambdas (lines 86-119) -/

/-- The lambda `coverColumnsWithStars`. -/
def coverColumnsWithStars (nRows nCols : Nat) (w : Work) : Work :=
  let cover : Nat → Bool :=
    forRange
      (fun c cover =>
        match firstIdx nRows (fun r => w.star r c) with
        | some _ => setVec cover c true
        | none => cover)
      (fun _ => false) nCols
  { w with coverCol := cover }

/-- The lambda `countCoveredColumns`. -/
def countCoveredColumns (nCols : Nat) (w : Work) : Nat :=
  (List.range nCols).countP w.coverCol

/-- The lambda `buildAssignment`. -/
def buildAssignment (nRows nCols : Nat) (w : Work) (assignment : List Int) : List Int :=
  forRange
    (fun r a =>
      let a1 := a.set r (-1)
      match firstIdx nCols (fun c => w.star r c) with
      | some c => a1.set r (Int.ofNat c)
      | none => a1)
    assignment nRows

/-! ## Uncovered-zero scan (lines 131-182) -/

/-- Variables that the row loop of the scan reads and writes. -/
structure Scan where
  w : Work
  foundZero : Bool
  root : Option (Nat × Nat)

/-- The inner loop `for (c = 0; c < nCols; ++c)` of the scan in row `r` (lines 137-174):
at the first uncovered zero the cell is primed, then either it becomes the root or the row
is covered and the column of the row's star uncovered. -/
def scanRow (nCols : Nat) (r : Nat) (s : Scan) : Scan :=
  match firstIdx nCols (fun c => !s.w.coverCol c && isZero (s.w.dist r c)) with
  | none => s
  | some c =>
    let w1 : Work := { s.w with prime := setMat s.w.prime r c true }
    match firstIdx nCols (fun cc => w1.star r cc) with
    | none => { w := w1, foundZero := true, root := some (r, c) }
    | some starCol =>
      { w := { w1 with coverRow := setVec w1.coverRow r true
                       coverCol := setVec w1.coverCol starCol false }
        foundZero := true
        root := s.root }

/-- The row loop `for (r = ...; r < nRows; ++r)` of the scan (lines 134-176), started at
row `r` with `k` rows to go. `root` is the pair `(zRow, zCol)`, `none` while
`zRow == -1`. -/
def scanRows (nCols : Nat) : Nat → Nat → Scan → Scan
  | 0, _, s => s
  | k + 1, r, s =>
    if s.w.coverRow r then scanRows nCols k (r + 1) s
    else
      let s1 := scanRow nCols r s
      if s1.foundZero && s1.root.isSome then s1 else scanRows nCols k (r + 1) s1

/-! ## Step 5: matrix adjustment (lines 184-219) -/

/-- The value `h`, started at `+infinity` (`none`), after the two nested loops. -/
def minUncovered (nRows nCols : Nat) (w : Work) : Option Int :=
  forRange
    (fun r h =>
      if w.coverRow r then h
      else
        forRange
          (fun c h =>
            if !w.coverCol c then
              match h with
              | none => some (w.dist r c)
              | some hv => if w.dist r c < hv then some (w.dist r c) else some hv
            else h)
          h nCols)
    none nRows

/-- The loop adding `h` to every covered row. -/
def addToCoveredRows (nRows : Nat) (coverRow : Nat → Bool) (h : Int)
    (dist : Nat → Nat → Int) : Nat → Nat → Int :=
  forRange
    (fun r d => if coverRow r then (fun i j => if i = r then d i j + h else d i j) else d)
    dist nRows

/-- The loop subtracting `h` from every uncovered column. -/
def subFromUncoveredCols (nCols : Nat) (coverCol : Nat → Bool) (h : Int)
    (dist : Nat → Nat → Int) : Nat → Nat → Int :=
  forRange
    (fun c d => if !coverCol c then (fun i j => if j = c then d i j - h else d i j) else d)
    dist nCols

/-- Step 5.  With `h` still `+infinity` the entries leave the exact numbers: `none`.
(`Ieee.adjust` goes on with `h = +inf`, as the program does.) -/
def adjust (nRows nCols : Nat) (w : Work) : Option Work :=
  match minUncovered nRows nCols w with
  | none => none
  | some h =>
    let d1 := addToCoveredRows nRows w.coverRow h w.dist
    let d2 := subFromUncoveredCols nCols w.coverCol h d1
    some { w with dist := d2 }

/-- The inner `while (true)` of lines 131-220: scan, leave with the root, or adjust and
scan again.  `root` is `(zRow, zCol)`, which the source declares before the loop. -/
def search (nRows nCols : Nat) : Nat → Work → Option (Nat × Nat) → Option (Work × Nat × Nat)
  | 0, _, _ => none
  | fuel + 1, w, root =>
    let s := scanRows nCols nRows 0 { w := w, foundZero := false, root := root }
    match s.foundZero, s.root with
    | true, some (zRow, zCol) => some (s.w, zRow, zCol)
    | true, none => search nRows nCols fuel s.w s.root
    | false, _ =>
      match adjust nRows nCols s.w with
      | none => none
      | some w1 => search nRows nCols fuel w1 s.root

/-! ## Augmenting path and flip (lines 222-291) -/

/-- The `while (true)` of lines 228-268; `path.back()` is the last element. -/
def growPath (nRows nCols : Nat) (w : Work) :
    Nat → List (Nat × Nat) → Option (List (Nat × Nat))
  | 0, _ => none
  | fuel + 1, path =>
    let cStar := (path.getLastD (0, 0)).2
    match firstIdx nRows (fun r => w.star r cStar) with
    | none => some path
    | some rStar =>
      let path1 := path ++ [(rStar, cStar)]
      match firstIdx nCols (fun c => w.prime rStar c) with
      | none => some path1
      | some cPrime => growPath nRows nCols w fuel (path1 ++ [(rStar, cPrime)])

/-- Body of the flip loop. -/
def flipCell (w : Work) (rc : Nat × Nat) : Work :=
  if w.star rc.1 rc.2 then { w with star := setMat w.star rc.1 rc.2 false }
  else if w.prime rc.1 rc.2 then { w with star := setMat w.star rc.1 rc.2 true }
  else w

/-- The flip loop followed by `prime.setZero(); coverRow.setZero(); coverCol.setZero();
coverColumnsWithStars();`. -/
def augment (nRows nCols : Nat) (w : Work) (path : List (Nat × Nat)) : Work :=
  let w1 := path.foldl flipCell w
  coverColumnsWithStars nRows nCols
    { w1 with prime := fun _ _ => false
              coverRow := fun _ => false
              coverCol := fun _ => false }

/-- The main `while (countCoveredColumns() < minDim)` loop; `fuel` bounds the number of
evaluations of the loop condition. -/
def mainLoop (nRows nCols : Nat) (searchFuel pathFuel : Nat) : Nat → Work → Option Work
  | 0, _ => none
  | fuel + 1, w =>
    if countCoveredColumns nCols w < min nRows nCols then
      match search nRows nCols searchFuel w none with
      | none => none
      | some (w1, zRow, zCol) =>
        match growPath nRows nCols w1 pathFuel [(zRow, zCol)] with
        | none => none
        | some path => mainLoop nRows nCols searchFuel pathFuel fuel (augment nRows nCols w1 path)
    else some w

/-! ## `solve` and `asVectorPairs` -/

/-- The cost loop of lines 298-305, in exact arithmetic: the exact sum of the entries.
The loop on `double`, in which every `+=` rounds, is `Ieee.totalCost`. -/
def totalCost (cost : CostMatrix) (assignment : List Int) : Int :=
  forRange
    (fun r total =>
      let c := assignment.getD r (-1)
      if c ≥ 0 then total + cost.coeff r c.toNat else total)
    0 cost.nRows

/-- What a call of `solve` does: it throws, or returns the total cost, or (in the model
only) a loop ran out of fuel or `h` stayed infinite. -/
inductive Outcome where
  | threw (e : SolveError)
  | returned (totalCost : Int)
  | noResult
  deriving DecidableEq, Repr

/-- The test `(cost_matrix.array() < 0).any()`. -/
def anyNegative (cost : CostMatrix) : Bool :=
  (List.range cost.nRows).any fun r => (List.range cost.nCols).any fun c => decide (cost.coeff r c < 0)

/-- The state after lines 33-84 and 122: reduction, greedy stars, covers rebuilt. -/
def initialWork (cost : CostMatrix) : Work :=
  let w0 : Work :=
    { dist := reduce cost.nRows cost.nCols cost.coeff
      star := fun _ _ => false
      prime := fun _ _ => false
      coverRow := fun _ => false
      coverCol := fun _ => false }
  let w1 := greedyStars cost.nRows cost.nCols w0
  coverColumnsWithStars cost.nRows cost.nCols
    { w1 with coverRow := fun _ => false, coverCol := fun _ => false }

/-- `solve` with explicit fuel for its three `while` loops.  The second component is the
caller's `assignment` vector after the call. -/
def solveWith (mainFuel searchFuel pathFuel : Nat) (cost : CostMatrix)
    (assignment : List Int) : Outcome × List Int :=
  if cost.nRows = 0 ∨ cost.nCols = 0 then (Outcome.threw SolveError.emptyMatrix, assignment)
  else if anyNegative cost then (Outcome.threw SolveError.negativeCosts, assignment)
  else
    let assignment1 : List Int := List.replicate cost.nRows (-1)
    match mainLoop cost.nRows cost.nCols searchFuel pathFuel mainFuel (initialWork cost) with
    | none => (Outcome.noResult, assignment1)
    | some w =>
      let assignment2 := buildAssignment cost.nRows cost.nCols w assignment1
      (Outcome.returned (totalCost cost assignment2), assignment2)

/-- `HungarianEigen::solve`. -/
def solve (cost : CostMatrix) (assignment : List Int) : Outcome × List Int :=
  solveWith (min cost.nRows cost.nCols + 1) (2 * cost.nRows + 2) (cost.nRows + 1) cost assignment

/-- Width of `size_t`. -/
def SIZE_BITS : Nat := 64

/-- Conversion of an `int` to `size_t` (value modulo `2 ^ SIZE_BITS`). -/
def toSizeT (j : Int) : Nat := (j % (2 : Int) ^ SIZE_BITS).toNat

/-- The loop of `asVectorPairs`, with the counter `i`. -/
def asVectorPairsLoop : List Int → Nat → List (Nat × Nat) → List (Nat × Nat)
  | [], _, out => out
  | j :: rest, i, out => asVectorPairsLoop rest (i + 1) (out ++ [(i, toSizeT j)])

/-- `HungarianEigen::asVectorPairs`. -/
def asVectorPairs (completed_assignment : List Int) : List (Nat × Nat) :=
  asVectorPairsLoop completed_assignment 0 []

/-- Build a cost matrix from rows, for examples. -/
def ofRows (nRows nCols : Nat) (rows : List (List Int)) : CostMatrix :=
  { nRows := nRows, nCols := nCols, coeff := fun r c => (rows.getD r []).getD c 0 }

/-! ## Specification vocabulary -/

/-- Valid input of `solve`: at least one row and one column, no negative entry. -/
def Valid (cost : CostMatrix) : Prop :=
  0 < cost.nRows ∧ 0 < cost.nCols ∧
    ∀ r, r < cost.nRows → ∀ c, c < cost.nCols → 0 ≤ cost.coeff r c

/-- Rows of the matrix that hold a star. -/
def starRows (m n : Nat) (w : Work) : Finset Nat :=
  (Finset.range m).filter (fun r => ∃ c, c < n ∧ w.star r c = true)

/-- Columns of the matrix that hold a star. -/
def starCols (m n : Nat) (w : Work) : Finset Nat :=
  (Finset.range n).filter (fun c => ∃ r, r < m ∧ w.star r c = true)

/-- Covered rows of the matrix. -/
def coveredRows (m : Nat) (w : Work) : Finset Nat :=
  (Finset.range m).filter (fun r => w.coverRow r = true)

/-- Covered columns of the matrix. -/
def coveredCols (n : Nat) (w : Work) : Finset Nat :=
  (Finset.range n).filter (fun c => w.coverCol c = true)

/-- Star matrix invariant: stars lie inside the matrix, at most one per row and at most
one per column. -/
structure StarInv (m n : Nat) (w : Work) : Prop where
  star_lt : ∀ r c, w.star r c = true → r < m ∧ c < n
  star_row : ∀ r c c', w.star r c = true → w.star r c' = true → c = c'
  star_col : ∀ r r' c, w.star r c = true → w.star r' c = true → r = r'

/-- How covers, stars and primes are related during the zero search. -/
structure CoverInv (m n : Nat) (w : Work) : Prop where
  coverRow_lt : ∀ r, w.coverRow r = true → r < m
  cover_xor : ∀ r c, w.star r c = true → (w.coverRow r = true ↔ w.coverCol c = false)
  coverRow_star : ∀ r, w.coverRow r = true → ∃ c, w.star r c = true
  coverCol_star : ∀ c, w.coverCol c = true → ∃ r, w.star r c = true
  prime_lt : ∀ r c, w.prime r c = true → r < m ∧ c < n
  prime_col : ∀ r c, w.prime r c = true → w.coverCol c = false
  prime_row : ∀ r c c', w.prime r c = true → w.prime r c' = true → c = c'
  coverRow_prime : ∀ r, w.coverRow r = true → ∃ c, w.prime r c = true

/-- Invariant of the zero search while no root has been found.  `rank` orders the covered
rows by the moment they were covered. -/
structure SearchInv (m n : Nat) (w : Work) : Prop where
  stars : StarInv m n w
  covers : CoverInv m n w
  prime_covered : ∀ r c, w.prime r c = true → w.coverRow r = true
  ranked : ∃ rank : Nat → Nat,
    (∀ r, w.coverRow r = true → rank r < (coveredRows m w).card) ∧
    ∀ r c r', w.prime r c = true → w.star r' c = true → rank r' < rank r

/-- State in which the zero search leaves the loop with the root `(zRow, zCol)`. -/
structure RootInv (m n : Nat) (w : Work) (zRow zCol : Nat) : Prop where
  stars : StarInv m n w
  covers : CoverInv m n w
  root_prime : w.prime zRow zCol = true
  root_row : ∀ c, w.star zRow c = false
  prime_covered : ∀ r c, w.prime r c = true → w.coverRow r = true ∨ r = zRow
  ranked : ∃ rank : Nat → Nat, rank zRow < m ∧
    ∀ r c r', w.prime r c = true → w.star r' c = true → rank r' < rank r

/-- Invariant of the working distances: no negative entry, marked cells are zeros, and
the matrix is the cost matrix minus a row amount and a column amount. -/
structure DistInv (cost : CostMatrix) (w : Work) : Prop where
  nonneg : ∀ r, r < cost.nRows → ∀ c, c < cost.nCols → 0 ≤ w.dist r c
  star_zero : ∀ r c, w.star r c = true → w.dist r c = 0
  prime_zero : ∀ r c, w.prime r c = true → w.dist r c = 0
  potential : ∃ u v : Nat → Int,
    ∀ r, r < cost.nRows → ∀ c, c < cost.nCols → w.dist r c = cost.coeff r c - u r - v c

/-- Facts kept by the initial greedy pass. -/
structure GreedyInv (m n : Nat) (d : Nat → Nat → Int) (w : Work) : Prop where
  dist_eq : w.dist = d
  prime_eq : w.prime = fun _ _ => false
  stars : StarInv m n w
  star_cover : ∀ r c, w.star r c = true → w.coverRow r = true ∧ w.coverCol c = true
  star_zero : ∀ r c, w.star r c = true → isZero (w.dist r c) = true

/-- State at the head of the main loop: no prime, no covered row, exactly the columns
holding a star covered. -/
structure LoopInv (m n : Nat) (w : Work) : Prop where
  stars : StarInv m n w
  no_prime : w.prime = fun _ _ => false
  no_coverRow : w.coverRow = fun _ => false
  coverCol_iff : ∀ c, w.coverCol c = true ↔ c < n ∧ ∃ r, r < m ∧ w.star r c = true

/-- What one pass of the scan over the rows `r ≤ r' < m` can do to the scan variables:
nothing at all (no uncovered zero in these rows), cover at least one more row, or stop
at a root. -/
def ScanPost (m n : Nat) (r : Nat) (s s' : Scan) : Prop :=
  (s' = s ∧ ∀ r1, r ≤ r1 → r1 < m → s.w.coverRow r1 = false →
      ∀ c, c < n → s.w.coverCol c = false → isZero (s.w.dist r1 c) = false) ∨
  (s'.root = none ∧ s'.foundZero = true ∧ SearchInv m n s'.w ∧
      (coveredRows m s.w).card < (coveredRows m s'.w).card) ∨
  (∃ zRow zCol, s'.root = some (zRow, zCol) ∧ s'.foundZero = true ∧
      RootInv m n s'.w zRow zCol)

/-- Marks and distances after a pass of the scan: distances and stars are untouched,
every new prime sits on a zero inside the matrix. -/
def ScanKeeps (m n : Nat) (s s' : Scan) : Prop :=
  s'.w.dist = s.w.dist ∧ s'.w.star = s.w.star ∧
  ∀ r1 c1, s'.w.prime r1 c1 = true →
    s.w.prime r1 c1 = true ∨ (r1 < m ∧ c1 < n ∧ isZero (s.w.dist r1 c1) = true)

/-- The running value `h` is the minimum of the distances over the cells in `S`
(`none`, that is `+infinity`, when `S` is empty). -/
def RunMin (d : Nat → Nat → Int) (S : Nat → Nat → Prop) (h : Option Int) : Prop :=
  (h = none → ∀ r c, ¬ S r c) ∧
  ∀ v, h = some v → (∀ r c, S r c → v ≤ d r c) ∧ ∃ r c, S r c ∧ d r c = v

/-- Starred cells of the matrix. -/
def starCells (m n : Nat) (w : Work) : Finset (Nat × Nat) :=
  (Finset.range m ×ˢ Finset.range n).filter (fun p => w.star p.1 p.2 = true)

/-- Invariant of the path builder: `path` ends in the primed cell `(rl, cl)`; `rank`
decreases along the path. -/
structure PathInv (w : Work) (rank : Nat → Nat) (zRow : Nat) (path : List (Nat × Nat))
    (rl cl : Nat) : Prop where
  last_eq : path.getLastD (0, 0) = (rl, cl)
  last_mem : (rl, cl) ∈ path
  last_prime : w.prime rl cl = true
  nodup : path.Nodup
  rank_le : ∀ p, p ∈ path → rank rl ≤ rank p.1
  row_closed : ∀ r c c', (r, c) ∈ path → w.prime r c = true → w.star r c' = true →
    (r, c') ∈ path
  col_closed : ∀ r c r', (r, c) ∈ path → w.prime r c = true → (r, c) ≠ (rl, cl) →
    w.star r' c = true → (r', c) ∈ path
  col_star : ∀ r c, (r, c) ∈ path → w.prime r c = true → (r, c) ≠ (rl, cl) →
    ∃ r', w.star r' c = true
  col_uniq : ∀ r r' c, (r, c) ∈ path → (r', c) ∈ path → w.prime r c = true →
    w.prime r' c = true → r = r'
  prime_row : ∀ r c, (r, c) ∈ path → w.prime r c = true →
    r = zRow ∨ ∃ c', w.star r c' = true
  star_prime : ∀ r c, (r, c) ∈ path → w.star r c = true →
    ∃ c', w.prime r c' = true ∧ (r, c') ∈ path
  root_mem : ∃ c, (zRow, c) ∈ path ∧ w.prime zRow c = true

/-- The finished augmenting path: pairwise distinct cells; the stars in the row and in
the column of every primed cell of the path are on the path; the primed cells of the path
lie in pairwise distinct columns. -/
structure PathDone (w : Work) (zRow : Nat) (path : List (Nat × Nat)) : Prop where
  nodup : path.Nodup
  row_closed : ∀ r c c', (r, c) ∈ path → w.prime r c = true → w.star r c' = true →
    (r, c') ∈ path
  col_closed : ∀ r c r', (r, c) ∈ path → w.prime r c = true → w.star r' c = true →
    (r', c) ∈ path
  col_uniq : ∀ r r' c, (r, c) ∈ path → (r', c) ∈ path → w.prime r c = true →
    w.prime r' c = true → r = r'
  prime_row : ∀ r c, (r, c) ∈ path → w.prime r c = true →
    r = zRow ∨ ∃ c', w.star r c' = true
  star_prime : ∀ r c, (r, c) ∈ path → w.star r c = true →
    ∃ c', w.prime r c' = true ∧ (r, c') ∈ path
  root_mem : ∃ c, (zRow, c) ∈ path ∧ w.prime zRow c = true

/-- Entry that `buildAssignment` writes for row `r`: the first starred column, else `-1`. -/
def assignedCol (nCols : Nat) (w : Work) (r : Nat) : Int :=
  match firstIdx nCols (fun c => w.star r c) with
  | some c => Int.ofNat c
  | none => -1

instance decidableValid (cost : CostMatrix) : Decidable (Valid cost) := by
  unfold Valid; infer_instance

/-- The matrix `A` of `main.cpp` ("2x2 basic"). -/
def matrixA : CostMatrix := ofRows 2 2 [[4, 1], [2, 3]]

/-- The matrix `H` of `main.cpp` ("6x3 tall"). -/
def matrixH : CostMatrix :=
  ofRows 6 3 [[4, 1, 3], [2, 0, 5], [3, 2, 2], [9, 1, 7], [6, 3, 5], [3, 4, 2]]

/-- The matrix `M2` of `main.cpp` ("4x4 all-zero except one"). -/
def matrixM2 : CostMatrix :=
  ofRows 4 4 [[0, 0, 0, 0], [0, 0, 0, 0], [0, 0, 0, 0], [0, 0, 0, 1000]]

/-- A matrix with one row and a negative entry (scenario 4 of the specification). -/
def matrixNeg : CostMatrix := ofRows 1 3 [[-1, 2, 3]]

/-- A matching of the `m × n` matrix in the format of the assignment vector: one entry
per row, `-1` or a column index, exactly `min m n` rows paired, with pairwise distinct
columns. -/
def IsMatching (cost : CostMatrix) (a : List Int) : Prop :=
  a.length = cost.nRows ∧
  (∀ x, x ∈ a → x = -1 ∨ (0 ≤ x ∧ x < (cost.nCols : Int))) ∧
  (a.filter (fun x => decide (x ≠ -1))).Nodup ∧
  (a.filter (fun x => decide (x ≠ -1))).length = min cost.nRows cost.nCols

instance decidableIsMatching (cost : CostMatrix) (a : List Int) :
    Decidable (IsMatching cost a) := by
  unfold IsMatching; infer_instance

/-- The matrix `G` of `main.cpp` ("3x5 wide"). -/
def matrixG : CostMatrix :=
  ofRows 3 5 [[9, 2, 7, 3, 4], [6, 4, 3, 7, 5], [5, 8, 1, 6, 3]]

/-- A tall matrix with two rows and one column. -/
def matrixTall : CostMatrix := ofRows 2 1 [[2], [1]]

/-- A wide matrix with one row and two columns. -/
def matrixWide : CostMatrix := ofRows 1 2 [[2, 1]]

/-- Places in the run of `solve` at which the working state is observed: the head of the
main loop (line 125), the head of the inner `while (true)` of the zero search (line 131),
the row loop of the scan about to look at row `r` (line 134; `r0` is the row at which the
scan stood when the covers were last changed in this pass, `0` at the start of a pass),
and the head of the path loop (line 228). -/
inductive Point where
  | loopHead (w : Work)
  | searchHead (w : Work) (root : Option (Nat × Nat))
  | scanAt (s : Scan) (r0 r : Nat)
  | pathAt (w : Work) (path : List (Nat × Nat))

/-- The working state at a point. -/
def Point.work : Point → Work
  | Point.loopHead w => w
  | Point.searchHead w _ => w
  | Point.scanAt s _ _ => s.w
  | Point.pathAt w _ => w

/-- The points that the run of `solve` on `cost` reaches, following the control flow of
`mainLoop`, `search`, `scanRows`, `scanRow`, `adjust`, `growPath` and `augment`. -/
inductive Reach (cost : CostMatrix) : Point → Prop where
  | init : Valid cost → Reach cost (Point.loopHead (initialWork cost))
  | enter {w : Work} : Reach cost (Point.loopHead w) →
      countCoveredColumns cost.nCols w < min cost.nRows cost.nCols →
      Reach cost (Point.searchHead w none)
  | scanStart {w : Work} {root : Option (Nat × Nat)} : Reach cost (Point.searchHead w root) →
      Reach cost (Point.scanAt ⟨w, false, root⟩ 0 0)
  | rowCovered {s : Scan} {r0 r : Nat} : Reach cost (Point.scanAt s r0 r) →
      r < cost.nRows → s.w.coverRow r = true → Reach cost (Point.scanAt s r0 (r + 1))
  | rowNoZero {s : Scan} {r0 r : Nat} : Reach cost (Point.scanAt s r0 r) →
      r < cost.nRows → s.w.coverRow r = false →
      firstIdx cost.nCols (fun c => !s.w.coverCol c && isZero (s.w.dist r c)) = none →
      ((scanRow cost.nCols r s).foundZero && (scanRow cost.nCols r s).root.isSome) = false →
      Reach cost (Point.scanAt (scanRow cost.nCols r s) r0 (r + 1))
  | rowSelected {s : Scan} {r0 r c : Nat} : Reach cost (Point.scanAt s r0 r) →
      r < cost.nRows → s.w.coverRow r = false →
      firstIdx cost.nCols (fun c => !s.w.coverCol c && isZero (s.w.dist r c)) = some c →
      ((scanRow cost.nCols r s).foundZero && (scanRow cost.nCols r s).root.isSome) = false →
      Reach cost (Point.scanAt (scanRow cost.nCols r s) (r + 1) (r + 1))
  | rowRoot {s : Scan} {r0 r zRow zCol : Nat} : Reach cost (Point.scanAt s r0 r) →
      r < cost.nRows → s.w.coverRow r = false →
      (scanRow cost.nCols r s).foundZero = true →
      (scanRow cost.nCols r s).root = some (zRow, zCol) →
      Reach cost (Point.pathAt (scanRow cost.nCols r s).w [(zRow, zCol)])
  | scanEndRoot {s : Scan} {r0 zRow zCol : Nat} : Reach cost (Point.scanAt s r0 cost.nRows) →
      s.foundZero = true → s.root = some (zRow, zCol) →
      Reach cost (Point.pathAt s.w [(zRow, zCol)])
  | scanEndFound {s : Scan} {r0 : Nat} : Reach cost (Point.scanAt s r0 cost.nRows) →
      s.foundZero = true → s.root = none → Reach cost (Point.searchHead s.w s.root)
  | adjusted {s : Scan} {r0 : Nat} {w1 : Work} : Reach cost (Point.scanAt s r0 cost.nRows) →
      s.foundZero = false → adjust cost.nRows cost.nCols s.w = some w1 →
      Reach cost (Point.searchHead w1 s.root)
  | pathStep {w : Work} {path : List (Nat × Nat)} {rStar cPrime : Nat} :
      Reach cost (Point.pathAt w path) →
      firstIdx cost.nRows (fun r => w.star r (path.getLastD (0, 0)).2) = some rStar →
      firstIdx cost.nCols (fun c => w.prime rStar c) = some cPrime →
      Reach cost (Point.pathAt w
        (path ++ [(rStar, (path.getLastD (0, 0)).2)] ++ [(rStar, cPrime)]))
  | pathEnd {w : Work} {path : List (Nat × Nat)} : Reach cost (Point.pathAt w path) →
      firstIdx cost.nRows (fun r => w.star r (path.getLastD (0, 0)).2) = none →
      Reach cost (Point.loopHead (augment cost.nRows cost.nCols w path))
  | pathNoPrime {w : Work} {path : List (Nat × Nat)} {rStar : Nat} :
      Reach cost (Point.pathAt w path) →
      firstIdx cost.nRows (fun r => w.star r (path.getLastD (0, 0)).2) = some rStar →
      firstIdx cost.nCols (fun c => w.prime rStar c) = none →
      Reach cost (Point.loopHead (augment cost.nRows cost.nCols w
        (path ++ [(rStar, (path.getLastD (0, 0)).2)])))

/-- Cells of the path by mark: `k` starred cells and `k + 1` primed cells, `2 k + 1` cells
in all. -/
def PathCount (w : Work) (path : List (Nat × Nat)) (k : Nat) : Prop :=
  (path.filter (fun p => w.star p.1 p.2)).length = k ∧
  (path.filter (fun p => w.prime p.1 p.2)).length = k + 1 ∧
  path.length = 2 * k + 1

/-- What holds at each kind of point. -/
def PointInv (cost : CostMatrix) : Point → Prop
  | Point.loopHead w => LoopInv cost.nRows cost.nCols w ∧ DistInv cost w
  | Point.searchHead w root =>
    SearchInv cost.nRows cost.nCols w ∧ root = none ∧
      (starCols cost.nRows cost.nCols w).card < min cost.nRows cost.nCols ∧ DistInv cost w
  | Point.scanAt s r0 r =>
    SearchInv cost.nRows cost.nCols s.w ∧ s.root = none ∧
      (starCols cost.nRows cost.nCols s.w).card < min cost.nRows cost.nCols ∧
      DistInv cost s.w ∧ r0 ≤ r ∧ r ≤ cost.nRows ∧ (s.foundZero = false → r0 = 0) ∧
      ∀ r1, r0 ≤ r1 → r1 < r → s.w.coverRow r1 = false →
        ∀ c, c < cost.nCols → s.w.coverCol c = false → isZero (s.w.dist r1 c) = false
  | Point.pathAt w path =>
    (starCols cost.nRows cost.nCols w).card < min cost.nRows cost.nCols ∧ DistInv cost w ∧
      ∃ zRow zCol rl cl k, ∃ rank : Nat → Nat,
        RootInv cost.nRows cost.nCols w zRow zCol ∧
        (∀ r c r', w.prime r c = true → w.star r' c = true → rank r' < rank r) ∧
        PathInv w rank zRow path rl cl ∧ PathCount w path k

/-- A matrix on which the first round of the main loop builds a path of three cells. -/
def matrixP : CostMatrix := ofRows 2 2 [[0, 0], [0, 1]]

/-- The matrix that `solve` works on after lines 41-53, with the dimensions of `cost`. -/
def reducedMatrix (cost : CostMatrix) : CostMatrix :=
  ⟨cost.nRows, cost.nCols, reduce cost.nRows cost.nCols cost.coeff⟩

/-- A matrix on which the second pass of the first zero search finds no uncovered zero. -/
def matrixAdj : CostMatrix := ofRows 3 3 [[0, 1, 0], [1, 0, 1], [1, 0, 1]]

/-- A matrix on which the scan selects a cell that is not the first uncovered zero in
row-major order. -/
def matrixZ : CostMatrix := ofRows 3 3 [[0, 0, 1], [1, 0, 0], [1, 0, 1]]

/-- Scan variables after the first pass of the zero search on `matrixAdj`. -/
def passOneAdj : Scan :=
  scanRow 3 2 (scanRow 3 1 (scanRow 3 0 ⟨initialWork matrixAdj, false, none⟩))

/-- Scan variables after the second pass of the zero search on `matrixAdj`. -/
def passTwoAdj : Scan :=
  scanRow 3 2 (scanRow 3 1 ⟨passOneAdj.w, false, passOneAdj.root⟩)

/-- Scan variables on `matrixZ` when the first pass of the zero search reaches row `2`:
row `1` has been covered and column `1`, the column of its star, uncovered. -/
def scanZ : Scan := scanRow 3 1 (scanRow 3 0 ⟨initialWork matrixZ, false, none⟩)

/-! ## The solver on IEEE doubles

The definitions above read the `double` entries as exact numbers.  The namespace `Ieee`
repeats the translation of `solve` with the arithmetic of `double` on the values that
are integers, `+inf`, `-inf` or `NaN`: every sum and difference is rounded to 53
significant bits, and comparisons with `NaN` are false.  The control flow is the same
line by line; only the entries of `cost_matrix` and `dist`, the value `h` and the
returned total change type.  This model decides what the program does where the two
readings differ (entries beyond `2 ^ 53`, infinite entries, `NaN`). -/

namespace Ieee

/-- A `double` whose value is an integer, or one of the special values `+inf`, `-inf`,
`NaN`.  (The sign of a zero is not kept: no operation of `solve` tells `-0.0` from
`0.0`.) -/
inductive Dbl where
  | fin (x : Int)
  | posInf
  | negInf
  | nan
  deriving DecidableEq, Repr

/-- Number of binary digits of `a`, computed with at most `fuel` halvings. -/
def bitLength : Nat → Nat → Nat
  | 0, _ => 0
  | fuel + 1, a => if a = 0 then 0 else bitLength fuel (a / 2) + 1

/-- Rounding of an exact integer result to the nearest `double`: 53 significant bits,
ties to the even significand, overflow to an infinity when the rounded magnitude has more
than 1024 binary digits (is at least `2 ^ 1024`). -/
def roundToDouble (x : Int) : Dbl :=
  let a := x.natAbs
  let e := bitLength a a - 53
  let q := a / 2 ^ e
  let r := a % 2 ^ e
  let q1 := if 2 * r > 2 ^ e ∨ (2 * r = 2 ^ e ∧ q % 2 = 1) then q + 1 else q
  let y := q1 * 2 ^ e
  if bitLength y y > 1024 then (if x < 0 then Dbl.negInf else Dbl.posInf)
  else Dbl.fin (if x < 0 then -(y : Int) else (y : Int))

/-- Whether the value is one a `double` can hold. -/
def Dbl.isDouble : Dbl → Bool
  | Dbl.fin x => decide (roundToDouble x = Dbl.fin x)
  | _ => true

/-- Unary minus of a `double`. -/
def Dbl.neg : Dbl → Dbl
  | Dbl.fin a => Dbl.fin (-a)
  | Dbl.posInf => Dbl.negInf
  | Dbl.negInf => Dbl.posInf
  | Dbl.nan => Dbl.nan

/-- The operator `+` of `double`. -/
def Dbl.add : Dbl → Dbl → Dbl
  | Dbl.fin a, Dbl.fin b => roundToDouble (a + b)
  | Dbl.nan, _ => Dbl.nan
  | _, Dbl.nan => Dbl.nan
  | Dbl.posInf, Dbl.negInf => Dbl.nan
  | Dbl.negInf, Dbl.posInf => Dbl.nan
  | Dbl.posInf, _ => Dbl.posInf
  | _, Dbl.posInf => Dbl.posInf
  | Dbl.negInf, _ => Dbl.negInf
  | _, Dbl.negInf => Dbl.negInf

/-- The operator `-` of `double`. -/
def Dbl.sub (a b : Dbl) : Dbl := Dbl.add a (Dbl.neg b)

/-- The operator `<` of `double`: false as soon as one side is `NaN`. -/
def Dbl.lt : Dbl → Dbl → Bool
  | Dbl.nan, _ => false
  | _, Dbl.nan => false
  | Dbl.fin a, Dbl.fin b => decide (a < b)
  | Dbl.negInf, Dbl.negInf => false
  | Dbl.negInf, _ => true
  | _, Dbl.negInf => false
  | Dbl.posInf, _ => false
  | Dbl.fin _, Dbl.posInf => true

/-- The caller's cost matrix, an `Eigen::MatrixXd`. -/
structure CostMatrix where
  nRows : Nat
  nCols : Nat
  coeff : Nat → Nat → Dbl

/-- Working state of `solve`: `dist`, `star`, `prime`, `coverRow`, `coverCol`. -/
structure Work where
  dist : Nat → Nat → Dbl
  star : Nat → Nat → Bool
  prime : Nat → Nat → Bool
  coverRow : Nat → Bool
  coverCol : Nat → Bool

/-- The test `x < POS_EPS`, with `POS_EPS = 2^-52`: an integer is below `2^-52` when it
is below `1`; `-inf` is, `+inf` is not, and the comparison is false for `NaN`. -/
def isZero : Dbl → Bool
  | Dbl.fin a => decide (a < 1)
  | Dbl.negInf => true
  | Dbl.posInf => false
  | Dbl.nan => false

/-- Eigen's `minCoeff()` of the vector `f 0, ..., f (n - 1)` (`n ≥ 1`): the coefficients
are visited in order and the running value is replaced by a coefficient that is `<` it. -/
def minCoeff (f : Nat → Dbl) (n : Nat) : Dbl :=
  forRange (fun i m => if Dbl.lt (f i) m then f i else m) (f 0) n

/-- Body of the row reduction loop: `dist.row(r).array() -= dist.row(r).minCoeff()`. -/
def reduceRow (nCols : Nat) (r : Nat) (dist : Nat → Nat → Dbl) : Nat → Nat → Dbl :=
  fun i j => if i = r then Dbl.sub (dist i j) (minCoeff (fun c => dist r c) nCols) else dist i j

/-- Body of the column reduction loop: `dist.col(c).array() -= dist.col(c).minCoeff()`. -/
def reduceCol (nRows : Nat) (c : Nat) (dist : Nat → Nat → Dbl) : Nat → Nat → Dbl :=
  fun i j => if j = c then Dbl.sub (dist i j) (minCoeff (fun r => dist r c) nRows) else dist i j

/-- Row reduction followed by column reduction (lines 41-53). -/
def reduce (nRows nCols : Nat) (dist : Nat → Nat → Dbl) : Nat → Nat → Dbl :=
  forRange (reduceCol nRows) (forRange (reduceRow nCols) dist nRows) nCols

/-- One iteration of the outer loop of the initial assignment (lines 61-79). -/
def greedyRow (nCols : Nat) (r : Nat) (w : Work) : Work :=
  if w.coverRow r then w
  else
    match firstIdx nCols
        (fun c => isZero (w.dist r c) && !w.coverRow r && !w.coverCol c) with
    | none => w
    | some c =>
      { w with star := setMat w.star r c true
               coverRow := setVec w.coverRow r true
               coverCol := setVec w.coverCol c true }

/-- The initial assignment loop over all rows. -/
def greedyStars (nRows nCols : Nat) (w : Work) : Work :=
  forRange (greedyRow nCols) w nRows

/-- The lambda `coverColumnsWithStars`. -/
def coverColumnsWithStars (nRows nCols : Nat) (w : Work) : Work :=
  let cover : Nat → Bool :=
    forRange
      (fun c cover =>
        match firstIdx nRows (fun r => w.star r c) with
        | some _ => setVec cover c true
        | none => cover)
      (fun _ => false) nCols
  { w with coverCol := cover }

/-- The lambda `countCoveredColumns`. -/
def countCoveredColumns (nCols : Nat) (w : Work) : Nat :=
  (List.range nCols).countP w.coverCol

/-- The lambda `buildAssignment`. -/
def buildAssignment (nRows nCols : Nat) (w : Work) (assignment : List Int) : List Int :=
  forRange
    (fun r a =>
      let a1 := a.set r (-1)
      match firstIdx nCols (fun c => w.star r c) with
      | some c => a1.set r (Int.ofNat c)
      | none => a1)
    assignment nRows

/-- Variables that the row loop of the scan reads and writes. -/
structure Scan where
  w : Work
  foundZero : Bool
  root : Option (Nat × Nat)

/-- The inner loop `for (c = 0; c < nCols; ++c)` of the scan in row `r` (lines 137-174). -/
def scanRow (nCols : Nat) (r : Nat) (s : Scan) : Scan :=
  match firstIdx nCols (fun c => !s.w.coverCol c && isZero (s.w.dist r c)) with
  | none => s
  | some c =>
    let w1 : Work := { s.w with prime := setMat s.w.prime r c true }
    match firstIdx nCols (fun cc => w1.star r cc) with
    | none => { w := w1, foundZero := true, root := some (r, c) }
    | some starCol =>
      { w := { w1 with coverRow := setVec w1.coverRow r true
                       coverCol := setVec w1.coverCol starCol false }
        foundZero := true
        root := s.root }

/-- The row loop of the scan (lines 134-176), started at row `r` with `k` rows to go. -/
def scanRows (nCols : Nat) : Nat → Nat → Scan → Scan
  | 0, _, s => s
  | k + 1, r, s =>
    if s.w.coverRow r then scanRows nCols k (r + 1) s
    else
      let s1 := scanRow nCols r s
      if s1.foundZero && s1.root.isSome then s1 else scanRows nCols k (r + 1) s1

/-- The value `h` after the two nested loops of lines 187-199, started at `+inf`. -/
def minUncovered (nRows nCols : Nat) (w : Work) : Dbl :=
  forRange
    (fun r h =>
      if w.coverRow r then h
      else
        forRange
          (fun c h => if !w.coverCol c then (if Dbl.lt (w.dist r c) h then w.dist r c else h) else h)
          h nCols)
    Dbl.posInf nRows

/-- The loop adding `h` to every covered row. -/
def addToCoveredRows (nRows : Nat) (coverRow : Nat → Bool) (h : Dbl)
    (dist : Nat → Nat → Dbl) : Nat → Nat → Dbl :=
  forRange
    (fun r d => if coverRow r then (fun i j => if i = r then Dbl.add (d i j) h else d i j) else d)
    dist nRows

/-- The loop subtracting `h` from every uncovered column. -/
def subFromUncoveredCols (nCols : Nat) (coverCol : Nat → Bool) (h : Dbl)
    (dist : Nat → Nat → Dbl) : Nat → Nat → Dbl :=
  forRange
    (fun c d => if !coverCol c then (fun i j => if j = c then Dbl.sub (d i j) h else d i j) else d)
    dist nCols

/-- Step 5 (lines 184-219). -/
def adjust (nRows nCols : Nat) (w : Work) : Work :=
  let h := minUncovered nRows nCols w
  let d1 := addToCoveredRows nRows w.coverRow h w.dist
  let d2 := subFromUncoveredCols nCols w.coverCol h d1
  { w with dist := d2 }

/-- The inner `while (true)` of lines 131-220; `fuel` bounds the number of iterations,
and `none` means that the loop has not been left within them. -/
def search (nRows nCols : Nat) : Nat → Work → Option (Nat × Nat) → Option (Work × Nat × Nat)
  | 0, _, _ => none
  | fuel + 1, w, root =>
    let s := scanRows nCols nRows 0 { w := w, foundZero := false, root := root }
    match s.foundZero, s.root with
    | true, some (zRow, zCol) => some (s.w, zRow, zCol)
    | true, none => search nRows nCols fuel s.w s.root
    | false, _ => search nRows nCols fuel (adjust nRows nCols s.w) s.root

/-- The `while (true)` of lines 228-268. -/
def growPath (nRows nCols : Nat) (w : Work) :
    Nat → List (Nat × Nat) → Option (List (Nat × Nat))
  | 0, _ => none
  | fuel + 1, path =>
    let cStar := (path.getLastD (0, 0)).2
    match firstIdx nRows (fun r => w.star r cStar) with
    | none => some path
    | some rStar =>
      let path1 := path ++ [(rStar, cStar)]
      match firstIdx nCols (fun c => w.prime rStar c) with
      | none => some path1
      | some cPrime => growPath nRows nCols w fuel (path1 ++ [(rStar, cPrime)])

/-- Body of the flip loop. -/
def flipCell (w : Work) (rc : Nat × Nat) : Work :=
  if w.star rc.1 rc.2 then { w with star := setMat w.star rc.1 rc.2 false }
  else if w.prime rc.1 rc.2 then { w with star := setMat w.star rc.1 rc.2 true }
  else w

/-- The flip loop followed by `prime.setZero(); coverRow.setZero(); coverCol.setZero();
coverColumnsWithStars();`. -/
def augment (nRows nCols : Nat) (w : Work) (path : List (Nat × Nat)) : Work :=
  let w1 := path.foldl flipCell w
  coverColumnsWithStars nRows nCols
    { w1 with prime := fun _ _ => false
              coverRow := fun _ => false
              coverCol := fun _ => false }

/-- The main `while (countCoveredColumns() < minDim)` loop; `fuel` bounds the number of
evaluations of the loop condition. -/
def mainLoop (nRows nCols : Nat) (searchFuel pathFuel : Nat) : Nat → Work → Option Work
  | 0, _ => none
  | fuel + 1, w =>
    if countCoveredColumns nCols w < min nRows nCols then
      match search nRows nCols searchFuel w none with
      | none => none
      | some (w1, zRow, zCol) =>
        match growPath nRows nCols w1 pathFuel [(zRow, zCol)] with
        | none => none
        | some path => mainLoop nRows nCols searchFuel pathFuel fuel (augment nRows nCols w1 path)
    else some w

/-- The cost loop of lines 298-305: `totalCost += cost_matrix(r, c)` on `double`. -/
def totalCost (cost : CostMatrix) (assignment : List Int) : Dbl :=
  forRange
    (fun r total =>
      let c := assignment.getD r (-1)
      if c ≥ 0 then Dbl.add total (cost.coeff r c.toNat) else total)
    (Dbl.fin 0) cost.nRows

/-- What a call of `solve` does: it throws, or returns the total cost, or (in the model
only) a loop has not been left within its fuel. -/
inductive Outcome where
  | threw (e : SolveError)
  | returned (totalCost : Dbl)
  | noResult
  deriving DecidableEq, Repr

/-- The test `(cost_matrix.array() < 0).any()`. -/
def anyNegative (cost : CostMatrix) : Bool :=
  (List.range cost.nRows).any fun r =>
    (List.range cost.nCols).any fun c => Dbl.lt (cost.coeff r c) (Dbl.fin 0)

/-- The state after lines 33-84 and 122: reduction, greedy stars, covers rebuilt. -/
def initialWork (cost : CostMatrix) : Work :=
  let w0 : Work :=
    { dist := reduce cost.nRows cost.nCols cost.coeff
      star := fun _ _ => false
      prime := fun _ _ => false
      coverRow := fun _ => false
      coverCol := fun _ => false }
  let w1 := greedyStars cost.nRows cost.nCols w0
  coverColumnsWithStars cost.nRows cost.nCols
    { w1 with coverRow := fun _ => false, coverCol := fun _ => false }

/-- `solve` with explicit fuel for its three `while` loops.  The second component is the
caller's `assignment` vector after the call. -/
def solveWith (mainFuel searchFuel pathFuel : Nat) (cost : CostMatrix)
    (assignment : List Int) : Outcome × List Int :=
  if cost.nRows = 0 ∨ cost.nCols = 0 then (Outcome.threw SolveError.emptyMatrix, assignment)
  else if anyNegative cost then (Outcome.threw SolveError.negativeCosts, assignment)
  else
    let assignment1 : List Int := List.replicate cost.nRows (-1)
    match mainLoop cost.nRows cost.nCols searchFuel pathFuel mainFuel (initialWork cost) with
    | none => (Outcome.noResult, assignment1)
    | some w =>
      let assignment2 := buildAssignment cost.nRows cost.nCols w assignment1
      (Outcome.returned (totalCost cost assignment2), assignment2)

/-- `HungarianEigen::solve` on doubles, with the fuel that suffices in exact arithmetic. -/
def solve (cost : CostMatrix) (assignment : List Int) : Outcome × List Int :=
  solveWith (min cost.nRows cost.nCols + 1) (2 * cost.nRows + 2) (cost.nRows + 1) cost assignment

/-- Build a cost matrix from rows, for examples. -/
def ofRows (nRows nCols : Nat) (rows : List (List Dbl)) : CostMatrix :=
  { nRows := nRows, nCols := nCols, coeff := fun r c => (rows.getD r []).getD c (Dbl.fin 0) }

/-- The exact cost matrix read as a matrix of doubles (entries are not rounded: the
matrices this is applied to hold representable values, see `Dbl.isDouble`). -/
def ofExact (cost : HungarianEigen.CostMatrix) : CostMatrix :=
  { nRows := cost.nRows, nCols := cost.nCols, coeff := fun r c => Dbl.fin (cost.coeff r c) }

/-- Every entry of the matrix is a value that a `double` can hold. -/
def allDoubles (cost : CostMatrix) : Bool :=
  (List.range cost.nRows).all fun r => (List.range cost.nCols).all fun c => (cost.coeff r c).isDouble

end Ieee

/-- A square matrix of integers that a `double` holds exactly, on which the cost sum of
line 304 is rounded: `2 ^ 53 = 9007199254740992` and `2 ^ 54 = 18014398509481984`. -/
def matrixSum : CostMatrix :=
  ofRows 2 2 [[9007199254740992, 18014398509481984], [18014398509481984, 1]]

/-- A square matrix of integers that a `double` holds exactly, on which the row reduction
of line 45 is rounded: `2 ^ 53 + 2 = 9007199254740994`. -/
def matrixRound : CostMatrix :=
  ofRows 2 2 [[9007199254740994, 1], [9007199254740992, 0]]

/-- The matrix with the single entry `+inf`. -/
def Ieee.matrixInf : Ieee.CostMatrix := Ieee.ofRows 1 1 [[Ieee.Dbl.posInf]]

/-! ## Loop combinators: basic facts -/

theorem firstFrom_some {p : Nat → Bool} {k lo i : Nat} (h : firstFrom p lo k = some i) :
    lo ≤ i ∧ i < lo + k ∧ p i = true ∧ ∀ j, lo ≤ j → j < i → p j = false := by
  induction k generalizing lo with
  | zero => simp [firstFrom] at h
  | succ k ih =>
    unfold firstFrom at h
    by_cases hp : p lo = true
    · simp only [hp, if_true, Option.some.injEq] at h
      subst h
      exact ⟨le_refl _, by omega, hp, fun j h1 h2 => by omega⟩
    · simp only [hp] at h
      obtain ⟨h1, h2, h3, h4⟩ := ih h
      refine ⟨by omega, by omega, h3, fun j hj1 hj2 => ?_⟩
      rcases Nat.eq_or_lt_of_le hj1 with e | e
      · subst e; simpa using hp
      · exact h4 j e hj2

theorem firstFrom_none {p : Nat → Bool} {k lo : Nat} (h : firstFrom p lo k = none) :
    ∀ j, lo ≤ j → j < lo + k → p j = false := by
  induction k generalizing lo with
  | zero => intro j h1 h2; omega
  | succ k ih =>
    unfold firstFrom at h
    by_cases hp : p lo = true
    · simp [hp] at h
    · simp only [hp] at h
      intro j h1 h2
      rcases Nat.eq_or_lt_of_le h1 with e | e
      · subst e; simpa using hp
      · exact ih h j e (by omega)

theorem firstIdx_some {n : Nat} {p : Nat → Bool} {i : Nat} (h : firstIdx n p = some i) :
    i < n ∧ p i = true ∧ ∀ j, j < i → p j = false := by
  obtain ⟨_, h2, h3, h4⟩ := firstFrom_some h
  exact ⟨by omega, h3, fun j hj => h4 j (Nat.zero_le _) hj⟩

theorem firstIdx_none {n : Nat} {p : Nat → Bool} (h : firstIdx n p = none) :
    ∀ j, j < n → p j = false := by
  intro j hj
  exact firstFrom_none h j (Nat.zero_le _) (by omega)

theorem firstIdx_exists {n : Nat} {p : Nat → Bool} {j : Nat} (hj : j < n) (hp : p j = true) :
    ∃ i, firstIdx n p = some i := by
  cases h : firstIdx n p with
  | none => have := firstIdx_none h j hj; simp [hp] at this
  | some i => exact ⟨i, rfl⟩

theorem minCoeff_le (f : Nat → Int) {n i : Nat} (hi : i < n) : minCoeff f n ≤ f i := by
  unfold minCoeff
  induction n with
  | zero => omega
  | succ n ih =>
    simp only [forRange]
    rcases Nat.eq_or_lt_of_le (Nat.le_of_lt_succ hi) with e | e
    · subst e; split <;> omega
    · have := ih e; split <;> omega

theorem minCoeff_attained (f : Nat → Int) {n : Nat} (hn : 0 < n) :
    ∃ i, i < n ∧ minCoeff f n = f i := by
  unfold minCoeff
  induction n with
  | zero => omega
  | succ n ih =>
    simp only [forRange]
    split
    · exact ⟨n, by omega, rfl⟩
    · rcases Nat.eq_zero_or_pos n with e | e
      · subst e; exact ⟨0, by omega, rfl⟩
      · obtain ⟨i, hi, h⟩ := ih e
        exact ⟨i, by omega, h⟩

theorem minCoeff_congr {f g : Nat → Int} {n : Nat} (hn : 0 < n)
    (h : ∀ i, i < n → f i = g i) : minCoeff f n = minCoeff g n := by
  unfold minCoeff
  induction n with
  | zero => omega
  | succ n ih =>
    simp only [forRange]
    rcases Nat.eq_zero_or_pos n with e | e
    · subst e; simp [forRange, h 0 (by omega)]
    · rw [ih e (fun i hi => h i (by omega)), h n (by omega)]

/-! ## Reduction -/

theorem forRange_reduceRow (nCols : Nat) (d : Nat → Nat → Int) (m : Nat) :
    ∀ i j, forRange (reduceRow nCols) d m i j =
      if i < m then d i j - minCoeff (fun c => d i c) nCols else d i j := by
  induction m with
  | zero => simp [forRange]
  | succ m ih =>
    intro i j
    simp only [forRange, reduceRow]
    by_cases h : i = m
    · subst h
      simp [ih]
    · simp only [h, if_false, ih]
      by_cases h2 : i < m
      · simp [h2, Nat.lt_succ_of_lt h2]
      · have : ¬ i < m + 1 := by omega
        simp [h2, this]

theorem forRange_reduceCol (nRows : Nat) (d : Nat → Nat → Int) (n : Nat) :
    ∀ i j, forRange (reduceCol nRows) d n i j =
      if j < n then d i j - minCoeff (fun r => d r j) nRows else d i j := by
  induction n with
  | zero => simp [forRange]
  | succ n ih =>
    intro i j
    simp only [forRange, reduceCol]
    by_cases h : j = n
    · subst h
      simp [ih]
    · simp only [h, if_false, ih]
      by_cases h2 : j < n
      · simp [h2, Nat.lt_succ_of_lt h2]
      · have : ¬ j < n + 1 := by omega
        simp [h2, this]

/-- Closed form of the reduction inside the matrix. -/
theorem reduce_apply (m n : Nat) (d : Nat → Nat → Int) {i j : Nat} (hi : i < m) (hj : j < n) :
    reduce m n d i j =
      (d i j - minCoeff (fun c => d i c) n) -
        minCoeff (fun r => d r j - minCoeff (fun c => d r c) n) m := by
  unfold reduce
  rw [forRange_reduceCol]
  simp only [hj, if_true]
  rw [forRange_reduceRow]
  simp only [hi, if_true]
  congr 1
  apply minCoeff_congr (by omega)
  intro r hr
  rw [forRange_reduceRow]
  simp [hr]

theorem greedyRow_inv {m n : Nat} {d : Nat → Nat → Int} {w : Work} {r : Nat} (hr : r < m)
    (h : GreedyInv m n d w) : GreedyInv m n d (greedyRow n r w) := by
  unfold greedyRow
  split
  · exact h
  · rename_i hcr
    split
    · exact h
    · rename_i c hc
      obtain ⟨hcn, hp, -⟩ := firstIdx_some hc
      simp only [Bool.and_eq_true, Bool.not_eq_true'] at hp
      obtain ⟨⟨hz, -⟩, hcc⟩ := hp
      have norow : ∀ c', w.star r c' = false := by
        intro c'
        by_contra hs
        exact hcr (h.star_cover r c' (by simpa using hs)).1
      have nocol : ∀ r', w.star r' c = false := by
        intro r'
        by_contra hs
        have := (h.star_cover r' c (by simpa using hs)).2
        simp [hcc] at this
      refine ⟨h.dist_eq, h.prime_eq, ⟨?_, ?_, ?_⟩, ?_, ?_⟩
      · intro r1 c1 hs
        simp only [setMat] at hs
        split at hs
        · rename_i e; obtain ⟨e1, e2⟩ := e; subst e1; subst e2; exact ⟨hr, hcn⟩
        · exact h.stars.star_lt r1 c1 hs
      · intro r1 c1 c2 hs1 hs2
        simp only [setMat] at hs1 hs2
        by_cases e : r1 = r
        · subst e
          simp only [true_and, norow] at hs1 hs2
          split at hs1
          · split at hs2
            · omega
            · simp at hs2
          · simp at hs1
        · simp only [e, false_and, if_false] at hs1 hs2
          exact h.stars.star_row r1 c1 c2 hs1 hs2
      · intro r1 r2 c1 hs1 hs2
        simp only [setMat] at hs1 hs2
        by_cases e : c1 = c
        · subst e
          simp only [and_true, nocol] at hs1 hs2
          split at hs1
          · split at hs2
            · omega
            · simp at hs2
          · simp at hs1
        · simp only [e, and_false, if_false] at hs1 hs2
          exact h.stars.star_col r1 r2 c1 hs1 hs2
      · intro r1 c1 hs
        simp only [setMat] at hs
        simp only [setVec]
        split at hs
        · rename_i e; simp [e.1, e.2]
        · have := h.star_cover r1 c1 hs
          simp [this.1, this.2]
      · intro r1 c1 hs
        simp only [setMat] at hs
        split at hs
        · rename_i e; rw [e.1, e.2]; exact hz
        · exact h.star_zero r1 c1 hs

theorem greedyStars_inv {m n : Nat} {d : Nat → Nat → Int} {w : Work}
    (h : GreedyInv m n d w) : GreedyInv m n d (greedyStars m n w) := by
  unfold greedyStars
  have : ∀ k, k ≤ m → GreedyInv m n d (forRange (greedyRow n) w k) := by
    intro k
    induction k with
    | zero => intro _; exact h
    | succ k ih => intro hk; exact greedyRow_inv (by omega) (ih (by omega))
  exact this m (le_refl _)

theorem coverColumnsWithStars_coverCol (m n : Nat) (w : Work) (c : Nat) :
    (coverColumnsWithStars m n w).coverCol c = true ↔
      c < n ∧ ∃ r, r < m ∧ w.star r c = true := by
  unfold coverColumnsWithStars
  simp only
  induction n with
  | zero => simp [forRange]
  | succ n ih =>
    simp only [forRange]
    cases hf : firstIdx m (fun r => w.star r n) with
    | none =>
      simp only [ih]
      constructor
      · rintro ⟨h1, h2⟩; exact ⟨by omega, h2⟩
      · rintro ⟨h1, r, hr, hs⟩
        refine ⟨?_, r, hr, hs⟩
        rcases Nat.eq_or_lt_of_le (Nat.le_of_lt_succ h1) with e | e
        · subst e; have := firstIdx_none hf r hr; simp [hs] at this
        · exact e
    | some r0 =>
      obtain ⟨hr0, hs0, -⟩ := firstIdx_some hf
      simp only [setVec]
      split
      · rename_i e; subst e
        simp only [true_iff]
        exact ⟨by omega, r0, hr0, hs0⟩
      · rename_i e
        rw [ih]
        constructor
        · rintro ⟨h1, h2⟩; exact ⟨by omega, h2⟩
        · rintro ⟨h1, h2⟩; exact ⟨by omega, h2⟩

@[simp] theorem coverColumnsWithStars_star (m n : Nat) (w : Work) :
    (coverColumnsWithStars m n w).star = w.star := rfl
@[simp] theorem coverColumnsWithStars_prime (m n : Nat) (w : Work) :
    (coverColumnsWithStars m n w).prime = w.prime := rfl
@[simp] theorem coverColumnsWithStars_dist (m n : Nat) (w : Work) :
    (coverColumnsWithStars m n w).dist = w.dist := rfl
@[simp] theorem coverColumnsWithStars_coverRow (m n : Nat) (w : Work) :
    (coverColumnsWithStars m n w).coverRow = w.coverRow := rfl

theorem LoopInv.of_stars {m n : Nat} {w : Work} (h : StarInv m n w) :
    LoopInv m n (coverColumnsWithStars m n
      { w with prime := fun _ _ => false, coverRow := fun _ => false,
               coverCol := fun _ => false }) := by
  refine ⟨⟨h.star_lt, h.star_row, h.star_col⟩, rfl, rfl, ?_⟩
  intro c
  exact coverColumnsWithStars_coverCol m n _ c

theorem LoopInv.searchInv {m n : Nat} {w : Work} (h : LoopInv m n w) : SearchInv m n w := by
  have hp : ∀ r c, w.prime r c = false := by intro r c; rw [h.no_prime]
  have hr : ∀ r, w.coverRow r = false := by intro r; rw [h.no_coverRow]
  refine ⟨h.stars, ⟨?_, ?_, ?_, ?_, ?_, ?_, ?_, ?_⟩, ?_, ?_⟩
  · intro r hc; simp [hr] at hc
  · intro r c hs
    have := h.stars.star_lt r c hs
    have hc : w.coverCol c = true := (h.coverCol_iff c).2 ⟨this.2, r, this.1, hs⟩
    simp [hr, hc]
  · intro r hc; simp [hr] at hc
  · intro c hc
    obtain ⟨-, r, -, hs⟩ := (h.coverCol_iff c).1 hc
    exact ⟨r, hs⟩
  · intro r c hc; simp [hp] at hc
  · intro r c hc; simp [hp] at hc
  · intro r c c' hc; simp [hp] at hc
  · intro r hc; simp [hr] at hc
  · intro r c hc; simp [hp] at hc
  · refine ⟨fun _ => 0, ?_, ?_⟩
    · intro r hc; simp [hr] at hc
    · intro r c r' hc; simp [hp] at hc

theorem setMat_true_iff (f : Nat → Nat → Bool) (r c i j : Nat) :
    setMat f r c true i j = true ↔ (i = r ∧ j = c) ∨ f i j = true := by
  unfold setMat
  by_cases h : i = r ∧ j = c <;> simp [h]

theorem setVec_true_iff (f : Nat → Bool) (r i : Nat) :
    setVec f r true i = true ↔ i = r ∨ f i = true := by
  unfold setVec
  by_cases h : i = r <;> simp [h]

theorem setVec_false_iff (f : Nat → Bool) (r i : Nat) :
    setVec f r false i = true ↔ i ≠ r ∧ f i = true := by
  unfold setVec
  by_cases h : i = r <;> simp [h]

theorem setVec_false_eq_false_iff (f : Nat → Bool) (r i : Nat) :
    setVec f r false i = false ↔ i = r ∨ f i = false := by
  unfold setVec
  by_cases h : i = r <;> simp [h]

theorem coveredRows_card_cover {m : Nat} {w w' : Work} {r : Nat} (hr : r < m)
    (hcr : w.coverRow r = false) (e : w'.coverRow = setVec w.coverRow r true) :
    (coveredRows m w').card = (coveredRows m w).card + 1 := by
  have : coveredRows m w' = insert r (coveredRows m w) := by
    ext i
    simp only [coveredRows, Finset.mem_filter, Finset.mem_range, Finset.mem_insert, e,
      setVec_true_iff]
    constructor
    · rintro ⟨h1, h2 | h2⟩
      · exact Or.inl h2
      · exact Or.inr ⟨h1, h2⟩
    · rintro (h | ⟨h1, h2⟩)
      · subst h; exact ⟨hr, Or.inl rfl⟩
      · exact ⟨h1, Or.inr h2⟩
  rw [this, Finset.card_insert_of_not_mem]
  simp [coveredRows, hcr]

theorem coveredRows_card_le (m : Nat) (w : Work) : (coveredRows m w).card ≤ m := by
  unfold coveredRows
  calc ((Finset.range m).filter _).card ≤ (Finset.range m).card := Finset.card_filter_le _ _
    _ = m := Finset.card_range m

/-- Covering row `r` after priming `(r, c)` and uncovering the column of the row's star
keeps the search invariant and covers one more row. -/
theorem SearchInv.cover_step {m n : Nat} {w w' : Work} {r c sc : Nat} (h : SearchInv m n w)
    (hr : r < m) (hcr : w.coverRow r = false) (hc : c < n) (hcc : w.coverCol c = false)
    (hs : w.star r sc = true) (e1 : w'.star = w.star)
    (e2 : w'.prime = setMat w.prime r c true)
    (e3 : w'.coverRow = setVec w.coverRow r true)
    (e4 : w'.coverCol = setVec w.coverCol sc false) :
    SearchInv m n w' ∧ (coveredRows m w').card = (coveredRows m w).card + 1 := by
  have hcard := coveredRows_card_cover hr hcr e3
  have hsc : w.coverCol sc = true := by
    have := (h.covers.cover_xor r sc hs)
    by_contra hne
    have h2 : w.coverCol sc = false := by simpa using hne
    have := this.2 h2
    simp [hcr] at this
  have noprime : ∀ c', w.prime r c' = false := by
    intro c'
    by_contra hp
    have := h.prime_covered r c' (by simpa using hp)
    simp [hcr] at this
  refine ⟨⟨⟨?_, ?_, ?_⟩, ⟨?_, ?_, ?_, ?_, ?_, ?_, ?_, ?_⟩, ?_, ?_⟩, hcard⟩
  · rw [e1]; exact h.stars.star_lt
  · rw [e1]; exact h.stars.star_row
  · rw [e1]; exact h.stars.star_col
  · intro r1 h1
    rw [e3, setVec_true_iff] at h1
    rcases h1 with h1 | h1
    · omega
    · exact h.covers.coverRow_lt r1 h1
  · intro r1 c1 hs1
    rw [e1] at hs1
    rw [e3, e4, setVec_true_iff, setVec_false_eq_false_iff]
    by_cases er : r1 = r
    · subst er
      have := h.stars.star_row r1 c1 sc hs1 hs
      simp [this]
    · have ec : c1 ≠ sc := by
        intro ec; subst ec
        exact er (h.stars.star_col r1 r c1 hs1 hs)
      simp only [er, ec, false_or]
      exact h.covers.cover_xor r1 c1 hs1
  · intro r1 h1
    rw [e1]
    rw [e3, setVec_true_iff] at h1
    rcases h1 with h1 | h1
    · subst h1; exact ⟨sc, hs⟩
    · exact h.covers.coverRow_star r1 h1
  · intro c1 h1
    rw [e1]
    rw [e4, setVec_false_iff] at h1
    exact h.covers.coverCol_star c1 h1.2
  · intro r1 c1 h1
    rw [e2, setMat_true_iff] at h1
    rcases h1 with ⟨a, b⟩ | h1
    · subst a; subst b; exact ⟨hr, hc⟩
    · exact h.covers.prime_lt r1 c1 h1
  · intro r1 c1 h1
    rw [e2, setMat_true_iff] at h1
    rw [e4, setVec_false_eq_false_iff]
    rcases h1 with ⟨a, b⟩ | h1
    · subst a; subst b; exact Or.inr hcc
    · exact Or.inr (h.covers.prime_col r1 c1 h1)
  · intro r1 c1 c2 h1 h2
    rw [e2, setMat_true_iff] at h1 h2
    rcases h1 with ⟨a, b⟩ | h1
    · rcases h2 with ⟨a', b'⟩ | h2
      · omega
      · subst a; simp [noprime] at h2
    · rcases h2 with ⟨a', b'⟩ | h2
      · subst a'; simp [noprime] at h1
      · exact h.covers.prime_row r1 c1 c2 h1 h2
  · intro r1 h1
    rw [e3, setVec_true_iff] at h1
    rcases h1 with h1 | h1
    · subst h1; exact ⟨c, by rw [e2, setMat_true_iff]; exact Or.inl ⟨rfl, rfl⟩⟩
    · obtain ⟨c1, hc1⟩ := h.covers.coverRow_prime r1 h1
      exact ⟨c1, by rw [e2, setMat_true_iff]; exact Or.inr hc1⟩
  · intro r1 c1 h1
    rw [e2, setMat_true_iff] at h1
    rw [e3, setVec_true_iff]
    rcases h1 with ⟨a, b⟩ | h1
    · exact Or.inl a
    · exact Or.inr (h.prime_covered r1 c1 h1)
  · obtain ⟨rank, hk1, hk2⟩ := h.ranked
    refine ⟨fun i => if i = r then (coveredRows m w).card else rank i, ?_, ?_⟩
    · intro r1 h1
      rw [e3, setVec_true_iff] at h1
      rw [hcard]
      by_cases er : r1 = r
      · simp [er]
      · simp only [er, if_false]
        rcases h1 with h1 | h1
        · exact absurd h1 er
        · exact Nat.lt_succ_of_lt (hk1 r1 h1)
    · intro r1 c1 r2 h1 h2
      rw [e1] at h2
      rw [e2, setMat_true_iff] at h1
      have hr2 : r2 ≠ r ∨ c1 = sc := by
        by_cases er : r2 = r
        · subst er; exact Or.inr (h.stars.star_row r2 c1 sc h2 hs)
        · exact Or.inl er
      rcases h1 with ⟨a, b⟩ | h1
      · subst a; subst b
        have hr2c : w.coverRow r2 = true := (h.covers.cover_xor r2 c1 h2).2 hcc
        have er : r2 ≠ r1 := by intro er; subst er; simp [hcr] at hr2c
        simp only [er, if_false, if_true]
        exact hk1 r2 hr2c
      · have hcol := h.covers.prime_col r1 c1 h1
        have er1 : r1 ≠ r := by
          intro er; subst er; simp [noprime] at h1
        have er2 : r2 ≠ r := by
          rcases hr2 with e | e
          · exact e
          · subst e; simp [hsc] at hcol
        simp only [er1, er2, if_false]
        exact hk2 r1 c1 r2 h1 h2

/-- Priming an uncovered zero in a row without star gives the root state. -/
theorem SearchInv.root_step {m n : Nat} {w w' : Work} {r c : Nat} (h : SearchInv m n w)
    (hr : r < m) (hcr : w.coverRow r = false) (hc : c < n) (hcc : w.coverCol c = false)
    (hs : ∀ cc, w.star r cc = false) (e1 : w'.star = w.star)
    (e2 : w'.prime = setMat w.prime r c true)
    (e3 : w'.coverRow = w.coverRow) (e4 : w'.coverCol = w.coverCol) :
    RootInv m n w' r c := by
  have noprime : ∀ c', w.prime r c' = false := by
    intro c'
    by_contra hp
    have := h.prime_covered r c' (by simpa using hp)
    simp [hcr] at this
  have hlt : (coveredRows m w).card < m := by
    have hsub : coveredRows m w ⊆ (Finset.range m).erase r := by
      intro i hi
      simp only [coveredRows, Finset.mem_filter, Finset.mem_range] at hi
      simp only [Finset.mem_erase, Finset.mem_range]
      refine ⟨?_, hi.1⟩
      intro e; subst e; simp [hcr] at hi
    have := Finset.card_le_card hsub
    rw [Finset.card_erase_of_mem (by simpa using hr), Finset.card_range] at this
    omega
  refine ⟨⟨?_, ?_, ?_⟩, ⟨?_, ?_, ?_, ?_, ?_, ?_, ?_, ?_⟩, ?_, ?_, ?_, ?_⟩
  · rw [e1]; exact h.stars.star_lt
  · rw [e1]; exact h.stars.star_row
  · rw [e1]; exact h.stars.star_col
  · rw [e3]; exact h.covers.coverRow_lt
  · rw [e1, e3, e4]; exact h.covers.cover_xor
  · rw [e1, e3]; exact h.covers.coverRow_star
  · rw [e1, e4]; exact h.covers.coverCol_star
  · intro r1 c1 h1
    rw [e2, setMat_true_iff] at h1
    rcases h1 with ⟨a, b⟩ | h1
    · subst a; subst b; exact ⟨hr, hc⟩
    · exact h.covers.prime_lt r1 c1 h1
  · intro r1 c1 h1
    rw [e2, setMat_true_iff] at h1
    rw [e4]
    rcases h1 with ⟨a, b⟩ | h1
    · subst a; subst b; exact hcc
    · exact h.covers.prime_col r1 c1 h1
  · intro r1 c1 c2 h1 h2
    rw [e2, setMat_true_iff] at h1 h2
    rcases h1 with ⟨a, b⟩ | h1
    · rcases h2 with ⟨a', b'⟩ | h2
      · omega
      · subst a; simp [noprime] at h2
    · rcases h2 with ⟨a', b'⟩ | h2
      · subst a'; simp [noprime] at h1
      · exact h.covers.prime_row r1 c1 c2 h1 h2
  · intro r1 h1
    rw [e3] at h1
    obtain ⟨c1, hc1⟩ := h.covers.coverRow_prime r1 h1
    exact ⟨c1, by rw [e2, setMat_true_iff]; exact Or.inr hc1⟩
  · rw [e2, setMat_true_iff]; exact Or.inl ⟨rfl, rfl⟩
  · rw [e1]; exact hs
  · intro r1 c1 h1
    rw [e2, setMat_true_iff] at h1
    rw [e3]
    rcases h1 with ⟨a, b⟩ | h1
    · exact Or.inr a
    · exact Or.inl (h.prime_covered r1 c1 h1)
  · obtain ⟨rank, hk1, hk2⟩ := h.ranked
    refine ⟨fun i => if i = r then (coveredRows m w).card else rank i, ?_, ?_⟩
    · simp only [if_true]; exact hlt
    · intro r1 c1 r2 h1 h2
      rw [e1] at h2
      rw [e2, setMat_true_iff] at h1
      have er2 : r2 ≠ r := by
        intro er; subst er; simp [hs] at h2
      rcases h1 with ⟨a, b⟩ | h1
      · subst a; subst b
        have hr2c : w.coverRow r2 = true := (h.covers.cover_xor r2 c1 h2).2 hcc
        simp only [er2, if_false, if_true]
        exact hk1 r2 hr2c
      · have er1 : r1 ≠ r := by
          intro er; subst er; simp [noprime] at h1
        simp only [er1, er2, if_false]
        exact hk2 r1 c1 r2 h1 h2

theorem ScanKeeps.refl (m n : Nat) (s : Scan) : ScanKeeps m n s s :=
  ⟨rfl, rfl, fun _ _ h => Or.inl h⟩

theorem ScanKeeps.trans {m n : Nat} {s1 s2 s3 : Scan} (h1 : ScanKeeps m n s1 s2)
    (h2 : ScanKeeps m n s2 s3) : ScanKeeps m n s1 s3 := by
  obtain ⟨a1, b1, c1⟩ := h1
  obtain ⟨a2, b2, c2⟩ := h2
  refine ⟨a2.trans a1, b2.trans b1, ?_⟩
  intro r c h
  rcases c2 r c h with h | h
  · exact c1 r c h
  · rw [a1] at h; exact Or.inr h

theorem scanRow_spec {m n : Nat} {s : Scan} {r : Nat} (h : SearchInv m n s.w)
    (hroot : s.root = none) (hr : r < m) (hcr : s.w.coverRow r = false) :
    ScanKeeps m n s (scanRow n r s) ∧
    ((scanRow n r s = s ∧
        ∀ c, c < n → s.w.coverCol c = false → isZero (s.w.dist r c) = false) ∨
     ((scanRow n r s).root = none ∧ (scanRow n r s).foundZero = true ∧
        SearchInv m n (scanRow n r s).w ∧
        (coveredRows m (scanRow n r s).w).card = (coveredRows m s.w).card + 1) ∨
     (∃ zCol, (scanRow n r s).root = some (r, zCol) ∧ (scanRow n r s).foundZero = true ∧
        RootInv m n (scanRow n r s).w r zCol)) := by
  unfold scanRow
  cases hf : firstIdx n (fun c => !s.w.coverCol c && isZero (s.w.dist r c)) with
  | none =>
    refine ⟨ScanKeeps.refl m n s, Or.inl ⟨rfl, ?_⟩⟩
    intro c hc hcc
    have := firstIdx_none hf c hc
    simpa [hcc] using this
  | some c =>
    obtain ⟨hc, hp, -⟩ := firstIdx_some hf
    simp only [Bool.and_eq_true, Bool.not_eq_true'] at hp
    obtain ⟨hcc, hz⟩ := hp
    simp only
    cases hg : firstIdx n (fun cc => s.w.star r cc) with
    | none =>
      have nostar : ∀ cc, s.w.star r cc = false := by
        intro cc
        by_contra hs
        have hs : s.w.star r cc = true := by simpa using hs
        have := firstIdx_none hg cc (h.stars.star_lt r cc hs).2
        simp [hs] at this
      refine ⟨⟨rfl, rfl, ?_⟩, Or.inr (Or.inr ⟨c, rfl, rfl, ?_⟩)⟩
      · intro r1 c1 h1
        simp only [setMat_true_iff] at h1
        rcases h1 with ⟨a, b⟩ | h1
        · subst a; subst b; exact Or.inr ⟨hr, hc, hz⟩
        · exact Or.inl h1
      · exact h.root_step hr hcr hc hcc nostar rfl rfl rfl rfl
    | some sc =>
      obtain ⟨-, hs, -⟩ := firstIdx_some hg
      have := @SearchInv.cover_step m n s.w
        ⟨s.w.dist, s.w.star, setMat s.w.prime r c true, setVec s.w.coverRow r true,
          setVec s.w.coverCol sc false⟩ r c sc h hr hcr hc hcc hs rfl rfl rfl rfl
      refine ⟨⟨rfl, rfl, ?_⟩, Or.inr (Or.inl ⟨hroot, rfl, this.1, this.2⟩)⟩
      intro r1 c1 h1
      simp only [setMat_true_iff] at h1
      rcases h1 with ⟨a, b⟩ | h1
      · subst a; subst b; exact Or.inr ⟨hr, hc, hz⟩
      · exact Or.inl h1

theorem scanRows_spec {m n : Nat} (k : Nat) :
    ∀ (r : Nat) (s : Scan), r + k = m → SearchInv m n s.w → s.root = none →
      ScanKeeps m n s (scanRows n k r s) ∧ ScanPost m n r s (scanRows n k r s) := by
  induction k with
  | zero =>
    intro r s hk h hroot
    simp only [scanRows]
    refine ⟨ScanKeeps.refl m n s, Or.inl ⟨rfl, ?_⟩⟩
    intro r1 h1 h2; omega
  | succ k ih =>
    intro r s hk h hroot
    simp only [scanRows]
    by_cases hcr : s.w.coverRow r = true
    · simp only [hcr, if_true]
      obtain ⟨hkeep, hpost⟩ := ih (r + 1) s (by omega) h hroot
      refine ⟨hkeep, ?_⟩
      rcases hpost with ⟨e, hno⟩ | hp | hp
      · refine Or.inl ⟨e, ?_⟩
        intro r1 h1 h2 h3
        rcases Nat.eq_or_lt_of_le h1 with e1 | e1
        · subst e1; simp [hcr] at h3
        · exact hno r1 e1 h2 h3
      · exact Or.inr (Or.inl hp)
      · exact Or.inr (Or.inr hp)
    · have hcr : s.w.coverRow r = false := by simpa using hcr
      simp only [hcr, Bool.false_eq_true, if_false]
      obtain ⟨hkeep1, hrow⟩ := scanRow_spec h hroot (by omega : r < m) hcr
      rcases hrow with ⟨e, hno⟩ | ⟨hroot1, hfound1, hinv1, hcard1⟩ | ⟨zc, hroot1, hfound1, hinv1⟩
      · rw [e]
        simp only [hroot, Option.isSome_none, Bool.and_false, Bool.false_eq_true, if_false]
        obtain ⟨hkeep, hpost⟩ := ih (r + 1) s (by omega) h hroot
        refine ⟨hkeep, ?_⟩
        rcases hpost with ⟨e', hno'⟩ | hp | hp
        · refine Or.inl ⟨e', ?_⟩
          intro r1 h1 h2 h3
          rcases Nat.eq_or_lt_of_le h1 with e1 | e1
          · subst e1; exact hno
          · exact hno' r1 e1 h2 h3
        · exact Or.inr (Or.inl hp)
        · exact Or.inr (Or.inr hp)
      · simp only [hroot1, Option.isSome_none, Bool.and_false, Bool.false_eq_true, if_false]
        obtain ⟨hkeep, hpost⟩ := ih (r + 1) (scanRow n r s) (by omega) hinv1 hroot1
        refine ⟨hkeep1.trans hkeep, ?_⟩
        rcases hpost with ⟨e', -⟩ | ⟨a, b, c, d⟩ | hp
        · rw [e']
          exact Or.inr (Or.inl ⟨hroot1, hfound1, hinv1, by omega⟩)
        · exact Or.inr (Or.inl ⟨a, b, c, by omega⟩)
        · exact Or.inr (Or.inr hp)
      · simp only [hroot1, hfound1, Option.isSome_some, Bool.and_self, if_true]
        exact ⟨hkeep1, Or.inr (Or.inr ⟨r, zc, hroot1, hfound1, hinv1⟩)⟩

theorem RunMin.congr {d : Nat → Nat → Int} {S T : Nat → Nat → Prop} {h : Option Int}
    (hS : RunMin d S h) (e : ∀ r c, S r c ↔ T r c) : RunMin d T h := by
  have : S = T := by funext r c; exact propext (e r c)
  rw [← this]; exact hS

theorem RunMin.inner {d : Nat → Nat → Int} {S : Nat → Nat → Prop} {h0 : Option Int}
    (cov : Nat → Bool) (r : Nat) (hS : RunMin d S h0) (k : Nat) :
    RunMin d (fun r' c' => S r' c' ∨ (r' = r ∧ c' < k ∧ cov c' = false))
      (forRange
        (fun c h =>
          if !cov c then
            match h with
            | none => some (d r c)
            | some hv => if d r c < hv then some (d r c) else some hv
          else h)
        h0 k) := by
  induction k with
  | zero =>
    simp only [forRange]
    apply hS.congr
    intro r' c'; simp
  | succ k ih =>
    simp only [forRange]
    generalize forRange _ h0 k = hk at ih
    by_cases hc : cov k = true
    · simp only [hc, Bool.not_true, Bool.false_eq_true, if_false]
      apply ih.congr
      intro r' c'
      constructor
      · rintro (h | ⟨h1, h2, h3⟩)
        · exact Or.inl h
        · exact Or.inr ⟨h1, by omega, h3⟩
      · rintro (h | ⟨h1, h2, h3⟩)
        · exact Or.inl h
        · refine Or.inr ⟨h1, ?_, h3⟩
          rcases Nat.eq_or_lt_of_le (Nat.le_of_lt_succ h2) with e | e
          · subst e; simp [hc] at h3
          · exact e
    · have hc : cov k = false := by simpa using hc
      simp only [hc, Bool.not_false, if_true]
      have hsplit : ∀ r' c', (S r' c' ∨ (r' = r ∧ c' < k + 1 ∧ cov c' = false)) ↔
          ((S r' c' ∨ (r' = r ∧ c' < k ∧ cov c' = false)) ∨ (r' = r ∧ c' = k)) := by
        intro r' c'
        constructor
        · rintro (h | ⟨h1, h2, h3⟩)
          · exact Or.inl (Or.inl h)
          · rcases Nat.eq_or_lt_of_le (Nat.le_of_lt_succ h2) with e | e
            · exact Or.inr ⟨h1, e⟩
            · exact Or.inl (Or.inr ⟨h1, e, h3⟩)
        · rintro ((h | ⟨h1, h2, h3⟩) | ⟨h1, h2⟩)
          · exact Or.inl h
          · exact Or.inr ⟨h1, by omega, h3⟩
          · subst h2; exact Or.inr ⟨h1, by omega, hc⟩
      refine RunMin.congr ?_ (fun r' c' => (hsplit r' c').symm)
      obtain ⟨ih1, ih2⟩ := ih
      cases hk with
      | none =>
        simp only
        refine ⟨by simp, ?_⟩
        intro v hv
        simp only [Option.some.injEq] at hv
        subst hv
        have hnone := ih1 rfl
        refine ⟨?_, r, k, Or.inr ⟨rfl, rfl⟩, rfl⟩
        intro r' c' h
        rcases h with h | ⟨h1, h2⟩
        · exact absurd h (hnone r' c')
        · subst h1; subst h2; exact le_refl _
      | some hv =>
        simp only
        obtain ⟨hle, r0, c0, hS0, hd0⟩ := ih2 hv rfl
        by_cases hlt : d r k < hv
        · simp only [hlt, if_true]
          refine ⟨by simp, ?_⟩
          intro v hv'
          simp only [Option.some.injEq] at hv'
          subst hv'
          refine ⟨?_, r, k, Or.inr ⟨rfl, rfl⟩, rfl⟩
          intro r' c' h
          rcases h with h | ⟨h1, h2⟩
          · have := hle r' c' h; omega
          · subst h1; subst h2; exact le_refl _
        · simp only [hlt, if_false]
          refine ⟨by simp, ?_⟩
          intro v hv'
          simp only [Option.some.injEq] at hv'
          subst hv'
          refine ⟨?_, r0, c0, Or.inl hS0, hd0⟩
          intro r' c' h
          rcases h with h | ⟨h1, h2⟩
          · exact hle r' c' h
          · subst h1; subst h2; omega

theorem minUncovered_spec (m n : Nat) (w : Work) :
    RunMin w.dist
      (fun r c => r < m ∧ c < n ∧ w.coverRow r = false ∧ w.coverCol c = false)
      (minUncovered m n w) := by
  unfold minUncovered
  induction m with
  | zero =>
    simp only [forRange]
    exact ⟨fun _ r c h => by omega, fun v hv => by simp at hv⟩
  | succ m ih =>
    simp only [forRange]
    generalize forRange _ none m = hm at ih
    by_cases hc : w.coverRow m = true
    · simp only [hc, if_true]
      apply ih.congr
      intro r c
      constructor
      · rintro ⟨h1, h2, h3, h4⟩; exact ⟨by omega, h2, h3, h4⟩
      · rintro ⟨h1, h2, h3, h4⟩
        refine ⟨?_, h2, h3, h4⟩
        rcases Nat.eq_or_lt_of_le (Nat.le_of_lt_succ h1) with e | e
        · subst e; simp [hc] at h3
        · exact e
    · have hc : w.coverRow m = false := by simpa using hc
      simp only [hc, Bool.false_eq_true, if_false]
      apply (RunMin.inner w.coverCol m ih n).congr
      intro r c
      constructor
      · rintro (⟨h1, h2, h3, h4⟩ | ⟨h1, h2, h3⟩)
        · exact ⟨by omega, h2, h3, h4⟩
        · subst h1; exact ⟨by omega, h2, hc, h3⟩
      · rintro ⟨h1, h2, h3, h4⟩
        rcases Nat.eq_or_lt_of_le (Nat.le_of_lt_succ h1) with e | e
        · exact Or.inr ⟨e, h2, h4⟩
        · exact Or.inl ⟨e, h2, h3, h4⟩

theorem addToCoveredRows_apply (m : Nat) (cov : Nat → Bool) (h : Int) (d : Nat → Nat → Int) :
    ∀ i j, addToCoveredRows m cov h d i j =
      if i < m ∧ cov i = true then d i j + h else d i j := by
  unfold addToCoveredRows
  induction m with
  | zero => simp [forRange]
  | succ m ih =>
    intro i j
    simp only [forRange]
    by_cases hc : cov m = true
    · simp only [hc, if_true, ih]
      by_cases e : i = m
      · subst e; simp [hc]
      · simp only [e, if_false]
        by_cases h2 : i < m
        · simp [h2, Nat.lt_succ_of_lt h2]
        · have : ¬ i < m + 1 := by omega
          simp [h2, this]
    · have hc : cov m = false := by simpa using hc
      simp only [hc, Bool.false_eq_true, if_false]
      rw [ih]
      by_cases e : i = m
      · subst e; simp [hc]
      · by_cases h2 : i < m
        · simp [h2, Nat.lt_succ_of_lt h2]
        · have : ¬ i < m + 1 := by omega
          simp [h2, this]

theorem subFromUncoveredCols_apply (n : Nat) (cov : Nat → Bool) (h : Int)
    (d : Nat → Nat → Int) :
    ∀ i j, subFromUncoveredCols n cov h d i j =
      if j < n ∧ cov j = false then d i j - h else d i j := by
  unfold subFromUncoveredCols
  induction n with
  | zero => simp [forRange]
  | succ n ih =>
    intro i j
    simp only [forRange]
    by_cases hc : cov n = true
    · simp only [hc, Bool.not_true, Bool.false_eq_true, if_false]
      rw [ih]
      by_cases e : j = n
      · subst e; simp [hc]
      · by_cases h2 : j < n
        · simp [h2, Nat.lt_succ_of_lt h2]
        · have : ¬ j < n + 1 := by omega
          simp [h2, this]
    · have hc : cov n = false := by simpa using hc
      simp only [hc, Bool.not_false, if_true, ih]
      by_cases e : j = n
      · subst e; simp [hc]
      · simp only [e, if_false]
        by_cases h2 : j < n
        · simp [h2, Nat.lt_succ_of_lt h2]
        · have : ¬ j < n + 1 := by omega
          simp [h2, this]

theorem starRows_eq_image (m n : Nat) (w : Work) :
    starRows m n w = (starCells m n w).image Prod.fst := by
  ext r
  simp only [starRows, starCells, Finset.mem_filter, Finset.mem_range, Finset.mem_image,
    Finset.mem_product, Prod.exists, exists_and_right, exists_eq_right]
  constructor
  · rintro ⟨h1, c, h2, h3⟩; exact ⟨c, ⟨h1, h2⟩, h3⟩
  · rintro ⟨c, ⟨h1, h2⟩, h3⟩; exact ⟨h1, c, h2, h3⟩

theorem starCols_eq_image (m n : Nat) (w : Work) :
    starCols m n w = (starCells m n w).image Prod.snd := by
  ext c
  simp only [starCols, starCells, Finset.mem_filter, Finset.mem_range, Finset.mem_image,
    Finset.mem_product, Prod.exists, exists_eq_right]
  constructor
  · rintro ⟨h1, r, h2, h3⟩; exact ⟨r, ⟨h2, h1⟩, h3⟩
  · rintro ⟨r, ⟨h1, h2⟩, h3⟩; exact ⟨h2, r, h1, h3⟩

theorem StarInv.card_starRows {m n : Nat} {w : Work} (h : StarInv m n w) :
    (starRows m n w).card = (starCells m n w).card := by
  rw [starRows_eq_image]
  apply Finset.card_image_of_injOn
  intro p hp q hq e
  simp only [starCells, Finset.coe_filter, Finset.mem_product, Finset.mem_range,
    Set.mem_setOf_eq] at hp hq
  obtain ⟨p1, p2⟩ := p
  obtain ⟨q1, q2⟩ := q
  simp only at e hp hq
  subst e
  rw [h.star_row p1 p2 q2 hp.2 hq.2]

theorem StarInv.card_starCols {m n : Nat} {w : Work} (h : StarInv m n w) :
    (starCols m n w).card = (starCells m n w).card := by
  rw [starCols_eq_image]
  apply Finset.card_image_of_injOn
  intro p hp q hq e
  simp only [starCells, Finset.coe_filter, Finset.mem_product, Finset.mem_range,
    Set.mem_setOf_eq] at hp hq
  obtain ⟨p1, p2⟩ := p
  obtain ⟨q1, q2⟩ := q
  simp only at e hp hq
  subst e
  rw [h.star_col p1 q1 p2 hp.2 hq.2]

theorem StarInv.card_rows_eq_cols {m n : Nat} {w : Work} (h : StarInv m n w) :
    (starRows m n w).card = (starCols m n w).card := by
  rw [h.card_starRows, h.card_starCols]

theorem starRows_card_le (m n : Nat) (w : Work) : (starRows m n w).card ≤ m := by
  unfold starRows
  calc ((Finset.range m).filter _).card ≤ (Finset.range m).card := Finset.card_filter_le _ _
    _ = m := Finset.card_range m

theorem starCols_card_le (m n : Nat) (w : Work) : (starCols m n w).card ≤ n := by
  unfold starCols
  calc ((Finset.range n).filter _).card ≤ (Finset.range n).card := Finset.card_filter_le _ _
    _ = n := Finset.card_range n

theorem exists_lt_not_mem_of_card_lt {s : Finset Nat} {k : Nat} (h : s.card < k) :
    ∃ i, i < k ∧ i ∉ s := by
  by_contra hne
  push_neg at hne
  have hsub : Finset.range k ⊆ s := fun i hi => hne i (Finset.mem_range.1 hi)
  have := Finset.card_le_card hsub
  rw [Finset.card_range] at this
  omega

/-- While fewer than `min m n` columns hold a star, some row and some column are
uncovered. -/
theorem SearchInv.exists_uncovered {m n : Nat} {w : Work} (h : SearchInv m n w)
    (hlt : (starCols m n w).card < min m n) :
    ∃ r c, r < m ∧ c < n ∧ w.coverRow r = false ∧ w.coverCol c = false := by
  have hrows : (coveredRows m w).card < m := by
    have hsub : coveredRows m w ⊆ starRows m n w := by
      intro r hr
      simp only [coveredRows, Finset.mem_filter, Finset.mem_range] at hr
      simp only [starRows, Finset.mem_filter, Finset.mem_range]
      obtain ⟨c, hc⟩ := h.covers.coverRow_star r hr.2
      exact ⟨hr.1, c, (h.stars.star_lt r c hc).2, hc⟩
    have := Finset.card_le_card hsub
    rw [h.stars.card_rows_eq_cols] at this
    have := Nat.min_le_left m n
    omega
  have hcols : (coveredCols n w).card < n := by
    have hsub : coveredCols n w ⊆ starCols m n w := by
      intro c hc
      simp only [coveredCols, Finset.mem_filter, Finset.mem_range] at hc
      simp only [starCols, Finset.mem_filter, Finset.mem_range]
      obtain ⟨r, hr⟩ := h.covers.coverCol_star c hc.2
      exact ⟨hc.1, r, (h.stars.star_lt r c hr).1, hr⟩
    have := Finset.card_le_card hsub
    have := Nat.min_le_right m n
    omega
  obtain ⟨r, hr1, hr2⟩ := exists_lt_not_mem_of_card_lt hrows
  obtain ⟨c, hc1, hc2⟩ := exists_lt_not_mem_of_card_lt hcols
  simp only [coveredRows, Finset.mem_filter, Finset.mem_range, hr1, true_and,
    Bool.not_eq_true] at hr2
  simp only [coveredCols, Finset.mem_filter, Finset.mem_range, hc1, true_and,
    Bool.not_eq_true] at hc2
  exact ⟨r, c, hr1, hc1, hr2, hc2⟩

theorem SearchInv.of_eq {m n : Nat} {w w' : Work} (h : SearchInv m n w)
    (e1 : w'.star = w.star) (e2 : w'.prime = w.prime) (e3 : w'.coverRow = w.coverRow)
    (e4 : w'.coverCol = w.coverCol) : SearchInv m n w' := by
  obtain ⟨d, s, p, cr, cc⟩ := w
  obtain ⟨d', s', p', cr', cc'⟩ := w'
  simp only at e1 e2 e3 e4
  subst e1 e2 e3 e4
  exact ⟨⟨h.stars.star_lt, h.stars.star_row, h.stars.star_col⟩,
    ⟨h.covers.coverRow_lt, h.covers.cover_xor, h.covers.coverRow_star,
      h.covers.coverCol_star, h.covers.prime_lt, h.covers.prime_col, h.covers.prime_row,
      h.covers.coverRow_prime⟩, h.prime_covered, h.ranked⟩

theorem isZero_false_iff (x : Int) : isZero x = false ↔ 1 ≤ x := by
  unfold isZero; simp

theorem isZero_true_iff (x : Int) : isZero x = true ↔ x < 1 := by
  unfold isZero; simp

/-- Step 5 in a search state without uncovered zero: `h` is finite, the marks and covers
are untouched, an uncovered zero appears and the distance invariant is kept. -/
theorem adjust_spec {m n : Nat} {w : Work} (h : SearchInv m n w)
    (hex : ∃ r c, r < m ∧ c < n ∧ w.coverRow r = false ∧ w.coverCol c = false)
    (hno : ∀ r, r < m → w.coverRow r = false → ∀ c, c < n → w.coverCol c = false →
      isZero (w.dist r c) = false) :
    ∃ w', adjust m n w = some w' ∧ w'.star = w.star ∧ w'.prime = w.prime ∧
      w'.coverRow = w.coverRow ∧ w'.coverCol = w.coverCol ∧
      (∃ r c, r < m ∧ c < n ∧ w.coverRow r = false ∧ w.coverCol c = false ∧
        isZero (w'.dist r c) = true) ∧
      ∀ cost : CostMatrix, cost.nRows = m → cost.nCols = n → DistInv cost w →
        DistInv cost w' := by
  have hmin := minUncovered_spec m n w
  unfold adjust
  cases hv : minUncovered m n w with
  | none =>
    obtain ⟨r, c, h1, h2, h3, h4⟩ := hex
    exact absurd ⟨h1, h2, h3, h4⟩ (hmin.1 hv r c)
  | some hval =>
    obtain ⟨hle, r0, c0, ⟨hr0, hc0, hcr0, hcc0⟩, hd0⟩ := hmin.2 hval hv
    have hpos : 1 ≤ hval := by
      have := hno r0 hr0 hcr0 c0 hc0 hcc0
      rw [isZero_false_iff] at this
      omega
    have hdist : ∀ r c, r < m → c < n →
        (subFromUncoveredCols n w.coverCol hval
          (addToCoveredRows m w.coverRow hval w.dist)) r c =
        w.dist r c + (if w.coverRow r = true then hval else 0) -
          (if w.coverCol c = false then hval else 0) := by
      intro r c hr hc
      rw [subFromUncoveredCols_apply, addToCoveredRows_apply]
      by_cases a : w.coverRow r = true <;> by_cases b : w.coverCol c = false <;>
        simp [hr, hc, a, b]
    refine ⟨_, rfl, rfl, rfl, rfl, rfl, ⟨r0, c0, hr0, hc0, hcr0, hcc0, ?_⟩, ?_⟩
    · simp only
      rw [hdist r0 c0 hr0 hc0, isZero_true_iff]
      simp [hcr0, hcc0, hd0]
    · intro cost em en hD
      subst em; subst en
      refine ⟨?_, ?_, ?_, ?_⟩
      · intro r hr c hc
        simp only
        rw [hdist r c hr hc]
        have h0 := hD.nonneg r hr c hc
        rcases Bool.eq_false_or_eq_true (w.coverRow r) with a | a <;>
          rcases Bool.eq_false_or_eq_true (w.coverCol c) with b | b
        · simp only [a, b, Bool.true_eq_false, if_true, if_false]; omega
        · simp only [a, b, if_true]; omega
        · simp only [a, b, Bool.true_eq_false, Bool.false_eq_true, if_false]; omega
        · have := hle r c ⟨hr, hc, a, b⟩
          simp only [a, b, Bool.false_eq_true, if_true, if_false]; omega
      · intro r c hs
        have hs' : w.star r c = true := hs
        obtain ⟨hr, hc⟩ := h.stars.star_lt r c hs'
        simp only
        rw [hdist r c hr hc]
        have hx := h.covers.cover_xor r c hs'
        have h0 := hD.star_zero r c hs'
        rcases Bool.eq_false_or_eq_true (w.coverRow r) with a | a
        · have b := hx.1 a
          simp only [a, b, if_true]; omega
        · have b : w.coverCol c = true := by
            rcases Bool.eq_false_or_eq_true (w.coverCol c) with b | b
            · exact b
            · have := hx.2 b; simp [a] at this
          simp only [a, b, Bool.true_eq_false, Bool.false_eq_true, if_false]; omega
      · intro r c hp
        have hp' : w.prime r c = true := hp
        obtain ⟨hr, hc⟩ := h.covers.prime_lt r c hp'
        simp only
        rw [hdist r c hr hc]
        have a := h.prime_covered r c hp'
        have b := h.covers.prime_col r c hp'
        have h0 := hD.prime_zero r c hp'
        simp only [a, b, if_true]; omega
      · obtain ⟨u, v, huv⟩ := hD.potential
        refine ⟨fun r => u r - (if w.coverRow r = true then hval else 0),
          fun c => v c + (if w.coverCol c = false then hval else 0), ?_⟩
        intro r hr c hc
        simp only
        rw [hdist r c hr hc, huv r hr c hc]
        ring

theorem ScanKeeps.distInv {cost : CostMatrix} {s s' : Scan}
    (hk : ScanKeeps cost.nRows cost.nCols s s') (hD : DistInv cost s.w) :
    DistInv cost s'.w := by
  obtain ⟨e1, e2, e3⟩ := hk
  refine ⟨?_, ?_, ?_, ?_⟩
  · rw [e1]; exact hD.nonneg
  · rw [e1, e2]; exact hD.star_zero
  · intro r c hp
    rw [e1]
    rcases e3 r c hp with h | ⟨hr, hc, hz⟩
    · exact hD.prime_zero r c h
    · have := hD.nonneg r hr c hc
      rw [isZero_true_iff] at hz
      omega
  · rw [e1]; exact hD.potential

theorem starCols_congr {m n : Nat} {w w' : Work} (e : w'.star = w.star) :
    starCols m n w' = starCols m n w := by
  unfold starCols; rw [e]

theorem starRows_congr {m n : Nat} {w w' : Work} (e : w'.star = w.star) :
    starRows m n w' = starRows m n w := by
  unfold starRows; rw [e]

theorem coveredRows_congr {m : Nat} {w w' : Work} (e : w'.coverRow = w.coverRow) :
    coveredRows m w' = coveredRows m w := by
  unfold coveredRows; rw [e]

/-- The zero search terminates: with fuel for two iterations per uncovered row it leaves
the loop at a root, having kept the stars and the distance invariant. -/
theorem search_spec {m n : Nat} : ∀ (fuel : Nat) (w : Work), SearchInv m n w →
    (starCols m n w).card < min m n →
    (2 * (m - (coveredRows m w).card) + 2 ≤ fuel ∨
      (2 * (m - (coveredRows m w).card) + 1 ≤ fuel ∧
        ∃ r c, r < m ∧ c < n ∧ w.coverRow r = false ∧ w.coverCol c = false ∧
          isZero (w.dist r c) = true)) →
    ∃ w' zRow zCol, search m n fuel w none = some (w', zRow, zCol) ∧
      RootInv m n w' zRow zCol ∧ w'.star = w.star ∧
      ∀ cost : CostMatrix, cost.nRows = m → cost.nCols = n → DistInv cost w →
        DistInv cost w' := by
  intro fuel
  induction fuel with
  | zero =>
    intro w _ _ hf
    rcases hf with hf | ⟨hf, -⟩ <;> omega
  | succ fuel ih =>
    intro w h hlt hf
    obtain ⟨hkeep, hpost⟩ :=
      @scanRows_spec m n m 0 ⟨w, false, none⟩ (by omega) h rfl
    simp only [search]
    generalize scanRows n m 0 ⟨w, false, none⟩ = s' at hkeep hpost
    have hcle := coveredRows_card_le m w
    rcases hpost with ⟨e, hno⟩ | ⟨hroot, hfound, hinv, hcard⟩ | ⟨zr, zc, hroot, hfound, hinv⟩
    · subst e
      simp only
      have hno' : ∀ r, r < m → w.coverRow r = false → ∀ c, c < n → w.coverCol c = false →
          isZero (w.dist r c) = false := fun r hr hcr c hc hcc =>
        hno r (Nat.zero_le _) hr hcr c hc hcc
      have hfuel : 2 * (m - (coveredRows m w).card) + 1 ≤ fuel := by
        rcases hf with hf | ⟨-, r, c, hr, hc, hcr, hcc, hz⟩
        · omega
        · have := hno' r hr hcr c hc hcc
          rw [hz] at this; exact absurd this (by simp)
      obtain ⟨w1, ha, a1, a2, a3, a4, ⟨r, c, hr, hc, hcr, hcc, hz⟩, hD⟩ :=
        adjust_spec h (h.exists_uncovered hlt) hno'
      rw [ha]
      simp only
      have h1 : SearchInv m n w1 := h.of_eq a1 a2 a3 a4
      obtain ⟨w', zr, zc, hs, hR, hstar, hD'⟩ := ih w1 h1
        (by rw [starCols_congr a1]; exact hlt)
        (Or.inr ⟨by rw [coveredRows_congr a3]; exact hfuel,
          r, c, hr, hc, by rw [a3]; exact hcr, by rw [a4]; exact hcc, hz⟩)
      exact ⟨w', zr, zc, hs, hR, hstar.trans a1,
        fun cost em en hd => hD' cost em en (hD cost em en hd)⟩
    · rw [hfound, hroot]
      simp only
      have hcle' := coveredRows_card_le m s'.w
      have hcard' : (coveredRows m w).card < (coveredRows m s'.w).card := hcard
      obtain ⟨w', zr, zc, hs, hR, hstar, hD'⟩ := ih s'.w hinv
        (by rw [starCols_congr hkeep.2.1]; exact hlt)
        (Or.inl (by rcases hf with hf | ⟨hf, -⟩ <;> omega))
      refine ⟨w', zr, zc, hs, hR, hstar.trans hkeep.2.1, ?_⟩
      intro cost em en hd
      subst em; subst en
      exact hD' cost rfl rfl (hkeep.distInv hd)
    · rw [hfound, hroot]
      simp only
      refine ⟨s'.w, zr, zc, rfl, hinv, hkeep.2.1, ?_⟩
      intro cost em en hd
      subst em; subst en
      exact hkeep.distInv hd

theorem PathInv.init {w : Work} {m n zRow zCol : Nat} (rank : Nat → Nat)
    (h : RootInv m n w zRow zCol) : PathInv w rank zRow [(zRow, zCol)] zRow zCol := by
  refine ⟨by simp, by simp, h.root_prime, by simp, ?_, ?_, ?_, ?_, ?_, ?_, ?_, ?_⟩
  · intro p hp; simp only [List.mem_singleton] at hp; subst hp; exact le_refl _
  · intro r c c' hm _ hs
    simp only [List.mem_singleton, Prod.mk.injEq] at hm
    rw [hm.1, h.root_row] at hs; exact absurd hs (by simp)
  · intro r c r' hm _ hne
    simp only [List.mem_singleton] at hm
    exact absurd hm hne
  · intro r c hm _ hne
    simp only [List.mem_singleton] at hm
    exact absurd hm hne
  · intro r r' c hm hm' _ _
    simp only [List.mem_singleton, Prod.mk.injEq] at hm hm'
    rw [hm.1, hm'.1]
  · intro r c hm _
    simp only [List.mem_singleton, Prod.mk.injEq] at hm
    exact Or.inl hm.1
  · intro r c hm hs
    simp only [List.mem_singleton, Prod.mk.injEq] at hm
    rw [hm.1, h.root_row] at hs; exact absurd hs (by simp)
  · exact ⟨zCol, by simp, h.root_prime⟩

/-- One round of the path builder: the star `(r', cl)` in the column of the last primed
cell and the primed cell `(r', c')` of its row extend the path. -/
theorem PathInv.step {w : Work} {m n zRow zCol : Nat} {rank : Nat → Nat}
    {path : List (Nat × Nat)} {rl cl r' c' : Nat} (hR : RootInv m n w zRow zCol)
    (hrank : ∀ r c r', w.prime r c = true → w.star r' c = true → rank r' < rank r)
    (h : PathInv w rank zRow path rl cl) (hs : w.star r' cl = true)
    (hp : w.prime r' c' = true) :
    PathInv w rank zRow (path ++ [(r', cl)] ++ [(r', c')]) r' c' := by
  have hlt : rank r' < rank rl := hrank rl cl r' h.last_prime hs
  have notboth : ∀ r c, w.prime r c = true → w.star r c = true → False := by
    intro r c a b
    exact absurd (hrank r c r a b) (lt_irrefl _)
  have hrow : ∀ c, (r', c) ∉ path := by
    intro c hm
    have := h.rank_le (r', c) hm
    simp only at this
    omega
  have hmem : ∀ p, p ∈ path ++ [(r', cl)] ++ [(r', c')] ↔
      p ∈ path ∨ p = (r', cl) ∨ p = (r', c') := by
    intro p; simp [List.mem_append, or_assoc]
  have hne : (r', cl) ≠ (r', c') := by
    intro e
    simp only [Prod.mk.injEq, true_and] at e
    subst e
    exact notboth r' cl hp hs
  refine ⟨by simp, by simp, hp, ?_, ?_, ?_, ?_, ?_, ?_, ?_, ?_, ?_⟩
  · simp [List.nodup_append, h.nodup, hrow, hne]
  · intro p hm
    rw [hmem] at hm
    rcases hm with hm | hm | hm
    · have := h.rank_le p hm; omega
    · subst hm; exact le_refl _
    · subst hm; exact le_refl _
  · intro r c c2 hm hpr hst
    rw [hmem] at hm ⊢
    rcases hm with hm | hm | hm
    · exact Or.inl (h.row_closed r c c2 hm hpr hst)
    · simp only [Prod.mk.injEq] at hm
      obtain ⟨a, b⟩ := hm; subst a; subst b
      exact absurd hs (fun x => notboth r c hpr x)
    · simp only [Prod.mk.injEq] at hm
      obtain ⟨a, b⟩ := hm; subst a; subst b
      have := hR.stars.star_row r c2 cl hst hs
      subst this
      exact Or.inr (Or.inl rfl)
  · intro r c r2 hm hpr hnl hst
    rw [hmem] at hm ⊢
    rcases hm with hm | hm | hm
    · by_cases e : (r, c) = (rl, cl)
      · simp only [Prod.mk.injEq] at e
        obtain ⟨a, b⟩ := e; subst a; subst b
        have := hR.stars.star_col r2 r' c hst hs
        subst this
        exact Or.inr (Or.inl rfl)
      · exact Or.inl (h.col_closed r c r2 hm hpr e hst)
    · simp only [Prod.mk.injEq] at hm
      obtain ⟨a, b⟩ := hm; subst a; subst b
      exact absurd hs (fun x => notboth r c hpr x)
    · exact absurd hm hnl
  · intro r c hm hpr hnl
    rw [hmem] at hm
    rcases hm with hm | hm | hm
    · by_cases e : (r, c) = (rl, cl)
      · simp only [Prod.mk.injEq] at e
        obtain ⟨a, b⟩ := e; subst a; subst b
        exact ⟨r', hs⟩
      · exact h.col_star r c hm hpr e
    · simp only [Prod.mk.injEq] at hm
      obtain ⟨a, b⟩ := hm; subst a; subst b
      exact absurd hs (fun x => notboth r c hpr x)
    · exact absurd hm hnl
  · -- primed cells of the path lie in distinct columns
    have key : ∀ r, (r, c') ∈ path → w.prime r c' = true → False := by
      intro r hm hpr
      by_cases e : (r, c') = (rl, cl)
      · simp only [Prod.mk.injEq] at e
        obtain ⟨a, b⟩ := e; subst a; subst b
        exact notboth r' c' hp hs
      · obtain ⟨r2, hst⟩ := h.col_star r c' hm hpr e
        have hm2 := h.col_closed r c' r2 hm hpr e hst
        have h1 := h.rank_le (r2, c') hm2
        have h2 := hrank r' c' r2 hp hst
        simp only at h1
        omega
    intro r r2 c hm hm2 hpr hpr2
    rw [hmem] at hm hm2
    rcases hm with hm | hm | hm
    · rcases hm2 with hm2 | hm2 | hm2
      · exact h.col_uniq r r2 c hm hm2 hpr hpr2
      · simp only [Prod.mk.injEq] at hm2
        obtain ⟨a, b⟩ := hm2; subst a; subst b
        exact absurd hs (fun x => notboth r2 c hpr2 x)
      · simp only [Prod.mk.injEq] at hm2
        obtain ⟨a, b⟩ := hm2; subst a; subst b
        exact absurd hpr (fun x => key r hm x)
    · simp only [Prod.mk.injEq] at hm
      obtain ⟨a, b⟩ := hm; subst a; subst b
      exact absurd hs (fun x => notboth r c hpr x)
    · simp only [Prod.mk.injEq] at hm
      obtain ⟨a, b⟩ := hm; subst a; subst b
      rcases hm2 with hm2 | hm2 | hm2
      · exact absurd hpr2 (fun x => key r2 hm2 x)
      · simp only [Prod.mk.injEq] at hm2
        obtain ⟨a, b⟩ := hm2; subst a; subst b
        rfl
      · simp only [Prod.mk.injEq] at hm2
        exact hm2.1.symm
  · intro r c hm hpr
    rw [hmem] at hm
    rcases hm with hm | hm | hm
    · exact h.prime_row r c hm hpr
    · simp only [Prod.mk.injEq] at hm
      exact Or.inr ⟨cl, by rw [hm.1]; exact hs⟩
    · simp only [Prod.mk.injEq] at hm
      exact Or.inr ⟨cl, by rw [hm.1]; exact hs⟩
  · intro r c hm hst
    rcases (hmem (r, c)).1 hm with hm | hm | hm
    · obtain ⟨c2, a, b⟩ := h.star_prime r c hm hst
      exact ⟨c2, a, (hmem _).2 (Or.inl b)⟩
    · simp only [Prod.mk.injEq] at hm
      exact ⟨c', by rw [hm.1]; exact hp, (hmem _).2 (Or.inr (Or.inr (by rw [hm.1])))⟩
    · simp only [Prod.mk.injEq] at hm
      exact ⟨c', by rw [hm.1]; exact hp, (hmem _).2 (Or.inr (Or.inr (by rw [hm.1])))⟩
  · obtain ⟨c, a, b⟩ := h.root_mem
    exact ⟨c, (hmem _).2 (Or.inl a), b⟩

/-- The path builder terminates, never takes the exit for a starred row without prime,
and returns a finished augmenting path. -/
theorem growPath_spec {w : Work} {m n zRow zCol : Nat} {rank : Nat → Nat}
    (hR : RootInv m n w zRow zCol)
    (hrank : ∀ r c r', w.prime r c = true → w.star r' c = true → rank r' < rank r) :
    ∀ (fuel : Nat) (path : List (Nat × Nat)) (rl cl : Nat),
      PathInv w rank zRow path rl cl → rank rl < fuel →
      ∃ path', growPath m n w fuel path = some path' ∧ PathDone w zRow path' := by
  intro fuel
  induction fuel with
  | zero => intro path rl cl _ hf; omega
  | succ fuel ih =>
    intro path rl cl h hf
    simp only [growPath, h.last_eq]
    cases hfs : firstIdx m (fun r => w.star r cl) with
    | none =>
      refine ⟨path, rfl, h.nodup, h.row_closed, ?_, h.col_uniq, h.prime_row, h.star_prime,
        h.root_mem⟩
      intro r c r2 hm hpr hst
      by_cases e : (r, c) = (rl, cl)
      · simp only [Prod.mk.injEq] at e
        obtain ⟨a, b⟩ := e; subst a; subst b
        have := firstIdx_none hfs r2 (hR.stars.star_lt r2 c hst).1
        have this : w.star r2 c = false := this
        rw [hst] at this; exact absurd this (by simp)
      · exact h.col_closed r c r2 hm hpr e hst
    | some r' =>
      obtain ⟨hr', hs, -⟩ := firstIdx_some hfs
      have hs : w.star r' cl = true := hs
      have hcol : w.coverCol cl = false := hR.covers.prime_col rl cl h.last_prime
      have hcov : w.coverRow r' = true := (hR.covers.cover_xor r' cl hs).2 hcol
      obtain ⟨c0, hc0⟩ := hR.covers.coverRow_prime r' hcov
      obtain ⟨c', hfp⟩ := @firstIdx_exists n (fun c => w.prime r' c) c0
        (hR.covers.prime_lt r' c0 hc0).2 hc0
      obtain ⟨-, hp, -⟩ := firstIdx_some hfp
      have hp : w.prime r' c' = true := hp
      simp only [hfp]
      have hlt : rank r' < rank rl := hrank rl cl r' h.last_prime hs
      exact ih _ r' c' (PathInv.step hR hrank h hs hp) (by omega)

theorem flipCell_star (w : Work) (x : Nat × Nat) (r c : Nat) :
    (flipCell w x).star r c =
      if (r, c) = x then (!w.star x.1 x.2 && w.prime x.1 x.2) else w.star r c := by
  obtain ⟨x1, x2⟩ := x
  unfold flipCell
  simp only [Prod.mk.injEq]
  rcases Bool.eq_false_or_eq_true (w.star x1 x2) with a | a <;>
    rcases Bool.eq_false_or_eq_true (w.prime x1 x2) with b | b
  · simp only [a, b, if_true, setMat]
    by_cases e : r = x1 ∧ c = x2 <;> simp [e]
  · simp only [a, b, if_true, setMat]
    by_cases e : r = x1 ∧ c = x2 <;> simp [e]
  · simp only [a, b, Bool.false_eq_true, if_false, if_true, setMat]
    by_cases e : r = x1 ∧ c = x2 <;> simp [e]
  · simp only [a, b, Bool.false_eq_true, if_false]
    by_cases e : r = x1 ∧ c = x2
    · simp [e, a]
    · simp [e]

theorem flipCell_other (w : Work) (x : Nat × Nat) :
    (flipCell w x).dist = w.dist ∧ (flipCell w x).prime = w.prime ∧
      (flipCell w x).coverRow = w.coverRow ∧ (flipCell w x).coverCol = w.coverCol := by
  unfold flipCell
  split
  · exact ⟨rfl, rfl, rfl, rfl⟩
  · split
    · exact ⟨rfl, rfl, rfl, rfl⟩
    · exact ⟨rfl, rfl, rfl, rfl⟩

/-- The flip loop over a path of pairwise distinct cells: a cell of the path is starred
afterwards exactly when it was primed and not starred; nothing else changes. -/
theorem foldl_flipCell (path : List (Nat × Nat)) : ∀ w : Work, path.Nodup →
    (path.foldl flipCell w).dist = w.dist ∧ (path.foldl flipCell w).prime = w.prime ∧
    ∀ r c, (path.foldl flipCell w).star r c =
      if (r, c) ∈ path then (!w.star r c && w.prime r c) else w.star r c := by
  induction path with
  | nil => intro w _; simp
  | cons x rest ih =>
    intro w hnd
    rw [List.nodup_cons] at hnd
    obtain ⟨hx, hrest⟩ := hnd
    simp only [List.foldl_cons]
    obtain ⟨e1, e2, e3⟩ := ih (flipCell w x) hrest
    obtain ⟨f1, f2, -, -⟩ := flipCell_other w x
    refine ⟨e1.trans f1, e2.trans f2, ?_⟩
    intro r c
    rw [e3, f2, flipCell_star]
    by_cases hm : (r, c) ∈ rest
    · have hne : (r, c) ≠ x := fun e => hx (e ▸ hm)
      simp [hm, hne]
    · by_cases e : (r, c) = x
      · subst e; simp [hm]
      · simp [hm, e]

/-- Effect of an augmentation on the marks: the state is again a loop head state, the
rows holding a star are the old ones and the root row, distances are untouched and every
star is an old star or an old prime. -/
theorem augment_spec {m n : Nat} {w : Work} {zRow zCol : Nat} {path : List (Nat × Nat)}
    (hR : RootInv m n w zRow zCol) (hP : PathDone w zRow path) :
    LoopInv m n (augment m n w path) ∧
    starRows m n (augment m n w path) = insert zRow (starRows m n w) ∧
    zRow ∉ starRows m n w ∧
    (augment m n w path).dist = w.dist ∧
    ∀ r c, (augment m n w path).star r c = true → w.star r c = true ∨ w.prime r c = true := by
  obtain ⟨rank, -, hrank⟩ := hR.ranked
  have notboth : ∀ r c, w.prime r c = true → w.star r c = true → False := by
    intro r c a b
    exact absurd (hrank r c r a b) (lt_irrefl _)
  obtain ⟨e1, e2, e3⟩ := foldl_flipCell path w hP.nodup
  have hstar : ∀ r c, (augment m n w path).star r c = true ↔
      (w.star r c = true ∧ (r, c) ∉ path) ∨ ((r, c) ∈ path ∧ w.prime r c = true) := by
    intro r c
    have : (augment m n w path).star r c = (path.foldl flipCell w).star r c := rfl
    rw [this, e3]
    by_cases hm : (r, c) ∈ path
    · simp only [hm, if_true, Bool.and_eq_true, Bool.not_eq_true', not_true, and_false,
        false_or, true_and]
      constructor
      · rintro ⟨-, b⟩; exact b
      · intro b
        refine ⟨?_, b⟩
        rcases Bool.eq_false_or_eq_true (w.star r c) with a | a
        · exact absurd a (fun x => notboth r c b x)
        · exact a
    · simp [hm]
  have hinv : StarInv m n (augment m n w path) := by
    refine ⟨?_, ?_, ?_⟩
    · intro r c hs
      rcases (hstar r c).1 hs with ⟨a, -⟩ | ⟨-, b⟩
      · exact hR.stars.star_lt r c a
      · exact hR.covers.prime_lt r c b
    · intro r c c' hs hs'
      rcases (hstar r c).1 hs with ⟨a, a'⟩ | ⟨b', b⟩
      · rcases (hstar r c').1 hs' with ⟨x, -⟩ | ⟨y', y⟩
        · exact hR.stars.star_row r c c' a x
        · exact absurd (hP.row_closed r c' c y' y a) a'
      · rcases (hstar r c').1 hs' with ⟨x, x'⟩ | ⟨y', y⟩
        · exact absurd (hP.row_closed r c c' b' b x) x'
        · exact hR.covers.prime_row r c c' b y
    · intro r r' c hs hs'
      rcases (hstar r c).1 hs with ⟨a, a'⟩ | ⟨b', b⟩
      · rcases (hstar r' c).1 hs' with ⟨x, -⟩ | ⟨y', y⟩
        · exact hR.stars.star_col r r' c a x
        · exact absurd (hP.col_closed r' c r y' y a) a'
      · rcases (hstar r' c).1 hs' with ⟨x, x'⟩ | ⟨y', y⟩
        · exact absurd (hP.col_closed r c r' b' b x) x'
        · exact hP.col_uniq r r' c b' y' b y
  have hloop : LoopInv m n (augment m n w path) := by
    refine ⟨hinv, rfl, rfl, ?_⟩
    intro c
    exact coverColumnsWithStars_coverCol m n _ c
  have hz : zRow ∉ starRows m n w := by
    simp only [starRows, Finset.mem_filter, Finset.mem_range, not_and, not_exists]
    intro _ c _
    rw [hR.root_row c]; simp
  refine ⟨hloop, ?_, hz, e1, ?_⟩
  · ext r
    simp only [starRows, Finset.mem_filter, Finset.mem_range, Finset.mem_insert]
    constructor
    · rintro ⟨hr, c, hc, hs⟩
      rcases (hstar r c).1 hs with ⟨a, -⟩ | ⟨b', b⟩
      · exact Or.inr ⟨hr, c, hc, a⟩
      · rcases hP.prime_row r c b' b with e | ⟨c', hc'⟩
        · exact Or.inl e
        · exact Or.inr ⟨hr, c', (hR.stars.star_lt r c' hc').2, hc'⟩
    · rintro (e | ⟨hr, c, hc, hs⟩)
      · subst e
        obtain ⟨c, hm, hp⟩ := hP.root_mem
        obtain ⟨hr, hc⟩ := hR.covers.prime_lt r c hp
        exact ⟨hr, c, hc, (hstar r c).2 (Or.inr ⟨hm, hp⟩)⟩
      · by_cases hm : (r, c) ∈ path
        · obtain ⟨c', hp, hm'⟩ := hP.star_prime r c hm hs
          exact ⟨hr, c', (hR.covers.prime_lt r c' hp).2, (hstar r c').2 (Or.inr ⟨hm', hp⟩)⟩
        · exact ⟨hr, c, hc, (hstar r c).2 (Or.inl ⟨hs, hm⟩)⟩
  · intro r c hs
    rcases (hstar r c).1 hs with ⟨a, -⟩ | ⟨-, b⟩
    · exact Or.inl a
    · exact Or.inr b

theorem countP_range_eq_card (n : Nat) (p : Nat → Bool) :
    (List.range n).countP p = ((Finset.range n).filter (fun c => p c = true)).card := by
  induction n with
  | zero => simp
  | succ n ih =>
    rw [List.range_succ, List.countP_append, ih, Finset.range_succ, Finset.filter_insert]
    by_cases h : p n = true
    · rw [if_pos h, Finset.card_insert_of_not_mem (by simp)]
      simp [List.countP_cons, h]
    · rw [if_neg h]
      simp [List.countP_cons, h]

theorem LoopInv.count_eq {m n : Nat} {w : Work} (h : LoopInv m n w) :
    countCoveredColumns n w = (starCols m n w).card := by
  unfold countCoveredColumns
  rw [countP_range_eq_card]
  congr 1
  ext c
  simp only [starCols, Finset.mem_filter, Finset.mem_range]
  constructor
  · rintro ⟨hc, h1⟩; exact ⟨hc, ((h.coverCol_iff c).1 h1).2⟩
  · rintro ⟨hc, h1⟩; exact ⟨hc, (h.coverCol_iff c).2 ⟨hc, h1⟩⟩

theorem StarInv.card_le_min {m n : Nat} {w : Work} (h : StarInv m n w) :
    (starCols m n w).card ≤ min m n := by
  have h1 := starCols_card_le m n w
  have h2 := starRows_card_le m n w
  rw [h.card_rows_eq_cols] at h2
  exact Nat.le_min.2 ⟨h2, h1⟩

/-- One round of the main loop from a loop head state with fewer than `min m n` stars:
search and path builder finish and the augmentation adds exactly one star. -/
theorem round_spec {m n : Nat} {w : Work} {searchFuel pathFuel : Nat} (h : LoopInv m n w)
    (hlt : (starCols m n w).card < min m n) (hsf : 2 * m + 2 ≤ searchFuel)
    (hpf : m + 1 ≤ pathFuel) :
    ∃ w1 zRow zCol path, search m n searchFuel w none = some (w1, zRow, zCol) ∧
      growPath m n w1 pathFuel [(zRow, zCol)] = some path ∧
      RootInv m n w1 zRow zCol ∧ PathDone w1 zRow path ∧ w1.star = w.star ∧
      LoopInv m n (augment m n w1 path) ∧
      (starCols m n (augment m n w1 path)).card = (starCols m n w).card + 1 ∧
      ∀ cost : CostMatrix, cost.nRows = m → cost.nCols = n → DistInv cost w →
        DistInv cost (augment m n w1 path) := by
  obtain ⟨w1, zr, zc, hs, hR, hstar, hD⟩ := search_spec searchFuel w h.searchInv hlt
    (Or.inl (by have := coveredRows_card_le m w; omega))
  obtain ⟨rank, hrk, hrank⟩ := hR.ranked
  obtain ⟨path, hg, hP⟩ := growPath_spec hR hrank pathFuel [(zr, zc)] zr zc
    (PathInv.init rank hR) (by omega)
  obtain ⟨hL, hrows, hz, hdist, hsub⟩ := augment_spec hR hP
  refine ⟨w1, zr, zc, path, hs, hg, hR, hP, hstar, hL, ?_, ?_⟩
  · rw [← hL.stars.card_rows_eq_cols, hrows, Finset.card_insert_of_not_mem hz,
      starRows_congr hstar, h.stars.card_rows_eq_cols]
  · intro cost em en hd
    have hd1 := hD cost em en hd
    refine ⟨?_, ?_, ?_, ?_⟩
    · rw [hdist]; exact hd1.nonneg
    · intro r c hs
      rw [hdist]
      rcases hsub r c hs with a | a
      · exact hd1.star_zero r c a
      · exact hd1.prime_zero r c a
    · intro r c hp
      rw [hL.no_prime] at hp
      exact absurd hp (by simp)
    · rw [hdist]; exact hd1.potential

/-- The main loop terminates after at most `min m n` rounds (fuel counts the evaluations
of the loop condition) in a state with exactly `min m n` stars. -/
theorem mainLoop_spec {m n : Nat} {searchFuel pathFuel : Nat} (hsf : 2 * m + 2 ≤ searchFuel)
    (hpf : m + 1 ≤ pathFuel) : ∀ (fuel : Nat) (w : Work), LoopInv m n w →
    min m n - (starCols m n w).card + 1 ≤ fuel →
    ∃ w', mainLoop m n searchFuel pathFuel fuel w = some w' ∧ LoopInv m n w' ∧
      (starCols m n w').card = min m n ∧
      ∀ cost : CostMatrix, cost.nRows = m → cost.nCols = n → DistInv cost w →
        DistInv cost w' := by
  intro fuel
  induction fuel with
  | zero => intro w _ hf; omega
  | succ fuel ih =>
    intro w h hf
    simp only [mainLoop]
    rw [h.count_eq]
    by_cases hlt : (starCols m n w).card < min m n
    · simp only [hlt, if_true]
      obtain ⟨w1, zr, zc, path, hs, hg, -, -, -, hL, hcard, hD⟩ := round_spec h hlt hsf hpf
      rw [hs]
      simp only
      rw [hg]
      simp only
      obtain ⟨w', hm, hL', hc', hD'⟩ := ih _ hL (by omega)
      exact ⟨w', hm, hL', hc', fun cost em en hd => hD' cost em en (hD cost em en hd)⟩
    · simp only [hlt, if_false]
      refine ⟨w, rfl, h, ?_, fun _ _ _ hd => hd⟩
      have := h.stars.card_le_min
      omega

theorem reduce_nonneg (m n : Nat) (d : Nat → Nat → Int) {i j : Nat} (hi : i < m)
    (hj : j < n) : 0 ≤ reduce m n d i j := by
  rw [reduce_apply m n d hi hj]
  have := minCoeff_le (fun r => d r j - minCoeff (fun c => d r c) n) hi
  simp only at this
  omega

theorem LoopInv.of_cover {m n : Nat} {w : Work} (h : StarInv m n w)
    (hp : w.prime = fun _ _ => false) (hr : w.coverRow = fun _ => false) :
    LoopInv m n (coverColumnsWithStars m n w) :=
  ⟨⟨h.star_lt, h.star_row, h.star_col⟩, hp, hr,
    fun c => coverColumnsWithStars_coverCol m n w c⟩

theorem initialWork_greedy (cost : CostMatrix) :
    GreedyInv cost.nRows cost.nCols (reduce cost.nRows cost.nCols cost.coeff)
      (greedyStars cost.nRows cost.nCols
        ⟨reduce cost.nRows cost.nCols cost.coeff, fun _ _ => false, fun _ _ => false,
          fun _ => false, fun _ => false⟩) := by
  apply greedyStars_inv
  exact ⟨rfl, rfl, ⟨fun r c h => by simp at h, fun r c c' h => by simp at h,
    fun r r' c h => by simp at h⟩, fun r c h => by simp at h, fun r c h => by simp at h⟩

theorem initialWork_loopInv (cost : CostMatrix) :
    LoopInv cost.nRows cost.nCols (initialWork cost) := by
  have hG := initialWork_greedy cost
  unfold initialWork
  simp only
  apply LoopInv.of_cover
  · exact ⟨hG.stars.star_lt, hG.stars.star_row, hG.stars.star_col⟩
  · exact hG.prime_eq
  · rfl

theorem initialWork_distInv (cost : CostMatrix) : DistInv cost (initialWork cost) := by
  have hG := initialWork_greedy cost
  have hdist : (initialWork cost).dist = reduce cost.nRows cost.nCols cost.coeff :=
    hG.dist_eq
  have hstar : (initialWork cost).star = (greedyStars cost.nRows cost.nCols
        ⟨reduce cost.nRows cost.nCols cost.coeff, fun _ _ => false, fun _ _ => false,
          fun _ => false, fun _ => false⟩).star := rfl
  have hprime : (initialWork cost).prime = fun _ _ => false := hG.prime_eq
  refine ⟨?_, ?_, ?_, ?_⟩
  · intro r hr c hc
    rw [hdist]; exact reduce_nonneg _ _ _ hr hc
  · intro r c hs
    rw [hstar] at hs
    obtain ⟨hr, hc⟩ := hG.stars.star_lt r c hs
    have hz := hG.star_zero r c hs
    rw [hG.dist_eq, isZero_true_iff] at hz
    rw [hdist]
    have := reduce_nonneg cost.nRows cost.nCols cost.coeff hr hc
    omega
  · intro r c hp
    rw [hprime] at hp; exact absurd hp (by simp)
  · refine ⟨fun r => minCoeff (fun c => cost.coeff r c) cost.nCols,
      fun c => minCoeff (fun r => cost.coeff r c - minCoeff (fun c => cost.coeff r c)
        cost.nCols) cost.nRows, ?_⟩
    intro r hr c hc
    rw [hdist, reduce_apply _ _ _ hr hc]

theorem buildAssignment_succ (k n : Nat) (w : Work) (a : List Int) :
    buildAssignment (k + 1) n w a =
      match firstIdx n (fun c => w.star k c) with
      | some c => ((buildAssignment k n w a).set k (-1)).set k (Int.ofNat c)
      | none => (buildAssignment k n w a).set k (-1) := rfl

theorem buildAssignment_firstRows (n : Nat) (w : Work) (a : List Int) :
    ∀ k, k ≤ a.length →
      buildAssignment k n w a = (List.range k).map (assignedCol n w) ++ a.drop k := by
  intro k
  induction k with
  | zero => intro _; simp [buildAssignment, forRange]
  | succ k ih =>
    intro hk
    rw [buildAssignment_succ, ih (by omega)]
    have hlen : ((List.range k).map (assignedCol n w)).length = k := by simp
    have hdrop : a.drop k = a[k] :: a.drop (k + 1) := by
      rw [List.drop_eq_getElem_cons]
    rw [hdrop, List.range_succ, List.map_append, List.map_singleton, List.append_assoc]
    cases hf : firstIdx n (fun c => w.star k c) with
    | none =>
      have hk1 : assignedCol n w k = -1 := by simp only [assignedCol, hf]
      simp only
      rw [hk1, List.set_append_right _ _ (by rw [hlen]), hlen]
      simp only [Nat.sub_self, List.set_cons_zero, List.singleton_append]
    | some c =>
      have hk1 : assignedCol n w k = Int.ofNat c := by simp only [assignedCol, hf]
      simp only
      rw [hk1, List.set_append_right _ _ (by rw [hlen]), hlen]
      simp only [Nat.sub_self, List.set_cons_zero]
      rw [List.set_append_right _ _ (by rw [hlen]), hlen]
      simp only [Nat.sub_self, List.set_cons_zero, List.singleton_append]

theorem buildAssignment_eq (m n : Nat) (w : Work) (a : List Int) (ha : a.length = m) :
    buildAssignment m n w a = (List.range m).map (assignedCol n w) := by
  rw [buildAssignment_firstRows n w a m (by omega), List.drop_of_length_le (by omega)]
  simp

theorem assignedCol_spec {m n : Nat} {w : Work} (h : StarInv m n w) (r : Nat) :
    (assignedCol n w r = -1 ∧ ∀ c, w.star r c = false) ∨
    (∃ c, c < n ∧ w.star r c = true ∧ assignedCol n w r = Int.ofNat c) := by
  unfold assignedCol
  cases hf : firstIdx n (fun c => w.star r c) with
  | none =>
    refine Or.inl ⟨rfl, ?_⟩
    intro c
    rcases Bool.eq_false_or_eq_true (w.star r c) with a | a
    · have := firstIdx_none hf c (h.star_lt r c a).2
      exact this
    · exact a
  | some c =>
    obtain ⟨hc, hs, -⟩ := firstIdx_some hf
    exact Or.inr ⟨c, hc, hs, rfl⟩

theorem totalCost_eq_sum (cost : CostMatrix) (a : List Int) :
    totalCost cost a =
      ∑ r in Finset.range cost.nRows,
        if a.getD r (-1) ≥ 0 then cost.coeff r (a.getD r (-1)).toNat else 0 := by
  unfold totalCost
  induction cost.nRows with
  | zero => simp [forRange]
  | succ k ih =>
    simp only [forRange]
    rw [ih, Finset.sum_range_succ]
    split <;> simp

theorem anyNegative_iff (cost : CostMatrix) :
    anyNegative cost = true ↔
      ∃ r, r < cost.nRows ∧ ∃ c, c < cost.nCols ∧ cost.coeff r c < 0 := by
  unfold anyNegative
  simp [List.any_eq_true]

theorem valid_iff (cost : CostMatrix) :
    Valid cost ↔ ¬ (cost.nRows = 0 ∨ cost.nCols = 0) ∧ anyNegative cost = false := by
  unfold Valid
  constructor
  · rintro ⟨h1, h2, h3⟩
    refine ⟨by omega, ?_⟩
    rcases Bool.eq_false_or_eq_true (anyNegative cost) with a | a
    · obtain ⟨r, hr, c, hc, hlt⟩ := (anyNegative_iff cost).1 a
      have := h3 r hr c hc
      omega
    · exact a
  · rintro ⟨h1, h2⟩
    refine ⟨by omega, by omega, ?_⟩
    intro r hr c hc
    by_contra hneg
    have : anyNegative cost = true := (anyNegative_iff cost).2 ⟨r, hr, c, hc, by omega⟩
    rw [h2] at this; exact absurd this (by simp)

/-- On valid input `solve` runs to its `return`: the main loop ends in a state with
`min m n` stars, and the result is read off that state. -/
theorem solve_valid {cost : CostMatrix} (hv : Valid cost) (a : List Int) :
    ∃ w, mainLoop cost.nRows cost.nCols (2 * cost.nRows + 2) (cost.nRows + 1)
        (min cost.nRows cost.nCols + 1) (initialWork cost) = some w ∧
      LoopInv cost.nRows cost.nCols w ∧
      (starCols cost.nRows cost.nCols w).card = min cost.nRows cost.nCols ∧
      DistInv cost w ∧
      solve cost a =
        (Outcome.returned
            (totalCost cost ((List.range cost.nRows).map (assignedCol cost.nCols w))),
          (List.range cost.nRows).map (assignedCol cost.nCols w)) := by
  obtain ⟨w, hm, hL, hc, hD⟩ := @mainLoop_spec cost.nRows cost.nCols (2 * cost.nRows + 2)
    (cost.nRows + 1) (le_refl _) (le_refl _) (min cost.nRows cost.nCols + 1)
    (initialWork cost) (initialWork_loopInv cost) (by omega)
  refine ⟨w, hm, hL, hc, hD cost rfl rfl (initialWork_distInv cost), ?_⟩
  obtain ⟨h1, h2⟩ := (valid_iff cost).1 hv
  unfold solve solveWith
  rw [if_neg h1, h2]
  simp only [Bool.false_eq_true, if_false]
  rw [hm]
  simp only
  rw [buildAssignment_eq _ _ _ _ (by simp)]

theorem getD_map_range (f : Nat → Int) (m r : Nat) (hr : r < m) (d : Int) :
    ((List.range m).map f).getD r d = f r := by
  rw [List.getD_eq_getElem _ _ (by simpa using hr)]
  simp

theorem count_add_filter_length (l : List Int) :
    l.count (-1) + (l.filter (fun x => decide (x ≠ -1))).length = l.length := by
  induction l with
  | nil => simp
  | cons x rest ih =>
    by_cases h : x = -1
    · subst h
      simp only [List.count_cons_self, ne_eq, not_true_eq_false, decide_False,
        Bool.false_eq_true, not_false_eq_true, List.filter_cons_of_neg, List.length_cons]
      simp only [ne_eq] at ih
      omega
    · have h' : (-1 : Int) ≠ x := fun e => h e.symm
      simp only [ne_eq, h, not_false_eq_true, decide_True, List.filter_cons_of_pos,
        List.length_cons]
      rw [List.count_cons_of_ne h']
      simp only [ne_eq] at ih
      omega

theorem assignedCol_ne_iff {m n : Nat} {w : Work} (h : StarInv m n w) (r : Nat) :
    assignedCol n w r ≠ -1 ↔ ∃ c, c < n ∧ w.star r c = true := by
  rcases assignedCol_spec h r with ⟨e, hno⟩ | ⟨c, hc, hs, e⟩
  · rw [e]
    simp only [ne_eq, not_true_eq_false, false_iff, not_exists, not_and]
    intro c _
    rw [hno c]; simp
  · rw [e]
    constructor
    · intro _; exact ⟨c, hc, hs⟩
    · intro _ hneg
      have : (0 : Int) ≤ Int.ofNat c := Int.ofNat_nonneg c
      omega

/-- Shape of the vector that `buildAssignment` writes from a star matrix obeying the star
invariant: one entry per row, `-1` or an index of a column, and the rows with a column
are exactly the rows holding a star and carry pairwise distinct columns. -/
theorem assignment_of_stars {m n : Nat} {w : Work} (h : StarInv m n w) :
    ((List.range m).map (assignedCol n w)).length = m ∧
    (∀ x, x ∈ (List.range m).map (assignedCol n w) → x = -1 ∨ (0 ≤ x ∧ x < (n : Int))) ∧
    (((List.range m).map (assignedCol n w)).filter (fun x => decide (x ≠ -1))).length =
      (starRows m n w).card ∧
    (((List.range m).map (assignedCol n w)).filter (fun x => decide (x ≠ -1))).Nodup := by
  refine ⟨by simp, ?_, ?_, ?_⟩
  · intro x hx
    rw [List.mem_map] at hx
    obtain ⟨r, -, e⟩ := hx
    rcases assignedCol_spec h r with ⟨e', -⟩ | ⟨c, hc, -, e'⟩
    · exact Or.inl (e ▸ e')
    · refine Or.inr ?_
      rw [← e, e']
      exact ⟨Int.ofNat_nonneg c, by simp only [Int.ofNat_eq_coe]; exact_mod_cast hc⟩
  · rw [List.filter_map, List.length_map, ← List.countP_eq_length_filter,
      countP_range_eq_card]
    congr 1
    ext r
    simp only [starRows, Finset.mem_filter, Finset.mem_range, Function.comp_apply,
      decide_eq_true_eq]
    rw [assignedCol_ne_iff h]
  · rw [List.filter_map]
    apply List.Nodup.map_on
    · intro x hx y hy e
      rw [List.mem_filter] at hx hy
      simp only [Function.comp_apply, decide_eq_true_eq] at hx hy
      obtain ⟨c, -, hs, e1⟩ := (assignedCol_spec h x).resolve_left (fun a => hx.2 a.1)
      obtain ⟨c', -, hs', e2⟩ := (assignedCol_spec h y).resolve_left (fun a => hy.2 a.1)
      rw [e1, e2] at e
      have : c = c' := Int.ofNat.inj e
      subst this
      exact h.star_col x y c hs hs'
    · exact List.Nodup.filter _ (List.nodup_range m)

/-! ## The solver on doubles: errors, and the entry `+inf` -/

/-- A number below `2 ^ k` has at most `k` binary digits. -/
theorem ieee_bitLength_le (k : Nat) : ∀ (fuel a : Nat), a < 2 ^ k → Ieee.bitLength fuel a ≤ k := by
  induction k with
  | zero =>
    intro fuel a h
    have : a = 0 := by simpa using h
    subst this
    cases fuel <;> simp [Ieee.bitLength]
  | succ k ih =>
    intro fuel a h
    cases fuel with
    | zero => simp [Ieee.bitLength]
    | succ f =>
      unfold Ieee.bitLength
      split
      · omega
      · have : a / 2 < 2 ^ k := by
          rw [Nat.div_lt_iff_lt_mul (by decide)]
          rw [pow_succ] at h
          exact h
        have := ih f (a / 2) this
        omega

/-- Integers of magnitude below `2 ^ 53` are `double` values: rounding leaves them as they
are. -/
theorem ieee_roundToDouble_exact (x : Int) (h : x.natAbs < 2 ^ 53) :
    Ieee.roundToDouble x = Ieee.Dbl.fin x := by
  have h1 : Ieee.bitLength x.natAbs x.natAbs ≤ 53 := ieee_bitLength_le 53 _ _ h
  have h2 : Ieee.bitLength x.natAbs x.natAbs - 53 = 0 := by omega
  unfold Ieee.roundToDouble
  simp only [h2, pow_zero, Nat.div_one, Nat.mod_one, Nat.mul_one, Nat.mul_zero]
  have h3 : ¬ (0 > 1 ∨ (0 = 1 ∧ x.natAbs % 2 = 1)) := by omega
  rw [if_neg h3, if_neg (by omega)]
  congr 1
  split <;> omega

theorem ieee_anyNegative_iff (cost : Ieee.CostMatrix) :
    Ieee.anyNegative cost = true ↔
      ∃ r, r < cost.nRows ∧ ∃ c, c < cost.nCols ∧
        Ieee.Dbl.lt (cost.coeff r c) (Ieee.Dbl.fin 0) = true := by
  unfold Ieee.anyNegative
  simp [List.any_eq_true]

/-- The two `throw` statements on a matrix of doubles: which error `solve` raises, if
any, whatever the number of loop iterations granted. -/
theorem ieee_solveWith_throws (cost : Ieee.CostMatrix) (assignment : List Int)
    (mainFuel searchFuel pathFuel : Nat) :
    ((Ieee.solveWith mainFuel searchFuel pathFuel cost assignment).1 =
        Ieee.Outcome.threw SolveError.emptyMatrix ↔ (cost.nRows = 0 ∨ cost.nCols = 0)) ∧
    ((Ieee.solveWith mainFuel searchFuel pathFuel cost assignment).1 =
        Ieee.Outcome.threw SolveError.negativeCosts ↔
      (cost.nRows ≠ 0 ∧ cost.nCols ≠ 0 ∧
        ∃ r, r < cost.nRows ∧ ∃ c, c < cost.nCols ∧
          Ieee.Dbl.lt (cost.coeff r c) (Ieee.Dbl.fin 0) = true)) := by
  by_cases h1 : cost.nRows = 0 ∨ cost.nCols = 0
  · have hs : Ieee.solveWith mainFuel searchFuel pathFuel cost assignment =
        (Ieee.Outcome.threw SolveError.emptyMatrix, assignment) := by
      unfold Ieee.solveWith; rw [if_pos h1]
    rw [hs]
    refine ⟨by simp [h1], ?_⟩
    constructor
    · intro h; simp at h
    · rintro ⟨a, b, -⟩; omega
  · rcases Bool.eq_false_or_eq_true (Ieee.anyNegative cost) with h2 | h2
    · have hs : Ieee.solveWith mainFuel searchFuel pathFuel cost assignment =
          (Ieee.Outcome.threw SolveError.negativeCosts, assignment) := by
        unfold Ieee.solveWith; rw [if_neg h1, if_pos h2]
      rw [hs]
      have hneg := (ieee_anyNegative_iff cost).1 h2
      refine ⟨by simp [h1], ?_⟩
      simp only [true_iff]
      exact ⟨by omega, by omega, hneg⟩
    · have hs : ∃ o a, Ieee.solveWith mainFuel searchFuel pathFuel cost assignment = (o, a) ∧
          ∀ e, o ≠ Ieee.Outcome.threw e := by
        unfold Ieee.solveWith
        rw [if_neg h1, if_neg (by rw [h2]; simp)]
        cases Ieee.mainLoop cost.nRows cost.nCols searchFuel pathFuel mainFuel
            (Ieee.initialWork cost) with
        | none => exact ⟨_, _, rfl, fun e => by simp⟩
        | some w => exact ⟨_, _, rfl, fun e => by simp⟩
      obtain ⟨o, a, hs, ho⟩ := hs
      rw [hs]
      refine ⟨by simp [h1, ho], ?_⟩
      constructor
      · intro h; exact absurd h (ho _)
      · rintro ⟨-, -, hneg⟩
        have := (ieee_anyNegative_iff cost).2 hneg
        rw [h2] at this; exact absurd this (by simp)

/-- On a `1 × 1` working matrix whose entry is `NaN`, with nothing covered, the zero
search never leaves its loop. -/
theorem ieee_search_nan : ∀ (fuel : Nat) (w : Ieee.Work) (root : Option (Nat × Nat)),
    w.dist 0 0 = Ieee.Dbl.nan → w.coverRow 0 = false → w.coverCol 0 = false →
    Ieee.search 1 1 fuel w root = none := by
  intro fuel
  induction fuel with
  | zero => intro w root _ _ _; rfl
  | succ k ih =>
    intro w root hd hr hc
    have hrow : Ieee.scanRow 1 0 ⟨w, false, root⟩ = ⟨w, false, root⟩ := by
      simp [Ieee.scanRow, firstIdx, firstFrom, hd, hc, Ieee.isZero]
    have hscan : Ieee.scanRows 1 1 0 ⟨w, false, root⟩ = ⟨w, false, root⟩ := by
      simp [Ieee.scanRows, hr, hrow]
    unfold Ieee.search
    simp only [hscan]
    apply ih
    · simp [Ieee.adjust, Ieee.subFromUncoveredCols, Ieee.addToCoveredRows, Ieee.minUncovered,
        forRange, hr, hc, hd, Ieee.Dbl.lt, Ieee.Dbl.sub, Ieee.Dbl.add, Ieee.Dbl.neg]
    · simp [Ieee.adjust, hr]
    · simp [Ieee.adjust, hc]

theorem ieee_mainLoop_inf (mainFuel searchFuel pathFuel : Nat) :
    Ieee.mainLoop 1 1 searchFuel pathFuel mainFuel (Ieee.initialWork Ieee.matrixInf) = none := by
  cases mainFuel with
  | zero => rfl
  | succ k =>
    unfold Ieee.mainLoop
    rw [if_pos (by decide),
      ieee_search_nan searchFuel _ none (by decide) (by decide) (by decide)]

/-- On the fixtures `A`, `H` and `M2` of `main.cpp`, whose entries and sums are small, the
solver on doubles and the solver in exact arithmetic return the same cost and the same
assignment. -/
theorem ieee_solve_fixtures :
    (Ieee.solve (Ieee.ofExact matrixA) [] = (Ieee.Outcome.returned (Ieee.Dbl.fin 3), [1, 0]) ∧
      solve matrixA [] = (Outcome.returned 3, [1, 0])) ∧
    (Ieee.solve (Ieee.ofExact matrixH) [] =
        (Ieee.Outcome.returned (Ieee.Dbl.fin 6), [1, -1, 0, -1, -1, 2]) ∧
      solve matrixH [] = (Outcome.returned 6, [1, -1, 0, -1, -1, 2])) ∧
    (Ieee.solve (Ieee.ofExact matrixM2) [] =
        (Ieee.Outcome.returned (Ieee.Dbl.fin 0), [3, 1, 2, 0]) ∧
      solve matrixM2 [] = (Outcome.returned 0, [3, 1, 2, 0])) := by
  refine ⟨⟨?_, ?_⟩, ⟨?_, ?_⟩, ⟨?_, ?_⟩⟩ <;> decide

/-! ## The claims -/

/-- Claim C4 as stated fails on the `1 × 1` matrix `[[+inf]]`: the matrix is not empty and
no entry is `< 0`, so neither error is thrown; line 45 computes `inf - inf = NaN`, no
comparison with `NaN` is true, `h` stays `+inf`, and the `while (true)` of line 131 is
never left: whatever number of iterations is granted to the three loops, `solve` does not
return. -/
theorem solve_infinite_entry_counterexample :
    Ieee.matrixInf.nRows = 1 ∧ Ieee.matrixInf.nCols = 1 ∧
    Ieee.matrixInf.coeff 0 0 = Ieee.Dbl.posInf ∧
    Ieee.Dbl.lt (Ieee.matrixInf.coeff 0 0) (Ieee.Dbl.fin 0) = false ∧
    (∀ fuel : Nat, Ieee.search 1 1 fuel (Ieee.initialWork Ieee.matrixInf) none = none) ∧
    ∀ (mainFuel searchFuel pathFuel : Nat) (assignment : List Int),
      (Ieee.solveWith mainFuel searchFuel pathFuel Ieee.matrixInf assignment).1 =
        Ieee.Outcome.noResult := by
  refine ⟨rfl, rfl, by decide, by decide, ?_, ?_⟩
  · intro fuel
    exact ieee_search_nan fuel _ none (by decide) (by decide) (by decide)
  · intro mainFuel searchFuel pathFuel assignment
    unfold Ieee.solveWith
    rw [if_neg (by decide), if_neg (by decide)]
    have := ieee_mainLoop_inf mainFuel searchFuel pathFuel
    simp only [show Ieee.matrixInf.nRows = 1 from rfl, show Ieee.matrixInf.nCols = 1 from rfl]
    rw [this]

/-- Claim C4, amended (rejection, as an iff): `solve` throws the empty-matrix error
exactly when the matrix has 0 rows or 0 columns and throws the negative-cost error exactly
when the matrix is non-empty and has an entry below 0; on a matrix whose entries are
finite and taken as exact numbers (exact arithmetic) it returns a total cost exactly in
every other case (non-empty, no negative entry).  The two statements on the errors hold
as well on every matrix of doubles, infinite entries and `NaN` included, whatever the
number of iterations granted to the loops. -/
theorem solve_rejection_iff (cost : CostMatrix) (assignment : List Int) :
    (((solve cost assignment).1 = Outcome.threw SolveError.emptyMatrix ↔
      (cost.nRows = 0 ∨ cost.nCols = 0)) ∧
    ((solve cost assignment).1 = Outcome.threw SolveError.negativeCosts ↔
      (cost.nRows ≠ 0 ∧ cost.nCols ≠ 0 ∧
        ∃ r, r < cost.nRows ∧ ∃ c, c < cost.nCols ∧ cost.coeff r c < 0)) ∧
    ((∃ v, (solve cost assignment).1 = Outcome.returned v) ↔
      (cost.nRows ≠ 0 ∧ cost.nCols ≠ 0 ∧
        ∀ r, r < cost.nRows → ∀ c, c < cost.nCols → 0 ≤ cost.coeff r c))) ∧
    ∀ (dcost : Ieee.CostMatrix) (mainFuel searchFuel pathFuel : Nat),
      ((Ieee.solveWith mainFuel searchFuel pathFuel dcost assignment).1 =
          Ieee.Outcome.threw SolveError.emptyMatrix ↔
        (dcost.nRows = 0 ∨ dcost.nCols = 0)) ∧
      ((Ieee.solveWith mainFuel searchFuel pathFuel dcost assignment).1 =
          Ieee.Outcome.threw SolveError.negativeCosts ↔
        (dcost.nRows ≠ 0 ∧ dcost.nCols ≠ 0 ∧
          ∃ r, r < dcost.nRows ∧ ∃ c, c < dcost.nCols ∧
            Ieee.Dbl.lt (dcost.coeff r c) (Ieee.Dbl.fin 0) = true)) := by
  refine ⟨?_, fun dcost mainFuel searchFuel pathFuel =>
    ieee_solveWith_throws dcost assignment mainFuel searchFuel pathFuel⟩
  by_cases h1 : cost.nRows = 0 ∨ cost.nCols = 0
  · have hs : solve cost assignment = (Outcome.threw SolveError.emptyMatrix, assignment) := by
      unfold solve solveWith; rw [if_pos h1]
    rw [hs]
    refine ⟨by simp [h1], ?_, ?_⟩
    · constructor
      · intro h; simp at h
      · rintro ⟨a, b, -⟩; omega
    · constructor
      · rintro ⟨v, h⟩; simp at h
      · rintro ⟨a, b, -⟩; omega
  · rcases Bool.eq_false_or_eq_true (anyNegative cost) with h2 | h2
    · have hs : solve cost assignment =
          (Outcome.threw SolveError.negativeCosts, assignment) := by
        unfold solve solveWith; rw [if_neg h1, if_pos h2]
      rw [hs]
      have hneg := (anyNegative_iff cost).1 h2
      refine ⟨by simp [h1], ?_, ?_⟩
      · simp only [true_iff]
        exact ⟨by omega, by omega, hneg⟩
      · constructor
        · rintro ⟨v, h⟩; simp at h
        · rintro ⟨-, -, h⟩
          obtain ⟨r, hr, c, hc, hlt⟩ := hneg
          have := h r hr c hc
          omega
    · have hv : Valid cost := (valid_iff cost).2 ⟨h1, h2⟩
      obtain ⟨w, -, -, -, -, hs⟩ := solve_valid hv assignment
      rw [hs]
      refine ⟨by simp [h1], ?_, ?_⟩
      · constructor
        · intro h; simp at h
        · rintro ⟨-, -, r, hr, c, hc, hlt⟩
          have := hv.2.2 r hr c hc
          omega
      · constructor
        · intro _; exact ⟨by omega, by omega, hv.2.2⟩
        · intro _; exact ⟨_, rfl⟩

/-- Claim C5 (atomicity on error): whenever `solve` throws, for the empty matrix or for a
negative entry, the caller's assignment vector after the call is the vector it was before
the call. -/
theorem solve_error_keeps_assignment (cost : CostMatrix) (assignment : List Int)
    (e : SolveError) (h : (solve cost assignment).1 = Outcome.threw e) :
    (solve cost assignment).2 = assignment := by
  by_cases h1 : cost.nRows = 0 ∨ cost.nCols = 0
  · unfold solve solveWith; rw [if_pos h1]
  · rcases Bool.eq_false_or_eq_true (anyNegative cost) with h2 | h2
    · unfold solve solveWith; rw [if_neg h1, if_pos h2]
    · have hv : Valid cost := (valid_iff cost).2 ⟨h1, h2⟩
      obtain ⟨w, -, -, -, -, hs⟩ := solve_valid hv assignment
      rw [hs] at h
      simp at h

theorem solve_error_keeps_assignment_witness :
    (solve matrixNeg [7, 7]).1 = Outcome.threw SolveError.negativeCosts ∧
      (solve matrixNeg [7, 7]).2 = [7, 7] :=
  ⟨by decide, solve_error_keeps_assignment matrixNeg [7, 7] SolveError.negativeCosts
    (by decide)⟩

/-- Claim C6 (output shape): for every valid `m × n` input and every previous content of
the assignment vector, `solve` returns and leaves a vector of length exactly `m` whose
entries are `-1` or a column index `j` with `0 ≤ j < n`. -/
theorem solve_output_shape (cost : CostMatrix) (assignment : List Int) (hv : Valid cost) :
    (∃ v, (solve cost assignment).1 = Outcome.returned v) ∧
    (solve cost assignment).2.length = cost.nRows ∧
    ∀ x, x ∈ (solve cost assignment).2 → x = -1 ∨ (0 ≤ x ∧ x < (cost.nCols : Int)) := by
  obtain ⟨w, -, hL, -, -, hs⟩ := solve_valid hv assignment
  obtain ⟨h1, h2, -, -⟩ := assignment_of_stars hL.stars
  rw [hs]
  exact ⟨⟨_, rfl⟩, h1, h2⟩

theorem solve_output_shape_witness :
    Valid matrixH ∧
      ((∃ v, (solve matrixH [5, 5]).1 = Outcome.returned v) ∧
        (solve matrixH [5, 5]).2.length = matrixH.nRows ∧
        ∀ x, x ∈ (solve matrixH [5, 5]).2 →
          x = -1 ∨ (0 ≤ x ∧ x < (matrixH.nCols : Int))) :=
  ⟨by decide, solve_output_shape matrixH [5, 5] (by decide)⟩

/-- Claim C7 as stated fails on `[[2^53, 2^54], [2^54, 1]]`, a valid matrix of integers
that are `double` values: `solve` returns `2^53` with the assignment `[0, 1]`, while the
sum of `cost_matrix(i, assignment[i])` is `2^53 + 1`; the addition of line 304 rounds it. -/
theorem solve_cost_rounded_counterexample :
    Valid matrixSum ∧ Ieee.allDoubles (Ieee.ofExact matrixSum) = true ∧
    (∀ assignment : List Int, Ieee.solve (Ieee.ofExact matrixSum) assignment =
      (Ieee.Outcome.returned (Ieee.Dbl.fin 9007199254740992), [0, 1])) ∧
    matrixSum.coeff 0 0 + matrixSum.coeff 1 1 = 9007199254740993 := by
  refine ⟨by decide, by decide, ?_, by decide⟩
  intro assignment
  unfold Ieee.solve Ieee.solveWith
  rw [if_neg (by decide), if_neg (by decide)]
  decide

/-- Claim C7, amended (cost is the sum over the returned assignment): for every valid
input whose entries are taken as exact numbers (exact arithmetic, so that no addition of
the cost loop is rounded) the value returned by `solve` is the sum of
`cost_matrix(i, assignment[i])`, on the caller's matrix, over exactly the rows `i` with
`assignment[i] ≠ -1`, and it is `≥ 0`. -/
theorem solve_cost_is_sum (cost : CostMatrix) (assignment : List Int) (hv : Valid cost) :
    ∃ v, (solve cost assignment).1 = Outcome.returned v ∧
      v = ∑ i in (Finset.range cost.nRows).filter
            (fun i => (solve cost assignment).2.getD i (-1) ≠ -1),
          cost.coeff i ((solve cost assignment).2.getD i (-1)).toNat ∧
      0 ≤ v := by
  obtain ⟨w, -, hL, -, -, hs⟩ := solve_valid hv assignment
  obtain ⟨-, h2, -, -⟩ := assignment_of_stars hL.stars
  rw [hs]
  refine ⟨_, rfl, ?_, ?_⟩
  · simp only
    rw [totalCost_eq_sum, Finset.sum_filter]
    apply Finset.sum_congr rfl
    intro r hr
    rw [Finset.mem_range] at hr
    have hx := h2 _ (List.mem_map.2 ⟨r, List.mem_range.2 hr, rfl⟩)
    rw [getD_map_range _ _ _ hr]
    by_cases e : assignedCol cost.nCols w r = -1
    · rw [e]; simp
    · have : assignedCol cost.nCols w r ≥ 0 := by
        rcases hx with hx | hx
        · exact absurd hx e
        · exact hx.1
      rw [if_pos this, if_pos e]
  · rw [totalCost_eq_sum]
    apply Finset.sum_nonneg
    intro r hr
    rw [Finset.mem_range] at hr
    have hx := h2 _ (List.mem_map.2 ⟨r, List.mem_range.2 hr, rfl⟩)
    rw [getD_map_range _ _ _ hr]
    split
    · rename_i hge
      rcases hx with hx | hx
      · rw [hx] at hge; omega
      · apply hv.2.2 r hr
        omega
    · exact le_refl _

theorem solve_cost_is_sum_witness :
    Valid matrixA ∧
      ∃ v, (solve matrixA []).1 = Outcome.returned v ∧
        v = ∑ i in (Finset.range matrixA.nRows).filter
              (fun i => (solve matrixA []).2.getD i (-1) ≠ -1),
            matrixA.coeff i ((solve matrixA []).2.getD i (-1)).toNat ∧
        0 ≤ v :=
  ⟨by decide, solve_cost_is_sum matrixA [] (by decide)⟩

/-- Claim C2 (feasibility): for every valid input `solve` returns an assignment with
exactly `min(m, n)` entries different from `-1`, in which no column index occurs in two
rows; so exactly `m - n` rows carry `-1` when `m > n`, and no row carries `-1` when
`m ≤ n`. -/
theorem solve_feasible (cost : CostMatrix) (assignment : List Int) (hv : Valid cost) :
    ∃ v asg, solve cost assignment = (Outcome.returned v, asg) ∧
      (asg.filter (fun x => decide (x ≠ -1))).length = min cost.nRows cost.nCols ∧
      (asg.filter (fun x => decide (x ≠ -1))).Nodup ∧
      (cost.nCols < cost.nRows → asg.count (-1) = cost.nRows - cost.nCols) ∧
      (cost.nRows ≤ cost.nCols → -1 ∉ asg) := by
  obtain ⟨w, -, hL, hc, -, hs⟩ := solve_valid hv assignment
  obtain ⟨h1, -, h3, h4⟩ := assignment_of_stars hL.stars
  rw [hL.stars.card_rows_eq_cols, hc] at h3
  have hcount := count_add_filter_length
    ((List.range cost.nRows).map (assignedCol cost.nCols w))
  rw [h1, h3] at hcount
  refine ⟨_, _, hs, h3, h4, ?_, ?_⟩
  · intro hlt
    rw [Nat.min_eq_right (Nat.le_of_lt hlt)] at hcount
    omega
  · intro hle
    rw [Nat.min_eq_left hle] at hcount
    apply List.count_eq_zero.1
    omega

theorem solve_feasible_witness :
    Valid matrixH ∧
      ∃ v asg, solve matrixH [] = (Outcome.returned v, asg) ∧
        (asg.filter (fun x => decide (x ≠ -1))).length = min matrixH.nRows matrixH.nCols ∧
        (asg.filter (fun x => decide (x ≠ -1))).Nodup ∧
        (matrixH.nCols < matrixH.nRows → asg.count (-1) = matrixH.nRows - matrixH.nCols) ∧
        (matrixH.nRows ≤ matrixH.nCols → -1 ∉ asg) :=
  ⟨by decide, solve_feasible matrixH [] (by decide)⟩

theorem search_fuel_le (m n : Nat) : ∀ (fuel fuel' : Nat) (w : Work)
    (root : Option (Nat × Nat)) (x : Work × Nat × Nat), fuel ≤ fuel' →
    search m n fuel w root = some x → search m n fuel' w root = some x := by
  intro fuel
  induction fuel with
  | zero => intro fuel' w root x _ h; simp [search] at h
  | succ fuel ih =>
    intro fuel' w root x hle h
    obtain ⟨k, rfl⟩ : ∃ k, fuel' = k + 1 := ⟨fuel' - 1, by omega⟩
    simp only [search] at h ⊢
    generalize scanRows n m 0 ⟨w, false, root⟩ = s at h ⊢
    rcases s with ⟨sw, sf, sr⟩
    cases sf with
    | true =>
      cases sr with
      | some p => exact h
      | none => exact ih k _ _ _ (by omega) h
    | false =>
      simp only at h ⊢
      cases ha : adjust m n sw with
      | none => rw [ha] at h; simp at h
      | some w1 =>
        rw [ha] at h
        exact ih k _ _ _ (by omega) h

theorem growPath_fuel_le (m n : Nat) (w : Work) : ∀ (fuel fuel' : Nat)
    (path x : List (Nat × Nat)), fuel ≤ fuel' →
    growPath m n w fuel path = some x → growPath m n w fuel' path = some x := by
  intro fuel
  induction fuel with
  | zero => intro fuel' path x _ h; simp [growPath] at h
  | succ fuel ih =>
    intro fuel' path x hle h
    obtain ⟨k, rfl⟩ : ∃ k, fuel' = k + 1 := ⟨fuel' - 1, by omega⟩
    simp only [growPath] at h ⊢
    cases h1 : firstIdx m (fun r => w.star r (path.getLastD (0, 0)).2) with
    | none => rw [h1] at h; exact h
    | some rStar =>
      rw [h1] at h
      simp only at h ⊢
      cases h2 : firstIdx n (fun c => w.prime rStar c) with
      | none => rw [h2] at h; exact h
      | some cPrime =>
        rw [h2] at h
        exact ih k _ _ (by omega) h

theorem mainLoop_fuel_le (m n : Nat) {sf sf' pf pf' : Nat} (hs : sf ≤ sf') (hp : pf ≤ pf') :
    ∀ (fuel fuel' : Nat) (w x : Work), fuel ≤ fuel' →
      mainLoop m n sf pf fuel w = some x → mainLoop m n sf' pf' fuel' w = some x := by
  intro fuel
  induction fuel with
  | zero => intro fuel' w x _ h; simp [mainLoop] at h
  | succ fuel ih =>
    intro fuel' w x hle h
    obtain ⟨k, rfl⟩ : ∃ k, fuel' = k + 1 := ⟨fuel' - 1, by omega⟩
    rw [mainLoop] at h ⊢
    by_cases hc : countCoveredColumns n w < min m n
    · rw [if_pos hc] at h ⊢
      cases h1 : search m n sf w none with
      | none => rw [h1] at h; simp at h
      | some r =>
        obtain ⟨w1, zr, zc⟩ := r
        rw [h1] at h
        rw [search_fuel_le m n sf sf' _ _ _ hs h1]
        simp only at h ⊢
        cases h2 : growPath m n w1 pf [(zr, zc)] with
        | none => rw [h2] at h; simp at h
        | some path =>
          rw [h2] at h
          rw [growPath_fuel_le m n w1 pf pf' _ _ hp h2]
          exact ih k _ _ (by omega) h
    · rw [if_neg hc] at h ⊢
      exact h

/-- Claim C3 (termination): on every valid matrix the three `while` loops of `solve`
finish.  Fuel counts loop iterations: the outer loop needs at most `min(m, n)` rounds
(`min(m, n) + 1` evaluations of its condition), each zero search at most `2 m + 2`
iterations and each path construction at most `m + 1`; the final state `w` is the same
for every larger fuel, and `solve` does not end without result. -/
theorem solve_terminates (cost : CostMatrix) (assignment : List Int) (hv : Valid cost) :
    (∃ w, ∀ mainFuel searchFuel pathFuel, min cost.nRows cost.nCols + 1 ≤ mainFuel →
      2 * cost.nRows + 2 ≤ searchFuel → cost.nRows + 1 ≤ pathFuel →
      mainLoop cost.nRows cost.nCols searchFuel pathFuel mainFuel (initialWork cost) =
        some w) ∧
    (solve cost assignment).1 ≠ Outcome.noResult := by
  obtain ⟨w, hm, -, -, -, hs⟩ := solve_valid hv assignment
  refine ⟨⟨w, ?_⟩, ?_⟩
  · intro mf sf pf h1 h2 h3
    exact mainLoop_fuel_le cost.nRows cost.nCols h2 h3 _ _ _ _ h1 hm
  · rw [hs]; simp

theorem solve_terminates_witness :
    Valid matrixA ∧
      ((∃ w, ∀ mainFuel searchFuel pathFuel, min matrixA.nRows matrixA.nCols + 1 ≤ mainFuel →
        2 * matrixA.nRows + 2 ≤ searchFuel → matrixA.nRows + 1 ≤ pathFuel →
        mainLoop matrixA.nRows matrixA.nCols searchFuel pathFuel mainFuel
          (initialWork matrixA) = some w) ∧
      (solve matrixA []).1 ≠ Outcome.noResult) :=
  ⟨by decide, solve_terminates matrixA [] (by decide)⟩

/-- Claim C9 (documented scenario that needs an augmenting path): on the matrix
`[[0,0,0,0],[0,0,0,0],[0,0,0,0],[0,0,0,1000]]` `solve` returns total cost `0`, and the
assignment is a permutation of `0, 1, 2, 3` that does not map row `3` to column `3`. -/
theorem solve_all_zero_except_one (assignment : List Int) :
    (solve matrixM2 assignment).1 = Outcome.returned 0 ∧
    List.Perm (solve matrixM2 assignment).2 [0, 1, 2, 3] ∧
    (solve matrixM2 assignment).2.getD 3 (-1) ≠ 3 := by
  have h : solve matrixM2 assignment = (Outcome.returned 0, [3, 1, 2, 0]) := by
    unfold solve solveWith
    rw [if_neg (by decide), if_neg (by decide)]
    decide
  rw [h]
  decide

/-- With as many stars as rows, every row holds a star, and `assignedCol` is its
column. -/
theorem all_rows_starred {m n : Nat} {w : Work} (h : StarInv m n w)
    (hc : (starCols m n w).card = m) {r : Nat} (hr : r < m) :
    (assignedCol n w r).toNat < n ∧ w.star r (assignedCol n w r).toNat = true ∧
      assignedCol n w r = Int.ofNat (assignedCol n w r).toNat := by
  have hrows : starRows m n w = Finset.range m := by
    have hle : (Finset.range m).card ≤ (starRows m n w).card := by
      rw [Finset.card_range, h.card_rows_eq_cols, hc]
    exact Finset.eq_of_subset_of_card_le (Finset.filter_subset _ _) hle
  have hmem : r ∈ starRows m n w := by rw [hrows]; exact Finset.mem_range.2 hr
  simp only [starRows, Finset.mem_filter, Finset.mem_range] at hmem
  obtain ⟨c0, hc0, hs0⟩ := hmem.2
  rcases assignedCol_spec h r with ⟨-, hno⟩ | ⟨c, hc, hs, e⟩
  · rw [hno c0] at hs0; exact absurd hs0 (by simp)
  · rw [e]
    exact ⟨by simpa using hc, by simpa using hs, by simp⟩

/-- Claim C10 as stated fails on the square matrix `[[2^53 + 2, 1], [2^53, 0]]` of
nonnegative integers that are `double` values: line 45 rounds `2^53 + 2 - 1` to `2^53`,
the reduced matrix is all zero, and `solve` returns `2^53 + 2` with the assignment
`[0, 1]`, while the permutation exchanging the two columns costs `2^53 + 1`. -/
theorem solve_square_rounded_counterexample :
    Valid matrixRound ∧ matrixRound.nRows = matrixRound.nCols ∧
    Ieee.allDoubles (Ieee.ofExact matrixRound) = true ∧
    (∀ assignment : List Int, Ieee.solve (Ieee.ofExact matrixRound) assignment =
      (Ieee.Outcome.returned (Ieee.Dbl.fin 9007199254740994), [0, 1])) ∧
    ∃ σ : Equiv.Perm (Fin matrixRound.nCols),
      ∑ i : Fin matrixRound.nCols, matrixRound.coeff i (σ i) = 9007199254740993 := by
  refine ⟨by decide, by decide, by decide, ?_, ?_⟩
  · intro assignment
    unfold Ieee.solve Ieee.solveWith
    rw [if_neg (by decide), if_neg (by decide)]
    decide
  · show ∃ σ : Equiv.Perm (Fin 2), ∑ i : Fin 2, matrixRound.coeff i (σ i) = 9007199254740993
    refine ⟨Equiv.swap 0 1, ?_⟩
    rw [Fin.sum_univ_two]
    decide

/-- Claim C10, amended (optimality on square inputs): for every `n × n` matrix with
`n ≥ 1` and nonnegative integer entries, in exact arithmetic (no subtraction of the
reduction or of the adjustment and no addition of the cost loop is rounded), the total
cost returned by `solve` is the minimum, over all permutations `σ` of `0, ..., n - 1`, of
the sum of `cost(i, σ(i))`: it is the sum for some permutation and at most the sum for
every permutation. -/
theorem solve_optimal_square (cost : CostMatrix) (assignment : List Int) (hv : Valid cost)
    (hsq : cost.nRows = cost.nCols) :
    ∃ v, (solve cost assignment).1 = Outcome.returned v ∧
      (∃ σ : Equiv.Perm (Fin cost.nCols), v = ∑ i : Fin cost.nCols, cost.coeff i (σ i)) ∧
      ∀ σ : Equiv.Perm (Fin cost.nCols), v ≤ ∑ i : Fin cost.nCols, cost.coeff i (σ i) := by
  obtain ⟨w, -, hL, hc, hD, hs⟩ := solve_valid hv assignment
  obtain ⟨m, n, coeff⟩ := cost
  simp only at hsq hL hc hD hs ⊢
  subst hsq
  rw [Nat.min_self] at hc
  have hrow := fun r (hr : r < m) => all_rows_starred hL.stars hc hr
  obtain ⟨u, p, hpot⟩ := hD.potential
  simp only at hpot
  -- the starred column of each row, as a permutation
  let f : Fin m → Fin m := fun i => ⟨(assignedCol m w i).toNat, (hrow i i.2).1⟩
  have hinj : Function.Injective f := by
    intro i j e
    have e' : (assignedCol m w i).toNat = (assignedCol m w j).toNat := congrArg Fin.val e
    have h1 := (hrow i i.2).2.1
    have h2 := (hrow j j.2).2.1
    rw [e'] at h1
    exact Fin.ext (hL.stars.star_col i j _ h1 h2)
  let σ : Equiv.Perm (Fin m) := Equiv.ofBijective f (Finite.injective_iff_bijective.1 hinj)
  have hσ : ∀ i : Fin m, ((σ i : Fin m) : Nat) = (assignedCol m w i).toNat := fun i => rfl
  -- the returned value
  have htotal : totalCost ⟨m, m, coeff⟩ ((List.range m).map (assignedCol m w)) =
      ∑ i : Fin m, coeff i (σ i) := by
    rw [totalCost_eq_sum, Finset.sum_range]
    apply Finset.sum_congr rfl
    intro i _
    simp only
    rw [getD_map_range _ _ _ i.2, hσ]
    have := (hrow i i.2).2.2
    rw [if_pos (by rw [this]; exact Int.ofNat_nonneg _)]
  have hsum : ∀ τ : Equiv.Perm (Fin m),
      ∑ i : Fin m, coeff i (τ i) =
        ∑ i : Fin m, w.dist i (τ i) + (∑ i : Fin m, u i + ∑ i : Fin m, p i) := by
    intro τ
    rw [← Equiv.sum_comp τ (fun j : Fin m => p j), ← Finset.sum_add_distrib,
      ← Finset.sum_add_distrib]
    apply Finset.sum_congr rfl
    intro i _
    have := hpot i i.2 (τ i) (τ i).2
    omega
  have hzero : ∑ i : Fin m, w.dist i (σ i) = 0 := by
    apply Finset.sum_eq_zero
    intro i _
    rw [hσ]
    exact hD.star_zero i _ (hrow i i.2).2.1
  rw [hs]
  refine ⟨_, rfl, ⟨σ, htotal⟩, ?_⟩
  intro τ
  rw [htotal, hsum σ, hsum τ, hzero]
  have : 0 ≤ ∑ i : Fin m, w.dist i (τ i) := by
    apply Finset.sum_nonneg
    intro i _
    exact hD.nonneg i i.2 (τ i) (τ i).2
  omega

theorem solve_optimal_square_witness :
    Valid matrixA ∧ matrixA.nRows = matrixA.nCols ∧
      ∃ v, (solve matrixA []).1 = Outcome.returned v ∧
        (∃ σ : Equiv.Perm (Fin matrixA.nCols),
          v = ∑ i : Fin matrixA.nCols, matrixA.coeff i (σ i)) ∧
        ∀ σ : Equiv.Perm (Fin matrixA.nCols),
          v ≤ ∑ i : Fin matrixA.nCols, matrixA.coeff i (σ i) :=
  ⟨by decide, by decide, solve_optimal_square matrixA [] (by decide) (by decide)⟩

theorem asVectorPairsLoop_eq : ∀ (l : List Int) (i : Nat) (out : List (Nat × Nat)),
    asVectorPairsLoop l i out =
      out ++ (List.range l.length).map (fun k => (i + k, toSizeT (l.getD k 0))) := by
  intro l
  induction l with
  | nil => intro i out; simp [asVectorPairsLoop]
  | cons j rest ih =>
    intro i out
    rw [asVectorPairsLoop, ih, List.length_cons, List.range_succ_eq_map, List.map_cons,
      List.map_map, List.append_assoc]
    congr 1
    simp only [List.singleton_append, Nat.add_zero, List.getD_cons_zero, List.cons.injEq,
      true_and]
    apply List.map_congr_left
    intro k _
    simp only [Function.comp_apply, List.getD_cons_succ, Prod.mk.injEq, and_true]
    omega

theorem asVectorPairs_eq (l : List Int) :
    asVectorPairs l = (List.range l.length).map (fun k => (k, toSizeT (l.getD k 0))) := by
  unfold asVectorPairs
  rw [asVectorPairsLoop_eq]
  simp

/-- Claim C1, evaluation of the code where it departs from the claim: on the tall
fixture `H` (6 x 3) of `main.cpp` `solve` returns `6` while a matching of cost `5`
exists, on the wide fixture `G` (3 x 5) it returns `9` while a matching of cost `8`
exists, and already on `[[2],[1]]` and on `[[2,1]]` it returns `2` while the other cell
costs `1`. -/
theorem solve_rectangular_not_optimal :
    (solve matrixH [] = (Outcome.returned 6, [1, -1, 0, -1, -1, 2]) ∧
      IsMatching matrixH [-1, 1, 0, -1, -1, 2] ∧
      totalCost matrixH [-1, 1, 0, -1, -1, 2] = 5) ∧
    (solve matrixG [] = (Outcome.returned 9, [1, 0, 2]) ∧
      IsMatching matrixG [1, 2, 4] ∧ totalCost matrixG [1, 2, 4] = 8) ∧
    (solve matrixTall [] = (Outcome.returned 2, [0, -1]) ∧
      IsMatching matrixTall [-1, 0] ∧ totalCost matrixTall [-1, 0] = 1) ∧
    (solve matrixWide [] = (Outcome.returned 2, [0]) ∧
      IsMatching matrixWide [1] ∧ totalCost matrixWide [1] = 1) := by
  refine ⟨⟨?_, ?_, ?_⟩, ⟨?_, ?_, ?_⟩, ⟨?_, ?_, ?_⟩, ⟨?_, ?_, ?_⟩⟩ <;> decide

/-- Claim C8 as stated fails on the tall fixture `H` of `main.cpp`: row `1` is
unassigned, `solve` wrote `-1` for it, and the pair that `asVectorPairs` returns for
it has second component `2 ^ 64 - 1`, not `-1`. -/
theorem asVectorPairs_sentinel_counterexample :
    ¬ ((asVectorPairs (solve matrixH []).2).length = matrixH.nRows ∧
        ∀ k, k < matrixH.nRows →
          ((asVectorPairs (solve matrixH []).2).getD k (0, 0)).1 = k ∧
          (((asVectorPairs (solve matrixH []).2).getD k (0, 0)).2 : Int) =
            (solve matrixH []).2.getD k 0) := by
  have h : solve matrixH [] = (Outcome.returned 6, [1, -1, 0, -1, -1, 2]) := by decide
  rw [h]
  decide

/-- Claim C8, amended (round trip through `asVectorPairs`): for every valid `m × n`
matrix (with `n ≤ 2 ^ 64`), `asVectorPairs` applied to the assignment that `solve` wrote
returns exactly `m` pairs, the `k`-th pair has first component `k`, and its second
component is `assignment[k]` converted to `size_t`: the column index when row `k` is
assigned and `2 ^ 64 - 1` when `assignment[k]` is the sentinel `-1`. -/
theorem asVectorPairs_round_trip (cost : CostMatrix) (assignment : List Int)
    (hv : Valid cost) (hfit : cost.nCols ≤ 2 ^ SIZE_BITS) :
    (asVectorPairs (solve cost assignment).2).length = cost.nRows ∧
    ∀ k, k < cost.nRows →
      ((asVectorPairs (solve cost assignment).2).getD k (0, 0)).1 = k ∧
      ((solve cost assignment).2.getD k 0 = -1 →
        ((asVectorPairs (solve cost assignment).2).getD k (0, 0)).2 = 2 ^ SIZE_BITS - 1) ∧
      ((solve cost assignment).2.getD k 0 ≠ -1 →
        (((asVectorPairs (solve cost assignment).2).getD k (0, 0)).2 : Int) =
          (solve cost assignment).2.getD k 0) := by
  obtain ⟨w, -, hL, -, -, hs⟩ := solve_valid hv assignment
  obtain ⟨hlen, hentries, -, -⟩ := assignment_of_stars hL.stars
  rw [hs]
  simp only
  generalize (List.range cost.nRows).map (assignedCol cost.nCols w) = asg at hlen hentries
  rw [asVectorPairs_eq, hlen]
  refine ⟨by simp, ?_⟩
  intro k hk
  have hget : ((List.range cost.nRows).map (fun k => (k, toSizeT (asg.getD k 0)))).getD k
      (0, 0) = (k, toSizeT (asg.getD k 0)) := by
    rw [List.getD_eq_getElem _ _ (by simpa using hk)]
    simp
  rw [hget]
  refine ⟨rfl, ?_, ?_⟩
  · intro e
    simp only
    rw [e]
    decide
  · intro hne
    have hmem : asg.getD k 0 ∈ asg := by
      rw [List.getD_eq_getElem _ _ (by omega)]
      exact List.getElem_mem _
    rcases hentries _ hmem with hx | ⟨h0, h1⟩
    · exact absurd hx hne
    · simp only [toSizeT]
      have hlt : asg.getD k 0 < (2 : Int) ^ SIZE_BITS := by
        have : ((cost.nCols : Nat) : Int) ≤ ((2 ^ SIZE_BITS : Nat) : Int) := by
          exact_mod_cast hfit
        have h2 : ((2 ^ SIZE_BITS : Nat) : Int) = (2 : Int) ^ SIZE_BITS := by norm_cast
        omega
      rw [Int.emod_eq_of_lt h0 hlt, Int.toNat_of_nonneg h0]

theorem asVectorPairs_round_trip_witness :
    Valid matrixH ∧ matrixH.nCols ≤ 2 ^ SIZE_BITS ∧
      ((asVectorPairs (solve matrixH [9]).2).length = matrixH.nRows ∧
      ∀ k, k < matrixH.nRows →
        ((asVectorPairs (solve matrixH [9]).2).getD k (0, 0)).1 = k ∧
        ((solve matrixH [9]).2.getD k 0 = -1 →
          ((asVectorPairs (solve matrixH [9]).2).getD k (0, 0)).2 = 2 ^ SIZE_BITS - 1) ∧
        ((solve matrixH [9]).2.getD k 0 ≠ -1 →
          (((asVectorPairs (solve matrixH [9]).2).getD k (0, 0)).2 : Int) =
            (solve matrixH [9]).2.getD k 0)) :=
  ⟨by decide, by decide, asVectorPairs_round_trip matrixH [9] (by decide) (by decide)⟩

theorem scanRow_none {n r : Nat} {s : Scan}
    (h : firstIdx n (fun c => !s.w.coverCol c && isZero (s.w.dist r c)) = none) :
    scanRow n r s = s := by
  unfold scanRow
  rw [h]

/-- A path whose last primed cell has no star in its column is finished. -/
theorem PathInv.done {m n : Nat} {w : Work} {rank : Nat → Nat} {zRow zCol : Nat}
    {path : List (Nat × Nat)} {rl cl : Nat} (hR : RootInv m n w zRow zCol)
    (h : PathInv w rank zRow path rl cl)
    (hfs : firstIdx m (fun r => w.star r cl) = none) : PathDone w zRow path := by
  refine ⟨h.nodup, h.row_closed, ?_, h.col_uniq, h.prime_row, h.star_prime, h.root_mem⟩
  intro r c r2 hm hpr hst
  by_cases e : (r, c) = (rl, cl)
  · simp only [Prod.mk.injEq] at e
    obtain ⟨a, b⟩ := e; subst a; subst b
    have := firstIdx_none hfs r2 (hR.stars.star_lt r2 c hst).1
    have this : w.star r2 c = false := this
    rw [hst] at this; exact absurd this (by simp)
  · exact h.col_closed r c r2 hm hpr e hst

/-- In the root state the row of a star in the column of a primed cell holds a prime. -/
theorem RootInv.prime_exists {m n : Nat} {w : Work} {zRow zCol : Nat}
    (hR : RootInv m n w zRow zCol) {rl cl r' : Nat} (hp : w.prime rl cl = true)
    (hs : w.star r' cl = true) : ∃ c', firstIdx n (fun c => w.prime r' c) = some c' := by
  have hcol : w.coverCol cl = false := hR.covers.prime_col rl cl hp
  have hcov : w.coverRow r' = true := (hR.covers.cover_xor r' cl hs).2 hcol
  obtain ⟨c0, hc0⟩ := hR.covers.coverRow_prime r' hcov
  exact @firstIdx_exists n (fun c => w.prime r' c) c0 (hR.covers.prime_lt r' c0 hc0).2 hc0

theorem augment_distInv {cost : CostMatrix} {w : Work} {zRow zCol : Nat}
    {path : List (Nat × Nat)} (hR : RootInv cost.nRows cost.nCols w zRow zCol)
    (hP : PathDone w zRow path) (hd : DistInv cost w) :
    DistInv cost (augment cost.nRows cost.nCols w path) := by
  obtain ⟨hL, -, -, hdist, hsub⟩ := augment_spec hR hP
  refine ⟨?_, ?_, ?_, ?_⟩
  · rw [hdist]; exact hd.nonneg
  · intro r c hs
    rw [hdist]
    rcases hsub r c hs with a | a
    · exact hd.star_zero r c a
    · exact hd.prime_zero r c a
  · intro r c hp
    rw [hL.no_prime] at hp
    exact absurd hp (by simp)
  · rw [hdist]; exact hd.potential

theorem PathCount.extend {w : Work} {path : List (Nat × Nat)} {k r' cl c' : Nat}
    (h : PathCount w path k) (hs : w.star r' cl = true) (hp : w.prime r' c' = true)
    (hsp : w.prime r' cl = false) (hps : w.star r' c' = false) :
    PathCount w (path ++ [(r', cl)] ++ [(r', c')]) (k + 1) := by
  obtain ⟨h1, h2, h3⟩ := h
  refine ⟨?_, ?_, ?_⟩
  · simp [List.filter_append, List.filter_cons, hs, hps, h1]
  · simp [List.filter_append, List.filter_cons, hp, hsp, h2]
  · simp only [List.length_append, List.length_singleton, h3]
    omega

/-- Every point that the run reaches satisfies the invariant of its kind. -/
theorem reach_inv {cost : CostMatrix} {p : Point} (h : Reach cost p) : PointInv cost p := by
  induction h with
  | init _ => exact ⟨initialWork_loopInv cost, initialWork_distInv cost⟩
  | @enter w _ hc ih =>
    obtain ⟨hL, hD⟩ := ih
    refine ⟨hL.searchInv, rfl, ?_, hD⟩
    rw [← hL.count_eq]; exact hc
  | @scanStart w root _ ih =>
    obtain ⟨hS, hroot, hlt, hD⟩ := ih
    refine ⟨hS, hroot, hlt, hD, le_refl _, Nat.zero_le _, fun _ => rfl, ?_⟩
    intro r1 _ h2; omega
  | @rowCovered s r0 r _ hr hcov ih =>
    obtain ⟨hS, hroot, hlt, hD, h1, h2, h3, h4⟩ := ih
    refine ⟨hS, hroot, hlt, hD, by omega, by omega, h3, ?_⟩
    intro r1 a b hc1
    rcases Nat.eq_or_lt_of_le (Nat.le_of_lt_succ b) with e | e
    · subst e; rw [hcov] at hc1; exact absurd hc1 (by simp)
    · exact h4 r1 a e hc1
  | @rowNoZero s r0 r _ hr hcov hf _ ih =>
    obtain ⟨hS, hroot, hlt, hD, h1, h2, h3, h4⟩ := ih
    rw [scanRow_none hf]
    refine ⟨hS, hroot, hlt, hD, by omega, by omega, h3, ?_⟩
    intro r1 a b hc1 c hc hcc
    rcases Nat.eq_or_lt_of_le (Nat.le_of_lt_succ b) with e | e
    · subst e
      have := firstIdx_none hf c hc
      simpa [hcc] using this
    · exact h4 r1 a e hc1 c hc hcc
  | @rowSelected s r0 r c _ hr hcov hf hcond ih =>
    obtain ⟨hS, hroot, hlt, hD, h1, h2, h3, h4⟩ := ih
    obtain ⟨hkeep, hrow⟩ := scanRow_spec hS hroot hr hcov
    obtain ⟨hc, hp, -⟩ := firstIdx_some hf
    simp only [Bool.and_eq_true, Bool.not_eq_true'] at hp
    rcases hrow with ⟨-, hno⟩ | ⟨hroot1, hfound1, hinv1, -⟩ | ⟨zc, hroot1, hfound1, -⟩
    · have := hno c hc hp.1
      rw [hp.2] at this; exact absurd this (by simp)
    · refine ⟨hinv1, hroot1, ?_, hkeep.distInv hD, le_refl _, by omega, ?_, ?_⟩
      · rw [starCols_congr hkeep.2.1]; exact hlt
      · intro hff; rw [hfound1] at hff; exact absurd hff (by simp)
      · intro r1 a b; omega
    · rw [hroot1, hfound1] at hcond
      simp at hcond
  | @rowRoot s r0 r zRow zCol _ hr hcov hfound hrooteq ih =>
    obtain ⟨hS, hroot, hlt, hD, h1, h2, h3, h4⟩ := ih
    obtain ⟨hkeep, hrow⟩ := scanRow_spec hS hroot hr hcov
    rcases hrow with ⟨e, -⟩ | ⟨hroot1, -, -, -⟩ | ⟨zc, hroot1, -, hinv1⟩
    · rw [e, hroot] at hrooteq; exact absurd hrooteq (by simp)
    · rw [hroot1] at hrooteq; exact absurd hrooteq (by simp)
    · rw [hroot1] at hrooteq
      simp only [Option.some.injEq, Prod.mk.injEq] at hrooteq
      obtain ⟨e1, e2⟩ := hrooteq
      subst e1; subst e2
      obtain ⟨rank, -, hrank⟩ := hinv1.ranked
      refine ⟨?_, hkeep.distInv hD, r, zc, r, zc, 0, rank, hinv1, hrank,
        PathInv.init rank hinv1, ?_⟩
      · rw [starCols_congr hkeep.2.1]; exact hlt
      · refine ⟨?_, ?_, ?_⟩
        · simp [List.filter_cons, hinv1.root_row zc]
        · simp [List.filter_cons, hinv1.root_prime]
        · simp
  | @scanEndRoot s r0 zRow zCol _ _ hrooteq ih =>
    obtain ⟨-, hroot, -⟩ := ih
    rw [hroot] at hrooteq; exact absurd hrooteq (by simp)
  | @scanEndFound s r0 _ _ _ ih =>
    obtain ⟨hS, hroot, hlt, hD, -⟩ := ih
    exact ⟨hS, hroot, hlt, hD⟩
  | @adjusted s r0 w1 _ hfound hadj ih =>
    obtain ⟨hS, hroot, hlt, hD, h1, h2, h3, h4⟩ := ih
    have hr0 := h3 hfound
    subst hr0
    obtain ⟨w', ha, a1, a2, a3, a4, -, hD'⟩ := adjust_spec hS (hS.exists_uncovered hlt)
      (fun r hr hcr c hc hcc => h4 r (Nat.zero_le _) hr hcr c hc hcc)
    rw [ha] at hadj
    simp only [Option.some.injEq] at hadj
    subst hadj
    refine ⟨hS.of_eq a1 a2 a3 a4, hroot, ?_, hD' cost rfl rfl hD⟩
    rw [starCols_congr a1]; exact hlt
  | @pathStep w path rStar cPrime _ hfs hfp ih =>
    obtain ⟨hlt, hD, zr, zc, rl, cl, k, rank, hR, hrank, hP, hC⟩ := ih
    rw [hP.last_eq] at hfs ⊢
    obtain ⟨-, hs, -⟩ := firstIdx_some hfs
    have hs : w.star rStar cl = true := hs
    obtain ⟨-, hp, -⟩ := firstIdx_some hfp
    have hp : w.prime rStar cPrime = true := hp
    have notboth : ∀ r c, w.prime r c = true → w.star r c = true → False := by
      intro r c a b
      exact absurd (hrank r c r a b) (lt_irrefl _)
    refine ⟨hlt, hD, zr, zc, rStar, cPrime, k + 1, rank, hR, hrank,
      PathInv.step hR hrank hP hs hp, hC.extend hs hp ?_ ?_⟩
    · rcases Bool.eq_false_or_eq_true (w.prime rStar cl) with a | a
      · exact absurd hs (fun x => notboth _ _ a x)
      · exact a
    · rcases Bool.eq_false_or_eq_true (w.star rStar cPrime) with a | a
      · exact absurd a (fun x => notboth _ _ hp x)
      · exact a
  | @pathEnd w path _ hfs ih =>
    obtain ⟨hlt, hD, zr, zc, rl, cl, k, rank, hR, hrank, hP, hC⟩ := ih
    rw [hP.last_eq] at hfs
    have hdone := hP.done hR hfs
    exact ⟨(augment_spec hR hdone).1, augment_distInv hR hdone hD⟩
  | @pathNoPrime w path rStar _ hfs hfp ih =>
    obtain ⟨hlt, hD, zr, zc, rl, cl, k, rank, hR, hrank, hP, hC⟩ := ih
    rw [hP.last_eq] at hfs
    obtain ⟨-, hs, -⟩ := firstIdx_some hfs
    obtain ⟨c', hc'⟩ := hR.prime_exists hP.last_prime hs
    rw [hc'] at hfp; exact absurd hfp (by simp)

/-- The row loop of the model runs through reachable points: it ends at the path loop with
its root, or at the end of the row loop. -/
theorem scanRows_reach {cost : CostMatrix} (k : Nat) : ∀ (r r0 : Nat) (s : Scan),
    Reach cost (Point.scanAt s r0 r) → r + k = cost.nRows →
    (((scanRows cost.nCols k r s).foundZero && (scanRows cost.nCols k r s).root.isSome) = true →
      ∃ zRow zCol, (scanRows cost.nCols k r s).root = some (zRow, zCol) ∧
        Reach cost (Point.pathAt (scanRows cost.nCols k r s).w [(zRow, zCol)])) ∧
    (((scanRows cost.nCols k r s).foundZero && (scanRows cost.nCols k r s).root.isSome) = false →
      ∃ r0', Reach cost (Point.scanAt (scanRows cost.nCols k r s) r0' cost.nRows)) := by
  induction k with
  | zero =>
    intro r r0 s h hk
    simp only [scanRows]
    have e : r = cost.nRows := by omega
    subst e
    constructor
    · intro hc
      simp only [Bool.and_eq_true] at hc
      cases hroot : s.root with
      | none => rw [hroot] at hc; simp at hc
      | some p => exact ⟨p.1, p.2, rfl, Reach.scanEndRoot h hc.1 hroot⟩
    · intro _; exact ⟨r0, h⟩
  | succ k ih =>
    intro r r0 s h hk
    simp only [scanRows]
    by_cases hcr : s.w.coverRow r = true
    · simp only [hcr, if_true]
      exact ih (r + 1) r0 s (Reach.rowCovered h (by omega) hcr) (by omega)
    · have hcr : s.w.coverRow r = false := by simpa using hcr
      simp only [hcr, Bool.false_eq_true, if_false]
      by_cases hcond : ((scanRow cost.nCols r s).foundZero &&
          (scanRow cost.nCols r s).root.isSome) = true
      · rw [if_pos hcond]
        constructor
        · intro _
          simp only [Bool.and_eq_true] at hcond
          cases hroot : (scanRow cost.nCols r s).root with
          | none => rw [hroot] at hcond; simp at hcond
          | some p =>
            exact ⟨p.1, p.2, rfl, Reach.rowRoot h (by omega) hcr hcond.1 hroot⟩
        · intro hneg; rw [hcond] at hneg; exact absurd hneg (by simp)
      · rw [if_neg hcond]
        have hcond' : ((scanRow cost.nCols r s).foundZero &&
            (scanRow cost.nCols r s).root.isSome) = false := by simpa using hcond
        cases hf : firstIdx cost.nCols (fun c => !s.w.coverCol c && isZero (s.w.dist r c)) with
        | none =>
          exact ih (r + 1) r0 _ (Reach.rowNoZero h (by omega) hcr hf hcond') (by omega)
        | some c =>
          exact ih (r + 1) (r + 1) _ (Reach.rowSelected h (by omega) hcr hf hcond') (by omega)

theorem search_reach {cost : CostMatrix} : ∀ (fuel : Nat) (w : Work)
    (root : Option (Nat × Nat)) (w1 : Work) (zRow zCol : Nat),
    Reach cost (Point.searchHead w root) →
    search cost.nRows cost.nCols fuel w root = some (w1, zRow, zCol) →
    Reach cost (Point.pathAt w1 [(zRow, zCol)]) := by
  intro fuel
  induction fuel with
  | zero => intro w root w1 zr zc _ h; simp [search] at h
  | succ fuel ih =>
    intro w root w1 zr zc hreach h
    obtain ⟨h1, h2⟩ := scanRows_reach cost.nRows 0 0 ⟨w, false, root⟩
      (Reach.scanStart hreach) (by omega)
    simp only [search] at h
    generalize scanRows cost.nCols cost.nRows 0 ⟨w, false, root⟩ = s at h h1 h2
    rcases s with ⟨sw, sf, sr⟩
    cases sf with
    | true =>
      cases sr with
      | some p =>
        simp only [Option.some.injEq, Prod.mk.injEq] at h
        obtain ⟨zr', zc', e, hr⟩ := h1 (by simp)
        simp only [Option.some.injEq] at e
        subst e
        obtain ⟨e1, e2, e3⟩ := h
        subst e1; subst e2; subst e3
        exact hr
      | none =>
        obtain ⟨r0', hr⟩ := h2 (by simp)
        exact ih _ _ _ _ _ (Reach.scanEndFound hr rfl rfl) h
    | false =>
      obtain ⟨r0', hr⟩ := h2 (by simp)
      simp only at h
      cases ha : adjust cost.nRows cost.nCols sw with
      | none => rw [ha] at h; simp at h
      | some w2 =>
        rw [ha] at h
        exact ih _ _ _ _ _ (Reach.adjusted hr rfl ha) h

theorem growPath_reach {cost : CostMatrix} (w : Work) : ∀ (fuel : Nat)
    (path path' : List (Nat × Nat)), Reach cost (Point.pathAt w path) →
    growPath cost.nRows cost.nCols w fuel path = some path' →
    Reach cost (Point.loopHead (augment cost.nRows cost.nCols w path')) := by
  intro fuel
  induction fuel with
  | zero => intro path path' _ h; simp [growPath] at h
  | succ fuel ih =>
    intro path path' hreach h
    simp only [growPath] at h
    cases h1 : firstIdx cost.nRows (fun r => w.star r (path.getLastD (0, 0)).2) with
    | none =>
      rw [h1] at h
      simp only [Option.some.injEq] at h
      subst h
      exact Reach.pathEnd hreach h1
    | some rStar =>
      rw [h1] at h
      simp only at h
      cases h2 : firstIdx cost.nCols (fun c => w.prime rStar c) with
      | none =>
        rw [h2] at h
        simp only [Option.some.injEq] at h
        subst h
        exact Reach.pathNoPrime hreach h1 h2
      | some cPrime =>
        rw [h2] at h
        exact ih _ _ (Reach.pathStep hreach h1 h2) h

/-- The state in which the main loop of the model ends is reached at the loop head, with
the loop condition false. -/
theorem mainLoop_reach {cost : CostMatrix} {sf pf : Nat} : ∀ (fuel : Nat) (w w' : Work),
    Reach cost (Point.loopHead w) →
    mainLoop cost.nRows cost.nCols sf pf fuel w = some w' →
    Reach cost (Point.loopHead w') ∧
      ¬ countCoveredColumns cost.nCols w' < min cost.nRows cost.nCols := by
  intro fuel
  induction fuel with
  | zero => intro w w' _ h; simp [mainLoop] at h
  | succ fuel ih =>
    intro w w' hreach h
    rw [mainLoop] at h
    by_cases hc : countCoveredColumns cost.nCols w < min cost.nRows cost.nCols
    · rw [if_pos hc] at h
      cases h1 : search cost.nRows cost.nCols sf w none with
      | none => rw [h1] at h; simp at h
      | some res =>
        obtain ⟨w1, zr, zc⟩ := res
        rw [h1] at h
        simp only at h
        cases h2 : growPath cost.nRows cost.nCols w1 pf [(zr, zc)] with
        | none => rw [h2] at h; simp at h
        | some path =>
          rw [h2] at h
          have hp := search_reach sf w none w1 zr zc (Reach.enter hreach hc) h1
          exact ih _ _ (growPath_reach w1 pf _ _ hp h2) h
    · rw [if_neg hc] at h
      simp only [Option.some.injEq] at h
      subst h
      exact ⟨hreach, hc⟩

/-- The path builder of the model ends at a reachable head of the path loop, where the
column of the last cell holds no star. -/
theorem growPath_reach_end {cost : CostMatrix} (w : Work) : ∀ (fuel : Nat)
    (path path' : List (Nat × Nat)), Reach cost (Point.pathAt w path) →
    growPath cost.nRows cost.nCols w fuel path = some path' →
    Reach cost (Point.pathAt w path') ∧
      firstIdx cost.nRows (fun r => w.star r (path'.getLastD (0, 0)).2) = none := by
  intro fuel
  induction fuel with
  | zero => intro path path' _ h; simp [growPath] at h
  | succ fuel ih =>
    intro path path' hreach h
    simp only [growPath] at h
    cases h1 : firstIdx cost.nRows (fun r => w.star r (path.getLastD (0, 0)).2) with
    | none =>
      rw [h1] at h
      simp only [Option.some.injEq] at h
      subst h
      exact ⟨hreach, h1⟩
    | some rStar =>
      rw [h1] at h
      simp only at h
      cases h2 : firstIdx cost.nCols (fun c => w.prime rStar c) with
      | none =>
        obtain ⟨-, -, zr, zc, rl, cl, k, rank, hR, -, hP, -⟩ := reach_inv hreach
        rw [hP.last_eq] at h1
        obtain ⟨-, hs, -⟩ := firstIdx_some h1
        obtain ⟨c', hc'⟩ := hR.prime_exists hP.last_prime hs
        rw [hc'] at h2; exact absurd h2 (by simp)
      | some cPrime =>
        rw [h2] at h
        exact ih _ _ (Reach.pathStep hreach h1 h2) h

theorem starCells_congr {m n : Nat} {w w' : Work} (e : w'.star = w.star) :
    starCells m n w' = starCells m n w := by
  unfold starCells; rw [e]

/-- Claim C11 (star matrix invariant): for every valid input the star matrix has at most
one star in each row and in each column (and only inside the matrix) after the initial
greedy pass and at every evaluation of the main loop condition, so also after every
augmentation round; the state from which the assignment is extracted is such a state. -/
theorem star_matrix_invariant (cost : CostMatrix) (hv : Valid cost) :
    StarInv cost.nRows cost.nCols
      (greedyStars cost.nRows cost.nCols
        ⟨reduce cost.nRows cost.nCols cost.coeff, fun _ _ => false, fun _ _ => false,
          fun _ => false, fun _ => false⟩) ∧
    (∀ w, Reach cost (Point.loopHead w) → StarInv cost.nRows cost.nCols w) ∧
    ∃ w, mainLoop cost.nRows cost.nCols (2 * cost.nRows + 2) (cost.nRows + 1)
        (min cost.nRows cost.nCols + 1) (initialWork cost) = some w ∧
      Reach cost (Point.loopHead w) ∧ StarInv cost.nRows cost.nCols w := by
  refine ⟨(initialWork_greedy cost).stars, fun w h => (reach_inv h).1.stars, ?_⟩
  obtain ⟨w, hm, hL, -, -, -⟩ := solve_valid hv []
  exact ⟨w, hm, (mainLoop_reach _ _ _ (Reach.init hv) hm).1, hL.stars⟩

theorem star_matrix_invariant_witness :
    Valid matrixA ∧
    (StarInv matrixA.nRows matrixA.nCols
      (greedyStars matrixA.nRows matrixA.nCols
        ⟨reduce matrixA.nRows matrixA.nCols matrixA.coeff, fun _ _ => false,
          fun _ _ => false, fun _ => false, fun _ => false⟩) ∧
    (∀ w, Reach matrixA (Point.loopHead w) → StarInv matrixA.nRows matrixA.nCols w) ∧
    ∃ w, mainLoop matrixA.nRows matrixA.nCols (2 * matrixA.nRows + 2) (matrixA.nRows + 1)
        (min matrixA.nRows matrixA.nCols + 1) (initialWork matrixA) = some w ∧
      Reach matrixA (Point.loopHead w) ∧ StarInv matrixA.nRows matrixA.nCols w) :=
  ⟨by decide, star_matrix_invariant matrixA (by decide)⟩

/-- Claim C12 (each augmentation grows the matching by one): at every iteration of the
main loop (a reachable loop head with fewer than `min(m, n)` covered columns) the zero
search and the path builder return, the path consists of pairwise distinct cells, `k`
of them starred and `k + 1` primed for some `k`, and after the flip loop the number of
starred cells is exactly one more than before the iteration. -/
theorem augmentation_adds_one_star (cost : CostMatrix) (w : Work)
    (h : Reach cost (Point.loopHead w))
    (hc : countCoveredColumns cost.nCols w < min cost.nRows cost.nCols) :
    ∃ w1 zRow zCol path k,
      search cost.nRows cost.nCols (2 * cost.nRows + 2) w none = some (w1, zRow, zCol) ∧
      growPath cost.nRows cost.nCols w1 (cost.nRows + 1) [(zRow, zCol)] = some path ∧
      path.Nodup ∧
      (path.filter (fun p => w1.star p.1 p.2)).length = k ∧
      (path.filter (fun p => w1.prime p.1 p.2)).length = k + 1 ∧
      path.length = 2 * k + 1 ∧
      (starCells cost.nRows cost.nCols (path.foldl flipCell w1)).card =
        (starCells cost.nRows cost.nCols w).card + 1 := by
  obtain ⟨hL, -⟩ := reach_inv h
  have hlt : (starCols cost.nRows cost.nCols w).card < min cost.nRows cost.nCols := by
    rw [← hL.count_eq]; exact hc
  obtain ⟨w1, zr, zc, path, hs, hg, -, -, -, hL', hcard, -⟩ :=
    round_spec hL hlt (le_refl (2 * cost.nRows + 2)) (le_refl (cost.nRows + 1))
  have hp := search_reach _ w none w1 zr zc (Reach.enter h hc) hs
  obtain ⟨hend, -⟩ := growPath_reach_end w1 _ _ _ hp hg
  obtain ⟨-, -, zr', zc', rl, cl, k, rank, -, -, hP, hC⟩ := reach_inv hend
  refine ⟨w1, zr, zc, path, k, hs, hg, hP.nodup, hC.1, hC.2.1, hC.2.2, ?_⟩
  have e : starCells cost.nRows cost.nCols (path.foldl flipCell w1) =
      starCells cost.nRows cost.nCols (augment cost.nRows cost.nCols w1 path) := rfl
  rw [e, ← hL'.stars.card_starCols, hcard, hL.stars.card_starCols]

theorem augmentation_adds_one_star_witness :
    Reach matrixM2 (Point.loopHead (initialWork matrixM2)) ∧
    countCoveredColumns matrixM2.nCols (initialWork matrixM2) <
      min matrixM2.nRows matrixM2.nCols ∧
    ∃ w1 zRow zCol path k,
      search matrixM2.nRows matrixM2.nCols (2 * matrixM2.nRows + 2) (initialWork matrixM2)
        none = some (w1, zRow, zCol) ∧
      growPath matrixM2.nRows matrixM2.nCols w1 (matrixM2.nRows + 1) [(zRow, zCol)] =
        some path ∧
      path.Nodup ∧
      (path.filter (fun p => w1.star p.1 p.2)).length = k ∧
      (path.filter (fun p => w1.prime p.1 p.2)).length = k + 1 ∧
      path.length = 2 * k + 1 ∧
      (starCells matrixM2.nRows matrixM2.nCols (path.foldl flipCell w1)).card =
        (starCells matrixM2.nRows matrixM2.nCols (initialWork matrixM2)).card + 1 :=
  ⟨Reach.init (by decide), by decide,
    augmentation_adds_one_star matrixM2 (initialWork matrixM2) (Reach.init (by decide))
      (by decide)⟩

/-- Claim C13 (the exit for a starred row without prime is unreachable): at every head
of the path loop the path ends on a primed cell, and whenever the loop finds a starred
cell `(rStar, cStar)` in the column of that cell, the search for a primed cell in row
`rStar` succeeds (`cPrime` is not `-1`); so the path that the builder returns ends on
a primed cell whose column holds no star. -/
theorem path_builder_finds_prime (cost : CostMatrix) (w : Work) (path : List (Nat × Nat))
    (h : Reach cost (Point.pathAt w path)) :
    (∃ r c, path.getLast? = some (r, c) ∧ w.prime r c = true) ∧
    (∀ rStar, firstIdx cost.nRows (fun r => w.star r (path.getLastD (0, 0)).2) = some rStar →
      ∃ cPrime, firstIdx cost.nCols (fun c => w.prime rStar c) = some cPrime) ∧
    ∀ fuel path', growPath cost.nRows cost.nCols w fuel path = some path' →
      ∃ r c, path'.getLast? = some (r, c) ∧ w.prime r c = true ∧
        ∀ r', w.star r' c = false := by
  have last : ∀ p, Reach cost (Point.pathAt w p) →
      ∃ r c, p.getLast? = some (r, c) ∧ w.prime r c = true ∧
        p.getLastD (0, 0) = (r, c) := by
    intro p hp
    obtain ⟨-, -, zr, zc, rl, cl, k, rank, -, -, hP, -⟩ := reach_inv hp
    refine ⟨rl, cl, ?_, hP.last_prime, hP.last_eq⟩
    have hne : p ≠ [] := List.ne_nil_of_mem hP.last_mem
    have := hP.last_eq
    rw [List.getLastD_eq_getLast?] at this
    cases hl : p.getLast? with
    | none => exact absurd (List.getLast?_eq_none_iff.1 hl) hne
    | some x => rw [hl] at this; simpa using this
  refine ⟨?_, ?_, ?_⟩
  · obtain ⟨r, c, h1, h2, -⟩ := last path h
    exact ⟨r, c, h1, h2⟩
  · intro rStar hfs
    obtain ⟨-, -, zr, zc, rl, cl, k, rank, hR, -, hP, -⟩ := reach_inv h
    rw [hP.last_eq] at hfs
    obtain ⟨-, hs, -⟩ := firstIdx_some hfs
    exact hR.prime_exists hP.last_prime hs
  · intro fuel path' hg
    obtain ⟨hend, hnone⟩ := growPath_reach_end w fuel path path' h hg
    obtain ⟨r, c, h1, h2, h3⟩ := last path' hend
    refine ⟨r, c, h1, h2, ?_⟩
    intro r'
    obtain ⟨-, -, zr, zc, rl, cl, k, rank, hR, -, -, -⟩ := reach_inv hend
    rw [h3] at hnone
    rcases Bool.eq_false_or_eq_true (w.star r' c) with a | a
    · have := firstIdx_none hnone r' (hR.stars.star_lt r' c a).1
      exact this
    · exact a

theorem reach_matrixP_path :
    Reach matrixP (Point.pathAt
      (scanRow 2 1 (scanRow 2 0 ⟨initialWork matrixP, false, none⟩)).w [(1, 0)]) := by
  have h0 : Reach matrixP (Point.loopHead (initialWork matrixP)) := Reach.init (by decide)
  have h1 := Reach.scanStart (Reach.enter h0 (by decide))
  have h2 : Reach matrixP (Point.scanAt (scanRow 2 0 ⟨initialWork matrixP, false, none⟩) 1 1) :=
    @Reach.rowSelected matrixP _ 0 0 1 h1 (by decide) (by decide) (by decide) (by decide)
  exact @Reach.rowRoot matrixP _ 1 1 1 0 h2 (by decide) (by decide) (by decide) (by decide)

theorem path_builder_finds_prime_witness :
    Reach matrixP (Point.pathAt
      (scanRow 2 1 (scanRow 2 0 ⟨initialWork matrixP, false, none⟩)).w [(1, 0)]) ∧
    ((∃ r c, [((1 : Nat), (0 : Nat))].getLast? = some (r, c) ∧
        (scanRow 2 1 (scanRow 2 0 ⟨initialWork matrixP, false, none⟩)).w.prime r c = true) ∧
    (∀ rStar, firstIdx matrixP.nRows (fun r =>
        (scanRow 2 1 (scanRow 2 0 ⟨initialWork matrixP, false, none⟩)).w.star r
          (([((1 : Nat), (0 : Nat))] : List (Nat × Nat)).getLastD (0, 0)).2) = some rStar →
      ∃ cPrime, firstIdx matrixP.nCols (fun c =>
        (scanRow 2 1 (scanRow 2 0 ⟨initialWork matrixP, false, none⟩)).w.prime rStar c) =
          some cPrime) ∧
    ∀ fuel path', growPath matrixP.nRows matrixP.nCols
        (scanRow 2 1 (scanRow 2 0 ⟨initialWork matrixP, false, none⟩)).w fuel [(1, 0)] =
          some path' →
      ∃ r c, path'.getLast? = some (r, c) ∧
        (scanRow 2 1 (scanRow 2 0 ⟨initialWork matrixP, false, none⟩)).w.prime r c = true ∧
        ∀ r', (scanRow 2 1 (scanRow 2 0 ⟨initialWork matrixP, false, none⟩)).w.star r' c =
          false) :=
  ⟨reach_matrixP_path, path_builder_finds_prime matrixP _ _ reach_matrixP_path⟩

/-- Claim C14 (reduction seeds zeros everywhere): for every valid matrix, after the row
pass followed by the column pass every entry of the working matrix is `≥ 0`, every row
contains an entry equal to `0` and every column contains an entry equal to `0`. -/
theorem reduction_seeds_zeros (cost : CostMatrix) (hv : Valid cost) :
    (∀ i, i < cost.nRows → ∀ j, j < cost.nCols →
      0 ≤ reduce cost.nRows cost.nCols cost.coeff i j) ∧
    (∀ i, i < cost.nRows → ∃ j, j < cost.nCols ∧
      reduce cost.nRows cost.nCols cost.coeff i j = 0) ∧
    (∀ j, j < cost.nCols → ∃ i, i < cost.nRows ∧
      reduce cost.nRows cost.nCols cost.coeff i j = 0) := by
  obtain ⟨hm, hn, -⟩ := hv
  refine ⟨fun i hi j hj => reduce_nonneg _ _ _ hi hj, ?_, ?_⟩
  · intro i hi
    obtain ⟨j, hj, hmin⟩ := minCoeff_attained (fun c => cost.coeff i c) hn
    refine ⟨j, hj, ?_⟩
    have h0 := reduce_nonneg cost.nRows cost.nCols cost.coeff hi hj
    rw [reduce_apply _ _ _ hi hj] at h0 ⊢
    obtain ⟨i', hi', hcol⟩ := minCoeff_attained
      (fun r => cost.coeff r j - minCoeff (fun c => cost.coeff r c) cost.nCols) hm
    have hle := minCoeff_le (fun c => cost.coeff i' c) hj
    simp only at hmin hcol hle
    omega
  · intro j hj
    obtain ⟨i, hi, hcol⟩ := minCoeff_attained
      (fun r => cost.coeff r j - minCoeff (fun c => cost.coeff r c) cost.nCols) hm
    refine ⟨i, hi, ?_⟩
    rw [reduce_apply _ _ _ hi hj]
    omega

theorem reduction_seeds_zeros_witness :
    Valid matrixH ∧
    ((∀ i, i < matrixH.nRows → ∀ j, j < matrixH.nCols →
      0 ≤ reduce matrixH.nRows matrixH.nCols matrixH.coeff i j) ∧
    (∀ i, i < matrixH.nRows → ∃ j, j < matrixH.nCols ∧
      reduce matrixH.nRows matrixH.nCols matrixH.coeff i j = 0) ∧
    (∀ j, j < matrixH.nCols → ∃ i, i < matrixH.nRows ∧
      reduce matrixH.nRows matrixH.nCols matrixH.coeff i j = 0)) :=
  ⟨by decide, reduction_seeds_zeros matrixH (by decide)⟩

/-- Claim C15, evaluation of the code where it departs from the claim: on the wide
matrix `[[2,1]]` the matchings `[0]` and `[1]` cost `0` and `0` on the reduced matrix
but `2` and `1` on the original one; on the tall matrix `[[2],[1]]` the matchings
`[0,-1]` and `[-1,0]` cost `0` and `0` on the reduced matrix but `2` and `1` on the
original one.  The order on the reduced matrix is not the order of the original costs. -/
theorem reduction_changes_order_rectangular :
    (IsMatching matrixWide [0] ∧ IsMatching matrixWide [1] ∧
      totalCost (reducedMatrix matrixWide) [0] ≤ totalCost (reducedMatrix matrixWide) [1] ∧
      ¬ totalCost matrixWide [0] ≤ totalCost matrixWide [1]) ∧
    (IsMatching matrixTall [0, -1] ∧ IsMatching matrixTall [-1, 0] ∧
      totalCost (reducedMatrix matrixTall) [0, -1] ≤
        totalCost (reducedMatrix matrixTall) [-1, 0] ∧
      ¬ totalCost matrixTall [0, -1] ≤ totalCost matrixTall [-1, 0]) := by
  refine ⟨⟨?_, ?_, ?_, ?_⟩, ⟨?_, ?_, ?_, ?_⟩⟩ <;> decide

/-- Values of step 5 when some row and some column are uncovered and no uncovered cell is
a zero: `h` is the least uncovered entry, it is positive, and the new distances are the
old ones plus `h` in covered rows minus `h` in uncovered columns. -/
theorem adjust_values {m n : Nat} {w : Work}
    (hex : ∃ r c, r < m ∧ c < n ∧ w.coverRow r = false ∧ w.coverCol c = false)
    (hno : ∀ r, r < m → w.coverRow r = false → ∀ c, c < n → w.coverCol c = false →
      isZero (w.dist r c) = false) :
    ∃ hval w1, minUncovered m n w = some hval ∧ adjust m n w = some w1 ∧
      w1.star = w.star ∧ w1.prime = w.prime ∧ w1.coverRow = w.coverRow ∧
      w1.coverCol = w.coverCol ∧
      (∀ r c, r < m → c < n → w.coverRow r = false → w.coverCol c = false →
        hval ≤ w.dist r c) ∧
      (∃ r c, r < m ∧ c < n ∧ w.coverRow r = false ∧ w.coverCol c = false ∧
        w.dist r c = hval) ∧
      0 < hval ∧
      ∀ r c, r < m → c < n →
        w1.dist r c = w.dist r c + (if w.coverRow r = true then hval else 0) -
          (if w.coverCol c = false then hval else 0) := by
  have hmin := minUncovered_spec m n w
  unfold adjust
  cases hv : minUncovered m n w with
  | none =>
    obtain ⟨r, c, h1, h2, h3, h4⟩ := hex
    exact absurd ⟨h1, h2, h3, h4⟩ (hmin.1 hv r c)
  | some hval =>
    obtain ⟨hle, r0, c0, ⟨hr0, hc0, hcr0, hcc0⟩, hd0⟩ := hmin.2 hval hv
    have hpos : 1 ≤ hval := by
      have := hno r0 hr0 hcr0 c0 hc0 hcc0
      rw [isZero_false_iff] at this
      omega
    refine ⟨hval, _, rfl, rfl, rfl, rfl, rfl, rfl, ?_, ⟨r0, c0, hr0, hc0, hcr0, hcc0, hd0⟩,
      by omega, ?_⟩
    · intro r c hr hc a b
      exact hle r c ⟨hr, hc, a, b⟩
    · intro r c hr hc
      simp only
      rw [subFromUncoveredCols_apply, addToCoveredRows_apply]
      by_cases a : w.coverRow r = true <;> by_cases b : w.coverCol c = false <;>
        simp [hr, hc, a, b]

/-- Covered rows and covered columns together are as many as the stars. -/
theorem cover_count {m n : Nat} {w : Work} (hS : StarInv m n w) (hC : CoverInv m n w) :
    (coveredRows m w).card + (coveredCols n w).card = (starCells m n w).card := by
  have hA : (coveredRows m w).card =
      ((starCells m n w).filter (fun p => w.coverRow p.1 = true)).card := by
    have : coveredRows m w =
        ((starCells m n w).filter (fun p => w.coverRow p.1 = true)).image Prod.fst := by
      ext r
      simp only [coveredRows, starCells, Finset.mem_filter, Finset.mem_range,
        Finset.mem_image, Finset.mem_product, Prod.exists, exists_and_right, exists_eq_right]
      constructor
      · rintro ⟨hr, hc⟩
        obtain ⟨c, hs⟩ := hC.coverRow_star r hc
        exact ⟨⟨c, ⟨hr, (hS.star_lt r c hs).2⟩, hs⟩, hc⟩
      · rintro ⟨⟨c, ⟨hr, -⟩, -⟩, hc⟩
        exact ⟨hr, hc⟩
    rw [this]
    apply Finset.card_image_of_injOn
    intro p hp q hq e
    simp only [starCells, Finset.coe_filter, Finset.mem_filter, Finset.mem_product,
      Finset.mem_range, Set.mem_setOf_eq] at hp hq
    obtain ⟨p1, p2⟩ := p
    obtain ⟨q1, q2⟩ := q
    simp only at e hp hq
    subst e
    rw [hS.star_row p1 p2 q2 hp.1.2 hq.1.2]
  have hB : (coveredCols n w).card =
      ((starCells m n w).filter (fun p => ¬ w.coverRow p.1 = true)).card := by
    have : coveredCols n w =
        ((starCells m n w).filter (fun p => ¬ w.coverRow p.1 = true)).image Prod.snd := by
      ext c
      simp only [coveredCols, starCells, Finset.mem_filter, Finset.mem_range,
        Finset.mem_image, Finset.mem_product, Prod.exists, exists_eq_right]
      constructor
      · rintro ⟨hc, hcc⟩
        obtain ⟨r, hs⟩ := hC.coverCol_star c hcc
        refine ⟨r, ⟨⟨(hS.star_lt r c hs).1, hc⟩, hs⟩, ?_⟩
        intro hcr
        have := (hC.cover_xor r c hs).1 hcr
        rw [hcc] at this; exact absurd this (by simp)
      · rintro ⟨r, ⟨⟨-, hc⟩, hs⟩, hcr⟩
        refine ⟨hc, ?_⟩
        rcases Bool.eq_false_or_eq_true (w.coverCol c) with a | a
        · exact a
        · exact absurd ((hC.cover_xor r c hs).2 a) hcr
    rw [this]
    apply Finset.card_image_of_injOn
    intro p hp q hq e
    simp only [starCells, Finset.coe_filter, Finset.mem_filter, Finset.mem_product,
      Finset.mem_range, Set.mem_setOf_eq] at hp hq
    obtain ⟨p1, p2⟩ := p
    obtain ⟨q1, q2⟩ := q
    simp only at e hp hq
    subst e
    rw [hS.star_col p1 q1 p2 hp.1.2 hq.1.2]
  rw [hA, hB]
  exact Finset.filter_card_add_filter_neg_card_eq_card _

theorem reach_passTwoAdj : Reach matrixAdj (Point.scanAt passTwoAdj 0 matrixAdj.nRows) := by
  have h0 : Reach matrixAdj (Point.loopHead (initialWork matrixAdj)) :=
    Reach.init (by decide)
  have a0 := Reach.scanStart (Reach.enter h0 (by decide))
  have a1 : Reach matrixAdj
      (Point.scanAt (scanRow 3 0 ⟨initialWork matrixAdj, false, none⟩) 1 1) :=
    @Reach.rowSelected matrixAdj _ 0 0 2 a0 (by decide) (by decide) (by decide) (by decide)
  have a2 : Reach matrixAdj
      (Point.scanAt (scanRow 3 1 (scanRow 3 0 ⟨initialWork matrixAdj, false, none⟩)) 1 2) :=
    @Reach.rowNoZero matrixAdj _ 1 1 a1 (by decide) (by decide) (by decide) (by decide)
  have a3 : Reach matrixAdj (Point.scanAt passOneAdj 1 3) :=
    @Reach.rowNoZero matrixAdj _ 1 2 a2 (by decide) (by decide) (by decide) (by decide)
  have b0 : Reach matrixAdj (Point.scanAt ⟨passOneAdj.w, false, passOneAdj.root⟩ 0 0) :=
    Reach.scanStart (@Reach.scanEndFound matrixAdj passOneAdj 1 a3 (by decide) (by decide))
  have b1 : Reach matrixAdj (Point.scanAt ⟨passOneAdj.w, false, passOneAdj.root⟩ 0 1) :=
    @Reach.rowCovered matrixAdj _ 0 0 b0 (by decide) (by decide)
  have b2 : Reach matrixAdj
      (Point.scanAt (scanRow 3 1 ⟨passOneAdj.w, false, passOneAdj.root⟩) 0 2) :=
    @Reach.rowNoZero matrixAdj _ 0 1 b1 (by decide) (by decide) (by decide) (by decide)
  exact @Reach.rowNoZero matrixAdj _ 0 2 b2 (by decide) (by decide) (by decide) (by decide)

/-- Claim C16 (adjustment makes progress): whenever the adjustment step runs (the row
loop of the scan has ended with `foundZero` false), no uncovered cell is a zero, the
value `h` it computes is the minimum over the uncovered cells and is `> 0`, the step adds
`h` to every covered row and subtracts it from every uncovered column, afterwards some
cell in an uncovered row and an uncovered column is exactly `0`, and the next scan finds
a zero. -/
theorem adjustment_makes_progress (cost : CostMatrix) (s : Scan) (r0 : Nat)
    (h : Reach cost (Point.scanAt s r0 cost.nRows)) (hf : s.foundZero = false) :
    (∀ r c, r < cost.nRows → c < cost.nCols → s.w.coverRow r = false →
      s.w.coverCol c = false → isZero (s.w.dist r c) = false) ∧
    ∃ hval w1, minUncovered cost.nRows cost.nCols s.w = some hval ∧
      adjust cost.nRows cost.nCols s.w = some w1 ∧
      (∀ r c, r < cost.nRows → c < cost.nCols → s.w.coverRow r = false →
        s.w.coverCol c = false → hval ≤ s.w.dist r c) ∧
      (∃ r c, r < cost.nRows ∧ c < cost.nCols ∧ s.w.coverRow r = false ∧
        s.w.coverCol c = false ∧ s.w.dist r c = hval) ∧
      0 < hval ∧
      (∀ r c, r < cost.nRows → c < cost.nCols →
        w1.dist r c = s.w.dist r c + (if s.w.coverRow r = true then hval else 0) -
          (if s.w.coverCol c = false then hval else 0)) ∧
      (∃ r c, r < cost.nRows ∧ c < cost.nCols ∧ w1.coverRow r = false ∧
        w1.coverCol c = false ∧ w1.dist r c = 0) ∧
      (scanRows cost.nCols cost.nRows 0 ⟨w1, false, s.root⟩).foundZero = true := by
  obtain ⟨hS, hroot, hlt, -, -, -, h3, h4⟩ := reach_inv h
  have hr0 := h3 hf
  subst hr0
  have hno : ∀ r, r < cost.nRows → s.w.coverRow r = false → ∀ c, c < cost.nCols →
      s.w.coverCol c = false → isZero (s.w.dist r c) = false :=
    fun r hr hcr c hc hcc => h4 r (Nat.zero_le _) hr hcr c hc hcc
  refine ⟨fun r c hr hc a b => hno r hr a c hc b, ?_⟩
  obtain ⟨hval, w1, hmin, hadj, e1, e2, e3, e4, hle, ⟨r, c, hr, hc, hcr, hcc, hd⟩, hpos,
    hdist⟩ := adjust_values (hS.exists_uncovered hlt) hno
  have hzero : w1.dist r c = 0 := by
    rw [hdist r c hr hc, hcr, hcc, hd]
    simp
  refine ⟨hval, w1, hmin, hadj, hle, ⟨r, c, hr, hc, hcr, hcc, hd⟩, hpos, hdist,
    ⟨r, c, hr, hc, by rw [e3]; exact hcr, by rw [e4]; exact hcc, hzero⟩, ?_⟩
  obtain ⟨-, hpost⟩ := @scanRows_spec cost.nRows cost.nCols cost.nRows 0 ⟨w1, false, s.root⟩
    (by omega) (hS.of_eq e1 e2 e3 e4) hroot
  rcases hpost with ⟨-, hnone⟩ | ⟨-, hfound, -, -⟩ | ⟨zr, zc, -, hfound, -⟩
  · have := hnone r (Nat.zero_le _) hr (by rw [e3]; exact hcr) c hc (by rw [e4]; exact hcc)
    simp only at this
    rw [hzero] at this
    exact absurd this (by decide)
  · exact hfound
  · exact hfound

theorem adjustment_makes_progress_witness :
    Reach matrixAdj (Point.scanAt passTwoAdj 0 matrixAdj.nRows) ∧
    passTwoAdj.foundZero = false ∧
    ((∀ r c, r < matrixAdj.nRows → c < matrixAdj.nCols → passTwoAdj.w.coverRow r = false →
      passTwoAdj.w.coverCol c = false → isZero (passTwoAdj.w.dist r c) = false) ∧
    ∃ hval w1, minUncovered matrixAdj.nRows matrixAdj.nCols passTwoAdj.w = some hval ∧
      adjust matrixAdj.nRows matrixAdj.nCols passTwoAdj.w = some w1 ∧
      (∀ r c, r < matrixAdj.nRows → c < matrixAdj.nCols → passTwoAdj.w.coverRow r = false →
        passTwoAdj.w.coverCol c = false → hval ≤ passTwoAdj.w.dist r c) ∧
      (∃ r c, r < matrixAdj.nRows ∧ c < matrixAdj.nCols ∧ passTwoAdj.w.coverRow r = false ∧
        passTwoAdj.w.coverCol c = false ∧ passTwoAdj.w.dist r c = hval) ∧
      0 < hval ∧
      (∀ r c, r < matrixAdj.nRows → c < matrixAdj.nCols →
        w1.dist r c = passTwoAdj.w.dist r c +
            (if passTwoAdj.w.coverRow r = true then hval else 0) -
          (if passTwoAdj.w.coverCol c = false then hval else 0)) ∧
      (∃ r c, r < matrixAdj.nRows ∧ c < matrixAdj.nCols ∧ w1.coverRow r = false ∧
        w1.coverCol c = false ∧ w1.dist r c = 0) ∧
      (scanRows matrixAdj.nCols matrixAdj.nRows 0 ⟨w1, false, passTwoAdj.root⟩).foundZero =
        true) :=
  ⟨reach_passTwoAdj, by decide,
    adjustment_makes_progress matrixAdj passTwoAdj 0 reach_passTwoAdj (by decide)⟩

/-- Claim C18 (the adjustment minimum is taken over a non-empty set): at every point of
the zero search the number of covered rows plus the number of covered columns equals the
number of stars, which is below `min(m, n)`; and whenever the adjustment step runs, some
row and some column are uncovered and `h` is the entry of an uncovered cell of the
matrix, not the initial `+infinity` (`none`). -/
theorem adjustment_minimum_is_finite (cost : CostMatrix) (s : Scan) (r0 r : Nat)
    (h : Reach cost (Point.scanAt s r0 r)) :
    (coveredRows cost.nRows s.w).card + (coveredCols cost.nCols s.w).card =
      (starCells cost.nRows cost.nCols s.w).card ∧
    (starCells cost.nRows cost.nCols s.w).card < min cost.nRows cost.nCols ∧
    (r = cost.nRows → s.foundZero = false →
      (∃ i, i < cost.nRows ∧ s.w.coverRow i = false) ∧
      (∃ j, j < cost.nCols ∧ s.w.coverCol j = false) ∧
      ∃ hval i j, minUncovered cost.nRows cost.nCols s.w = some hval ∧
        i < cost.nRows ∧ j < cost.nCols ∧ s.w.coverRow i = false ∧
        s.w.coverCol j = false ∧ hval = s.w.dist i j) := by
  obtain ⟨hS, -, hlt, -, -, -, h3, h4⟩ := reach_inv h
  refine ⟨cover_count hS.stars hS.covers, ?_, ?_⟩
  · rw [← hS.stars.card_starCols]; exact hlt
  · intro hr hf
    subst hr
    have hr0 := h3 hf
    subst hr0
    obtain ⟨i, j, hi, hj, hci, hcj⟩ := hS.exists_uncovered hlt
    obtain ⟨hval, w1, hmin, -, -, -, -, -, -, ⟨i', j', a, b, c, d, e⟩, -, -⟩ :=
      adjust_values (hS.exists_uncovered hlt)
        (fun r hr hcr c hc hcc => h4 r (Nat.zero_le _) hr hcr c hc hcc)
    exact ⟨⟨i, hi, hci⟩, ⟨j, hj, hcj⟩, hval, i', j', hmin, a, b, c, d, e.symm⟩

theorem adjustment_minimum_is_finite_witness :
    Reach matrixAdj (Point.scanAt passTwoAdj 0 matrixAdj.nRows) ∧
    ((coveredRows matrixAdj.nRows passTwoAdj.w).card +
        (coveredCols matrixAdj.nCols passTwoAdj.w).card =
      (starCells matrixAdj.nRows matrixAdj.nCols passTwoAdj.w).card ∧
    (starCells matrixAdj.nRows matrixAdj.nCols passTwoAdj.w).card <
      min matrixAdj.nRows matrixAdj.nCols ∧
    (matrixAdj.nRows = matrixAdj.nRows → passTwoAdj.foundZero = false →
      (∃ i, i < matrixAdj.nRows ∧ passTwoAdj.w.coverRow i = false) ∧
      (∃ j, j < matrixAdj.nCols ∧ passTwoAdj.w.coverCol j = false) ∧
      ∃ hval i j, minUncovered matrixAdj.nRows matrixAdj.nCols passTwoAdj.w = some hval ∧
        i < matrixAdj.nRows ∧ j < matrixAdj.nCols ∧ passTwoAdj.w.coverRow i = false ∧
        passTwoAdj.w.coverCol j = false ∧ hval = passTwoAdj.w.dist i j)) :=
  ⟨reach_passTwoAdj,
    adjustment_minimum_is_finite matrixAdj passTwoAdj 0 matrixAdj.nRows reach_passTwoAdj⟩

/-- Claim C19 (working matrix invariant): at every point that the run of `solve` on a
valid input reaches (the first is the state after reduction and the greedy pass, and the
head of the zero search after every adjustment step is one), all entries of the working
distance matrix are `≥ 0`, every starred cell and every primed cell has working distance
exactly `0`, and `dist(i, j) = cost(i, j) - u i - v j` for some `u` and `v`. -/
theorem working_matrix_invariant (cost : CostMatrix) (p : Point) (h : Reach cost p) :
    (∀ r, r < cost.nRows → ∀ c, c < cost.nCols → 0 ≤ p.work.dist r c) ∧
    (∀ r c, p.work.star r c = true → p.work.dist r c = 0) ∧
    (∀ r c, p.work.prime r c = true → p.work.dist r c = 0) ∧
    ∃ u v : Nat → Int, ∀ r, r < cost.nRows → ∀ c, c < cost.nCols →
      p.work.dist r c = cost.coeff r c - u r - v c := by
  have hD : DistInv cost p.work := by
    have := reach_inv h
    cases p with
    | loopHead w => exact this.2
    | searchHead w root => exact this.2.2.2
    | scanAt s r0 r => exact this.2.2.2.1
    | pathAt w path => exact this.2.1
  exact ⟨hD.nonneg, hD.star_zero, hD.prime_zero, hD.potential⟩

theorem working_matrix_invariant_witness :
    Reach matrixAdj (Point.scanAt passTwoAdj 0 matrixAdj.nRows) ∧
    ((∀ r, r < matrixAdj.nRows → ∀ c, c < matrixAdj.nCols →
        0 ≤ (Point.scanAt passTwoAdj 0 matrixAdj.nRows).work.dist r c) ∧
    (∀ r c, (Point.scanAt passTwoAdj 0 matrixAdj.nRows).work.star r c = true →
      (Point.scanAt passTwoAdj 0 matrixAdj.nRows).work.dist r c = 0) ∧
    (∀ r c, (Point.scanAt passTwoAdj 0 matrixAdj.nRows).work.prime r c = true →
      (Point.scanAt passTwoAdj 0 matrixAdj.nRows).work.dist r c = 0) ∧
    ∃ u v : Nat → Int, ∀ r, r < matrixAdj.nRows → ∀ c, c < matrixAdj.nCols →
      (Point.scanAt passTwoAdj 0 matrixAdj.nRows).work.dist r c =
        matrixAdj.coeff r c - u r - v c) :=
  ⟨reach_passTwoAdj, working_matrix_invariant matrixAdj _ reach_passTwoAdj⟩

theorem reach_scanZ_row1 :
    Reach matrixZ (Point.scanAt (scanRow 3 0 ⟨initialWork matrixZ, false, none⟩) 0 1) := by
  have h0 : Reach matrixZ (Point.loopHead (initialWork matrixZ)) := Reach.init (by decide)
  have a0 := Reach.scanStart (Reach.enter h0 (by decide))
  exact @Reach.rowNoZero matrixZ _ 0 0 a0 (by decide) (by decide) (by decide) (by decide)

theorem reach_scanZ : Reach matrixZ (Point.scanAt scanZ 2 2) :=
  @Reach.rowSelected matrixZ _ 0 1 2 reach_scanZ_row1 (by decide) (by decide) (by decide)
    (by decide)

/-- Claim C17 as stated fails on `matrixZ = [[0,0,1],[1,0,0],[1,0,1]]`: after row `1` is
covered and column `1` uncovered, the scan goes on at row `2` and selects `(2, 1)`, while
`(0, 1)`, earlier in row-major order, is a zero in an uncovered row and an uncovered
column. -/
theorem row_major_first_counterexample :
    ¬ (∀ (s : Scan) (r0 r c : Nat), Reach matrixZ (Point.scanAt s r0 r) →
        r < matrixZ.nRows → s.w.coverRow r = false →
        firstIdx matrixZ.nCols (fun c => !s.w.coverCol c && isZero (s.w.dist r c)) = some c →
        ∀ r' c', r' < matrixZ.nRows → c' < matrixZ.nCols → (r' < r ∨ (r' = r ∧ c' < c)) →
          ¬ (s.w.coverRow r' = false ∧ s.w.coverCol c' = false ∧
            isZero (s.w.dist r' c') = true)) := by
  intro hall
  have := hall scanZ 2 2 1 reach_scanZ (by decide) (by decide) (by decide) 0 1 (by decide)
    (by decide) (Or.inl (by decide))
  exact this (by decide)

/-- What the column loop of the scan does in row `r` (lines 137-174): nothing when the row
has no uncovered zero; else it primes the first uncovered zero `(r, c)` of the row, sets
`foundZero`, and either makes `(r, c)` the root (no star in the row) or covers the row and
uncovers the column of the row's star. -/
theorem scanRow_cases (n r : Nat) (s : Scan) :
    (firstIdx n (fun c => !s.w.coverCol c && isZero (s.w.dist r c)) = none ∧
      scanRow n r s = s) ∨
    ∃ c, firstIdx n (fun c => !s.w.coverCol c && isZero (s.w.dist r c)) = some c ∧
      (scanRow n r s).w.prime = setMat s.w.prime r c true ∧
      (scanRow n r s).foundZero = true ∧
      ((firstIdx n (fun cc => s.w.star r cc) = none ∧ (scanRow n r s).root = some (r, c)) ∨
       ∃ sc, firstIdx n (fun cc => s.w.star r cc) = some sc ∧
        (scanRow n r s).root = s.root ∧
        (scanRow n r s).w.coverRow = setVec s.w.coverRow r true ∧
        (scanRow n r s).w.coverCol = setVec s.w.coverCol sc false) := by
  cases hf : firstIdx n (fun c => !s.w.coverCol c && isZero (s.w.dist r c)) with
  | none => exact Or.inl ⟨rfl, scanRow_none hf⟩
  | some c =>
    refine Or.inr ⟨c, rfl, ?_⟩
    cases hs : firstIdx n (fun cc => s.w.star r cc) with
    | none =>
      have e : scanRow n r s =
          { w := { s.w with prime := setMat s.w.prime r c true }
            foundZero := true, root := some (r, c) } := by
        unfold scanRow
        simp only [hf, hs]
      rw [e]
      exact ⟨rfl, rfl, Or.inl ⟨rfl, rfl⟩⟩
    | some sc =>
      have e : scanRow n r s =
          { w := { s.w with prime := setMat s.w.prime r c true
                            coverRow := setVec s.w.coverRow r true
                            coverCol := setVec s.w.coverCol sc false }
            foundZero := true, root := s.root } := by
        unfold scanRow
        simp only [hf, hs]
      rw [e]
      exact ⟨rfl, rfl, Or.inr ⟨sc, rfl, rfl, rfl, rfl⟩⟩

/-- Claim C17, amended (tie-break of the zero search).  The scan stands at row `r`, an
uncovered row, of a reachable state; `r0` is the row after the row covered last in the
current pass of the row loop, and row `0` when no row has been covered in this pass
(`foundZero` still false).  The cell that the column loop of lines 137-174 selects is the
cell it primes.  Every such cell `(i, j)` lies in row `r`, is a zero in an uncovered
column, and is the first zero in an uncovered row and column, in row-major order, among
the rows from `r0` on; `foundZero` is set, and either the cell becomes the root and the
path loop starts from it, or row `r` is covered, the column of its star uncovered, and the
scan goes on at row `r + 1` with `r0 = r + 1`: rows before it are looked at again only in
the next pass.  Whenever row `r` holds a zero in an uncovered column a cell is selected;
otherwise nothing changes and the scan goes on at row `r + 1` with the same `r0`. -/
theorem row_major_first_from_last_cover (cost : CostMatrix) (s : Scan) (r0 r : Nat)
    (h : Reach cost (Point.scanAt s r0 r)) (hr : r < cost.nRows)
    (hcr : s.w.coverRow r = false) :
    (∀ i j, (scanRow cost.nCols r s).w.prime i j = true → s.w.prime i j = false →
      i = r ∧ j < cost.nCols ∧ s.w.coverCol j = false ∧ isZero (s.w.dist r j) = true ∧
      (∀ r' c', r0 ≤ r' → c' < cost.nCols → (r' < r ∨ (r' = r ∧ c' < j)) →
        ¬ (s.w.coverRow r' = false ∧ s.w.coverCol c' = false ∧
          isZero (s.w.dist r' c') = true)) ∧
      (scanRow cost.nCols r s).foundZero = true ∧
      (((scanRow cost.nCols r s).root = some (r, j) ∧
          (∀ cc, cc < cost.nCols → s.w.star r cc = false) ∧
          Reach cost (Point.pathAt (scanRow cost.nCols r s).w [(r, j)])) ∨
        ((scanRow cost.nCols r s).root = none ∧
          (scanRow cost.nCols r s).w.coverRow r = true ∧
          (∃ sc, sc < cost.nCols ∧ s.w.star r sc = true ∧
            (scanRow cost.nCols r s).w.coverCol sc = false) ∧
          Reach cost (Point.scanAt (scanRow cost.nCols r s) (r + 1) (r + 1))))) ∧
    ((∃ j, j < cost.nCols ∧ s.w.coverCol j = false ∧ isZero (s.w.dist r j) = true) →
      ∃ j, (scanRow cost.nCols r s).w.prime r j = true ∧ s.w.prime r j = false) ∧
    ((∀ j, j < cost.nCols → s.w.coverCol j = false → isZero (s.w.dist r j) = false) →
      scanRow cost.nCols r s = s ∧ Reach cost (Point.scanAt s r0 (r + 1))) ∧
    (s.foundZero = false → r0 = 0) ∧ r0 ≤ r := by
  obtain ⟨hS, hroot, -, -, h1, -, h3, h4⟩ := reach_inv h
  rcases scanRow_cases cost.nCols r s with ⟨hnone, heq⟩ | ⟨c, hf, hprime, hfz, hcase⟩
  · refine ⟨?_, ?_, ?_, h3, h1⟩
    · intro i j hp hq
      rw [heq, hq] at hp
      exact absurd hp (by simp)
    · rintro ⟨j, hj, hcj, hz⟩
      have := firstIdx_none hnone j hj
      simp [hcj, hz] at this
    · intro _
      refine ⟨heq, ?_⟩
      have hreach := Reach.rowNoZero h hr hcr hnone (by rw [heq, hroot]; simp)
      rw [heq] at hreach
      exact hreach
  · obtain ⟨hc, hp, hfirst⟩ := firstIdx_some hf
    simp only [Bool.and_eq_true, Bool.not_eq_true'] at hp
    have hpr : s.w.prime r c = false := by
      rcases Bool.eq_false_or_eq_true (s.w.prime r c) with e | e
      · have := hS.prime_covered r c e
        rw [hcr] at this
        exact absurd this (by simp)
      · exact e
    refine ⟨?_, ?_, ?_, h3, h1⟩
    · intro i j hpij hq
      rw [hprime, setMat_true_iff] at hpij
      rcases hpij with ⟨ei, ej⟩ | hold
      · subst ei; subst ej
        refine ⟨rfl, hc, hp.1, hp.2, ?_, hfz, ?_⟩
        · intro r' c' hr0 hc' hlt ⟨a, b, z⟩
          rcases hlt with hlt | ⟨e, hlt⟩
          · have := h4 r' hr0 hlt a c' hc' b
            rw [z] at this; exact absurd this (by simp)
          · subst e
            have := hfirst c' hlt
            simp [b, z] at this
        · rcases hcase with ⟨hs, hrt⟩ | ⟨sc, hs, hrt, hcovr, hcovc⟩
          · refine Or.inl ⟨hrt, firstIdx_none hs, ?_⟩
            exact Reach.rowRoot h hr hcr hfz hrt
          · obtain ⟨hsc, hstar, -⟩ := firstIdx_some hs
            refine Or.inr ⟨by rw [hrt, hroot], ?_, ⟨sc, hsc, hstar, ?_⟩, ?_⟩
            · rw [hcovr]; simp [setVec]
            · rw [hcovc]; simp [setVec]
            · exact Reach.rowSelected h hr hcr hf (by rw [hrt, hroot]; simp)
      · rw [hq] at hold
        exact absurd hold (by simp)
    · intro _
      refine ⟨c, ?_, hpr⟩
      rw [hprime, setMat_true_iff]
      exact Or.inl ⟨rfl, rfl⟩
    · intro hno
      have := hno c hc hp.1
      rw [hp.2] at this
      exact absurd this (by simp)

theorem row_major_first_from_last_cover_witness :
    Reach matrixZ (Point.scanAt scanZ 2 2) ∧ 2 < matrixZ.nRows ∧
    scanZ.w.coverRow 2 = false ∧
    ((∀ i j, (scanRow matrixZ.nCols 2 scanZ).w.prime i j = true → scanZ.w.prime i j = false →
      i = 2 ∧ j < matrixZ.nCols ∧ scanZ.w.coverCol j = false ∧
      isZero (scanZ.w.dist 2 j) = true ∧
      (∀ r' c', 2 ≤ r' → c' < matrixZ.nCols → (r' < 2 ∨ (r' = 2 ∧ c' < j)) →
        ¬ (scanZ.w.coverRow r' = false ∧ scanZ.w.coverCol c' = false ∧
          isZero (scanZ.w.dist r' c') = true)) ∧
      (scanRow matrixZ.nCols 2 scanZ).foundZero = true ∧
      (((scanRow matrixZ.nCols 2 scanZ).root = some (2, j) ∧
          (∀ cc, cc < matrixZ.nCols → scanZ.w.star 2 cc = false) ∧
          Reach matrixZ (Point.pathAt (scanRow matrixZ.nCols 2 scanZ).w [(2, j)])) ∨
        ((scanRow matrixZ.nCols 2 scanZ).root = none ∧
          (scanRow matrixZ.nCols 2 scanZ).w.coverRow 2 = true ∧
          (∃ sc, sc < matrixZ.nCols ∧ scanZ.w.star 2 sc = true ∧
            (scanRow matrixZ.nCols 2 scanZ).w.coverCol sc = false) ∧
          Reach matrixZ (Point.scanAt (scanRow matrixZ.nCols 2 scanZ) (2 + 1) (2 + 1))))) ∧
    ((∃ j, j < matrixZ.nCols ∧ scanZ.w.coverCol j = false ∧
        isZero (scanZ.w.dist 2 j) = true) →
      ∃ j, (scanRow matrixZ.nCols 2 scanZ).w.prime 2 j = true ∧ scanZ.w.prime 2 j = false) ∧
    ((∀ j, j < matrixZ.nCols → scanZ.w.coverCol j = false →
        isZero (scanZ.w.dist 2 j) = false) →
      scanRow matrixZ.nCols 2 scanZ = scanZ ∧ Reach matrixZ (Point.scanAt scanZ 2 (2 + 1))) ∧
    (scanZ.foundZero = false → 2 = 0) ∧ 2 ≤ 2) :=
  ⟨reach_scanZ, by decide, by decide,
    row_major_first_from_last_cover matrixZ scanZ 2 2 reach_scanZ (by decide) (by decide)⟩

end HungarianEigen


